import Mathlib

/-!
Shallow embedding of the core profile graph model of gprof2dot.py
(entity model, validation, cycle membership, call-ratio computation,
the integration engine and pruning), together with theorems that settle
the specification claims against it.

Modelling conventions:
* Python floats are modelled as exact rationals (ℚ); the tolerance
  constants (2 ** -23, 1e-7, 0.001) are carried over as exact rationals.
* Python dicts are association lists in insertion order: assignment
  replaces in place or appends, deletion removes the entry, lookup takes
  the first match (a real dict has unique keys, so this is faithful).
* Python objects referenced from several places (Function, Cycle) are
  represented by their key in the owning dict / store, and mutation is
  explicit state passing over the whole Profile.
* An uncaught Python exception (failed assert, KeyError, TypeError,
  UndefinedEvent, ZeroDivisionError) is modelled as the result
  Res.abort; recursion is fuelled and exhaustion is the distinct result
  Res.fuel.
-/

set_option maxHeartbeats 1000000

namespace Gprof

/-- Outcome of running a fuelled fragment of the program: a normal
return, an abort (uncaught exception / failed assert), or running out
of fuel. -/
inductive Res (α : Type) : Type
  | ok : α → Res α
  | abort : Res α
  | fuel : Res α
  deriving DecidableEq

def Res.bind {α β : Type} : Res α → (α → Res β) → Res β
  | .ok a, f => f a
  | .abort, _ => .abort
  | .fuel, _ => .fuel

/-- Python dict lookup (first entry with the given key). -/
def alookup {α : Type} : List (Nat × α) → Nat → Option α
  | [], _ => none
  | (k, v) :: rest, key => if k = key then some v else alookup rest key

/-- Python dict assignment: replace in place if the key is present,
append otherwise. -/
def aset {α : Type} : List (Nat × α) → Nat → α → List (Nat × α)
  | [], key, v => [(key, v)]
  | (k, w) :: rest, key, v =>
    if k = key then (key, v) :: rest else (k, w) :: aset rest key v

/-- Python dict deletion (of the first entry with the given key). -/
def adel {α : Type} : List (Nat × α) → Nat → List (Nat × α)
  | [], _ => []
  | (k, w) :: rest, key => if k = key then rest else (k, w) :: adel rest key

/-- Sequencing of loop iterations over Res. -/
def foldRes {σ α : Type} (f : σ → α → Res σ) : σ → List α → Res σ
  | s, [] => .ok s
  | s, a :: l => (f s a).bind fun t => foldRes f t l

/-- A measurement kind (class Event): identity, null value and
aggregation rule.  The aggregator may abort (the fail aggregator
asserts False). -/
structure Event where
  id : Nat
  null : ℚ
  agg : ℚ → ℚ → Res ℚ

def addAgg (a b : ℚ) : Res ℚ := .ok (a + b)

/-- def fail(a, b): assert False -/
def failAgg (_a _b : ℚ) : Res ℚ := .abort

def CALLS : Event := ⟨0, 0, addAgg⟩
def SAMPLES : Event := ⟨1, 0, addAgg⟩
def SAMPLES2 : Event := ⟨2, 0, addAgg⟩
def TOTAL_SAMPLES : Event := ⟨3, 0, addAgg⟩
def TIME : Event := ⟨4, 0, addAgg⟩
def TIME_RATIO_EV : Event := ⟨5, 0, addAgg⟩
def TOTAL_TIME : Event := ⟨6, 0, failAgg⟩
def TOTAL_TIME_RATIO_EV : Event := ⟨7, 0, failAgg⟩

/-- tol = 2 ** -23 -/
def tol : ℚ := 1 / 2 ^ 23

/-- The ratio(numerator, denominator) helper, returning the value
together with whether a warning was written to stderr.  float
division by zero raises ZeroDivisionError exactly when the denominator
is zero, which the helper catches and turns into 1.0. -/
def ratioW (numerator denominator : ℚ) : ℚ × Bool :=
  if denominator = 0 then (1, false)
  else if numerator / denominator < 0 then (0, decide (numerator / denominator < -tol))
  else if 1 < numerator / denominator then (1, decide (1 + tol < numerator / denominator))
  else (numerator / denominator, false)

def ratio (numerator denominator : ℚ) : ℚ := (ratioW numerator denominator).1

/-- Sparse event map of an Object: kind id to value.  A kind is either
defined or absent, never present with a null value. -/
abbrev EMap := List (Nat × ℚ)

def emem (m : EMap) (k : Nat) : Bool := (alookup m k).isSome

/-- A call between functions (class Call). -/
structure Call where
  callee_id : Nat
  ratio : Option ℚ
  weight : Option ℚ
  events : EMap
  deriving DecidableEq

/-- A function (class Function).  calls is the outgoing-call dict keyed
by callee id; cycle is the non-owning reference into the cycle store. -/
structure Function where
  id : Nat
  name : String
  module : Option String
  filename : Option String
  called : Option ℚ
  weight : Option ℚ
  cycle : Option Nat
  calls : List (Nat × Call)
  events : EMap
  deriving DecidableEq

/-- A cycle (class Cycle): its member set is kept as the list of member
function keys in insertion order (Python iterates the set in an
unspecified order; insertion order is the fixed choice made here). -/
structure Cycle where
  functions : List Nat
  events : EMap
  deriving DecidableEq

/-- The whole profile (class Profile).  cycles is Profile.cycles (a list
of references); cycleStore is the heap of Cycle objects, keyed so that
Python object identity of cycles becomes key equality. -/
structure Profile where
  functions : List (Nat × Function)
  cycles : List Nat
  cycleStore : List (Nat × Cycle)
  events : EMap
  deriving DecidableEq

def getFun (p : Profile) (k : Nat) : Option Function := alookup p.functions k

def setFun (p : Profile) (k : Nat) (f : Function) : Profile :=
  { p with functions := aset p.functions k f }

def getCyc (p : Profile) (cid : Nat) : Option Cycle := alookup p.cycleStore cid

def setCyc (p : Profile) (cid : Nat) (c : Cycle) : Profile :=
  { p with cycleStore := aset p.cycleStore cid c }

/-- The keys of the calls whose stored callee id differs from the
owner's id, in iteration order: every loop of the source that runs
over function.calls.values() under the guard
call.callee_id != function.id iterates exactly these entries (the
guard reads only fields that are never mutated, so hoisting it into
the iteration list is behaviour preserving). -/
def nonSelfKeys (f : Function) : List Nat :=
  (f.calls.filter fun kc => decide (kc.2.callee_id ≠ f.id)).map Prod.fst

/-- Profile.validate, body for one call key of one function: assert the
stored callee id matches the dict key, then drop the call (with a
warning) when the callee id is not a registered function. -/
def validateCallStep (funKeys : List Nat) (g : Function) (ck : Nat) : Res Function :=
  match alookup g.calls ck with
  | none => .ok g
  | some c =>
    if c.callee_id = ck then
      if ck ∈ funKeys then .ok g
      else .ok { g with calls := adel g.calls ck }
    else .abort

/-- Profile.validate, inner loop over a snapshot of one function's call
keys. -/
def validateCalls (funKeys : List Nat) (f : Function) : Res Function :=
  foldRes (validateCallStep funKeys) f (f.calls.map Prod.fst)

/-- Profile.validate, body for one function. -/
def validateFunStep (funKeys : List Nat) (pc : Profile) (fk : Nat) : Res Profile :=
  match getFun pc fk with
  | none => .ok pc
  | some f => (validateCalls funKeys f).bind fun f2 => .ok (setFun pc fk f2)

/-- Profile.validate. -/
def validate (p : Profile) : Res Profile :=
  let funKeys := p.functions.map Prod.fst
  foldRes (validateFunStep funKeys) p funKeys

/-- Cycle.add_function.  The recursion of the source is fuelled; the
inner guard reads the current member set of the target cycle, exactly
as the source reads self.functions. -/
def cycleAddFunction : Nat → Profile → Nat → Nat → Res Profile
  | 0, _, _, _ => .fuel
  | n + 1, p, cid, fk =>
    match getCyc p cid, getFun p fk with
    | some cyc, some f =>
      if fk ∈ cyc.functions then .abort   -- assert function not in self.functions
      else
        let p1 := setCyc p cid { cyc with functions := cyc.functions ++ [fk] }
        let afterMerge : Res Profile :=
          match f.cycle with
          | some old =>
            match getCyc p1 old with
            | none => .abort
            | some oldCyc =>
              foldRes (fun pc other =>
                  match getCyc pc cid with
                  | none => .abort
                  | some cycNow =>
                    -- the source guard is "if function not in self.functions",
                    -- which re-tests the function just added, not "other"
                    if fk ∉ cycNow.functions then cycleAddFunction n pc cid other
                    else .ok pc)
                p1 oldCyc.functions
          | none => .ok p1
        afterMerge.bind fun p2 =>
          match getFun p2 fk with
          | none => .abort
          | some f2 => .ok (setFun p2 fk { f2 with cycle := some cid })
    | _, _ => .abort

/-- Profile.call_ratios, pass 1: function and cycle totals of the
incoming call weights.  Pure read of the profile; the result is
(cycle_totals, function_totals). -/
def pass1 (p : Profile) (ev : Event) : Res (List (Nat × ℚ) × List (Nat × ℚ)) :=
  let ct0 : List (Nat × ℚ) := p.cycles.map fun cid => (cid, 0)
  let ft0 : List (Nat × ℚ) := p.functions.map fun kf => (kf.1, 0)
  foldRes (fun st fk =>
      match getFun p fk with
      | none => .ok st
      | some f =>
        foldRes (fun st2 ck =>
            match alookup f.calls ck with
            | none => .ok st2
            | some c =>
              match getFun p c.callee_id with
              | none => .abort
              | some callee =>
                match alookup c.events ev.id with
                | none => .ok st2   -- warning only: no data for this call
                | some w =>
                  match alookup st2.2 c.callee_id with
                  | none => .abort
                  | some v =>
                    let ft1 := aset st2.2 c.callee_id (v + w)
                    match callee.cycle with
                    | some ccid =>
                      if f.cycle ≠ some ccid then
                        match alookup st2.1 ccid with
                        | none => .abort
                        | some cv => .ok (aset st2.1 ccid (cv + w), ft1)
                      else .ok (st2.1, ft1)
                    | none => .ok (st2.1, ft1))
          st (nonSelfKeys f))
    (ct0, ft0) (p.functions.map Prod.fst)

/-- Profile.call_ratios, pass 2: the total a call weight is divided by
(the cycle total when the call crosses into a different cycle, the
callee's function total otherwise; a missing key is a KeyError). -/
def pass2Total (tot : List (Nat × ℚ) × List (Nat × ℚ)) (f callee : Function)
    (calleeKey : Nat) : Res ℚ :=
  match callee.cycle with
  | some ccid =>
    if f.cycle ≠ some ccid then
      match alookup tot.1 ccid with
      | none => .abort
      | some v => .ok v
    else
      match alookup tot.2 calleeKey with
      | none => .abort
      | some v => .ok v
  | none =>
    match alookup tot.2 calleeKey with
    | none => .abort
    | some v => .ok v

/-- Profile.call_ratios, pass 2 body for one call key of one function. -/
def pass2Call (tot : List (Nat × ℚ) × List (Nat × ℚ)) (ev : Event) (fk : Nat)
    (pc : Profile) (ck : Nat) : Res Profile :=
  match getFun pc fk with
  | none => .abort
  | some f =>
    match alookup f.calls ck with
    | none => .abort
    | some c =>
      if c.ratio ≠ none then .abort   -- assert call.ratio is None
      else if c.callee_id ≠ f.id then
        match getFun pc c.callee_id with
        | none => .abort
        | some callee =>
          match alookup c.events ev.id with
          | some w =>
            (pass2Total tot f callee c.callee_id).bind fun tv =>
              .ok (setFun pc fk
                { f with calls := aset f.calls ck { c with ratio := some (ratio w tv) } })
          | none =>
            .ok (setFun pc fk
              { f with calls := aset f.calls ck { c with ratio := some 0 } })
      else .ok pc

/-- Profile.call_ratios, pass 2 body for one function. -/
def pass2FunStep (tot : List (Nat × ℚ) × List (Nat × ℚ)) (ev : Event)
    (pc : Profile) (fk : Nat) : Res Profile :=
  match getFun pc fk with
  | none => .ok pc
  | some f => foldRes (pass2Call tot ev fk) pc (f.calls.map Prod.fst)

/-- Profile.call_ratios. -/
def callRatios (p : Profile) (ev : Event) : Res Profile :=
  (pass1 p ev).bind fun tot =>
  foldRes (pass2FunStep tot ev) p (p.functions.map Prod.fst)

/-! ### The heap used by Profile._rank_cycle_function

CPython's heapq over items [rank, parent, callee].  Python compares the
item lists lexicographically; the second and third components are
Function objects compared by memory address, an unspecified order that
is modelled here by the function keys. -/

/-- A heap item (rank, parent function key, callee function key). -/
abbrev HItem := Nat × Nat × Nat

def hlt (a b : HItem) : Bool :=
  if a.1 < b.1 then true
  else if b.1 < a.1 then false
  else if a.2.1 < b.2.1 then true
  else if b.2.1 < a.2.1 then false
  else decide (a.2.2 < b.2.2)

def hdef : HItem := (0, 0, 0)

/-- heapq._siftdown main loop: move newitem up from pos towards
startpos. -/
def siftdownGo (newitem : HItem) (startpos : Nat) : List HItem → Nat → List HItem
  | heap, pos =>
    if h : startpos < pos then
      let parentpos := (pos - 1) / 2
      let parent := heap.getD parentpos hdef
      if hlt newitem parent then siftdownGo newitem startpos (heap.set pos parent) parentpos
      else heap.set pos newitem
    else heap.set pos newitem
  termination_by _heap pos => pos
  decreasing_by
    exact lt_of_le_of_lt (Nat.div_le_self _ _) (by omega)

/-- heapq._siftdown(heap, startpos, pos). -/
def siftdown (heap : List HItem) (startpos pos : Nat) : List HItem :=
  siftdownGo (heap.getD pos hdef) startpos heap pos

/-- heapq._siftup main loop: bubble the smaller child up while moving
down the tree, then restore newitem by a siftdown. -/
def siftupGo (endpos : Nat) (newitem : HItem) (startpos : Nat) : List HItem → Nat → List HItem
  | heap, pos =>
    if h : 2 * pos + 1 < endpos then
      -- childpos moves to the right sibling when it exists and is not larger
      if hb : 2 * pos + 2 < endpos ∧
          hlt (heap.getD (2 * pos + 1) hdef) (heap.getD (2 * pos + 2) hdef) = false then
        siftupGo endpos newitem startpos (heap.set pos (heap.getD (2 * pos + 2) hdef)) (2 * pos + 2)
      else
        siftupGo endpos newitem startpos (heap.set pos (heap.getD (2 * pos + 1) hdef)) (2 * pos + 1)
    else siftdown (heap.set pos newitem) startpos pos
  termination_by _heap pos => endpos - pos
  decreasing_by
    · omega
    · omega

/-- heapq._siftup(heap, pos). -/
def siftup (heap : List HItem) (pos : Nat) : List HItem :=
  siftupGo heap.length (heap.getD pos hdef) pos heap pos

/-- heapq.heappush. -/
def heappush (heap : List HItem) (item : HItem) : List HItem :=
  siftdown (heap ++ [item]) 0 heap.length

/-- heapq.heappop: returns none when the heap is empty (the source only
pops under a nonemptiness guard). -/
def heappop (heap : List HItem) : Option (HItem × List HItem) :=
  match heap.getLast? with
  | none => none
  | some lastelt =>
    let rest := heap.dropLast
    if rest.isEmpty then some (lastelt, [])
    else some (rest.getD 0 hdef, siftup (rest.set 0 lastelt) 0)

/-! ### Profile._rank_cycle_function (Dijkstra over intra-cycle edges) -/

/-- State of the Dijkstra loop: (ranks, Q, Qd).  The parent map p of the
source is write-only and is omitted. -/
abbrev RankSt := List (Nat × Nat) × List HItem × List (Nat × HItem)

/-- Body handling one (non-self) call of the popped member. -/
def rankCall (p : Profile) (cid memberk : Nat) (st : RankSt) (c : Call) : Res RankSt :=
  match getFun p c.callee_id with
  | none => .abort
  | some callee =>
    if callee.cycle = some cid then
      match alookup st.1 memberk with
      | none => .abort                       -- ranks[member]
      | some mrank =>
        match alookup st.1 c.callee_id with
        | some r =>
          if 1 + mrank < r then
            -- decrease-key: the item list is mutated in place inside Q
            -- (Q.index finds it by value; items are unique per callee)
            let item : HItem := (1 + mrank, memberk, c.callee_id)
            match st.2.1.findIdx? (fun it => it.2.2 = c.callee_id) with
            | none => .abort                 -- ValueError from Q.index
            | some i =>
              .ok (aset st.1 c.callee_id (1 + mrank),
                   siftdown (st.2.1.set i item) 0 i,
                   aset st.2.2 c.callee_id item)
          else .ok st
        | none =>
          let item : HItem := (1 + mrank, memberk, c.callee_id)
          .ok (aset st.1 c.callee_id (1 + mrank),
               heappush st.2.1 item,
               aset st.2.2 c.callee_id item)
    else .ok st

/-- The while Q loop of Profile._rank_cycle_function, fuelled. -/
def rankLoop : Nat → Profile → Nat → List Nat → RankSt → Res (List (Nat × Nat))
  | 0, _, _, _, _ => .fuel
  | n + 1, p, cid, visited, st =>
    match heappop st.2.1 with
    | none => .ok st.1
    | some (item, q1) =>
      let memberk := item.2.2
      if memberk ∈ visited then rankLoop n p cid visited (st.1, q1, st.2.2)
      else
        match getFun p memberk with
        | none => .abort
        | some member =>
          (foldRes (fun st2 ck =>
                match alookup member.calls ck with
                | none => .ok st2
                | some c => rankCall p cid memberk st2 c)
              (st.1, q1, st.2.2) (nonSelfKeys member)).bind fun st3 =>
            rankLoop n p cid (memberk :: visited) st3

/-- Profile._rank_cycle_function. -/
def rankCycle (n : Nat) (p : Profile) (cid ek : Nat) : Res (List (Nat × Nat)) :=
  match getFun p ek with
  | none => .abort
  | some entry =>
    (foldRes (fun (st : RankSt) ck =>
          match alookup entry.calls ck with
          | none => .ok st
          | some c =>
            match getFun p c.callee_id with
            | none => .abort
            | some callee =>
              if callee.cycle = some cid then
                let item : HItem := (1, ek, c.callee_id)
                .ok (aset st.1 c.callee_id 1, heappush st.2.1 item, aset st.2.2 c.callee_id item)
              else .ok st)
        ([(ek, 0)], [], []) (nonSelfKeys entry)).bind fun st =>
      rankLoop n p cid [ek] st

/-- Profile._call_ratios_cycle, fuelled; returns (call_ratios, visited). -/
def callRatiosCycle : Nat → Profile → Nat → Nat → List (Nat × Nat) →
    List (Nat × ℚ) × List Nat → Res (List (Nat × ℚ) × List Nat)
  | 0, _, _, _, _, _ => .fuel
  | n + 1, p, cid, fk, ranks, st =>
    if fk ∈ st.2 then .ok st
    else
      match getFun p fk with
      | none => .abort
      | some f =>
        foldRes (fun st2 ck =>
            match alookup f.calls ck with
            | none => .ok st2
            | some c =>
              match getFun p c.callee_id with
              | none => .abort
              | some callee =>
                if callee.cycle = some cid then
                  match alookup ranks c.callee_id, alookup ranks fk with
                  | some rc, some rf =>
                    if rf < rc then
                      match c.ratio with
                      | none => .abort       -- None + float: TypeError
                      | some r =>
                        let crs1 := aset st2.1 c.callee_id ((alookup st2.1 c.callee_id).getD 0 + r)
                        callRatiosCycle n p cid c.callee_id ranks (crs1, st2.2)
                    else .ok st2
                  | _, _ => .abort           -- ranks[...]: KeyError
                else .ok st2)
          (st.1, st.2 ++ [fk]) (nonSelfKeys f)

/-- Profile._integrate_cycle_function, fuelled.  The state carries the
profile, the partials memo and the accumulated partial. -/
def integrateCycleFunction : Nat → Profile → Nat → Nat → ℚ → List (Nat × ℚ) →
    List (Nat × Nat) → List (Nat × ℚ) → Event → Event → Res (Profile × List (Nat × ℚ) × ℚ)
  | 0, _, _, _, _, _, _, _, _, _ => .fuel
  | n + 1, p, cid, fk, pratio, pmap, ranks, crs, out, inEv =>
    match alookup pmap fk with
    | some v => .ok (p, pmap, v)
    | none =>
      match getFun p fk with
      | none => .abort
      | some f =>
        match alookup f.events inEv.id with
        | none => .abort
        | some fin =>
          (foldRes (fun (st : Profile × List (Nat × ℚ) × ℚ) ck =>
                match getFun st.1 fk with
                | none => .abort
                | some f2 =>
                  match alookup f2.calls ck with
                  | none => .abort
                  | some c =>
                    match getFun st.1 c.callee_id with
                    | none => .abort
                    | some callee =>
                      if callee.cycle ≠ some cid then
                        match alookup c.events out.id with
                        | none => .abort     -- assert outevent in call
                        | some cv => .ok (st.1, st.2.1, st.2.2 + pratio * cv)
                      else
                        match alookup ranks c.callee_id, alookup ranks fk with
                        | some rc, some rf =>
                          if rf < rc then
                            (integrateCycleFunction n st.1 cid c.callee_id pratio st.2.1
                                ranks crs out inEv).bind fun r =>
                              match c.ratio with
                              | none => .abort   -- float(None): TypeError in ratio
                              | some cr =>
                                match alookup crs c.callee_id with
                                | none => .abort -- call_ratios[callee]: KeyError
                                | some totv =>
                                  let callPart := ratio cr totv * r.2.2
                                  match getFun r.1 fk with
                                  | none => .abort
                                  | some f3 =>
                                    match alookup f3.calls ck with
                                    | none => .abort
                                    | some c3 =>
                                      let newv :=
                                        match alookup c3.events out.id with
                                        | some old => old + callPart
                                        | none => callPart
                                      let c4 := { c3 with events := aset c3.events out.id newv }
                                      .ok (setFun r.1 fk { f3 with calls := aset f3.calls ck c4 },
                                          r.2.1, st.2.2 + callPart)
                          else .ok st
                        | _, _ => .abort     -- ranks[...]: KeyError
              )
              (p, pmap, pratio * fin) (nonSelfKeys f)).bind fun st =>
            match getFun st.1 fk with
            | none => .abort
            | some f4 =>
              let newv :=
                match alookup f4.events out.id with
                | some old => old + st.2.2
                | none => st.2.2
              .ok (setFun st.1 fk { f4 with events := aset f4.events out.id newv },
                   aset st.2.1 fk st.2.2, st.2.2)

/-- max of a Python list (None when empty, where Python raises). -/
def listMax : List ℚ → Option ℚ
  | [] => none
  | x :: rest => some (rest.foldl max x)

/-! ### The integration engine proper -/

mutual

/-- Profile._integrate_function. -/
def integrateFunction : Nat → Profile → Nat → Event → Event → Res (Profile × ℚ)
  | 0, _, _, _, _ => .fuel
  | n + 1, p, fk, out, inEv =>
    match getFun p fk with
    | none => .abort
    | some f =>
      match f.cycle with
      | some cid => integrateCycle n p cid out inEv
      | none =>
        match alookup f.events out.id with
        | some v => .ok (p, v)
        | none =>
          match alookup f.events inEv.id with
          | none => .abort
          | some t0 =>
            (foldRes (fun (st : Profile × ℚ) ck =>
                  (integrateCall n st.1 fk ck out inEv).bind fun r => .ok (r.1, st.2 + r.2))
                (p, t0) (nonSelfKeys f)).bind fun st =>
              match getFun st.1 fk with
              | none => .abort
              | some f2 =>
                .ok (setFun st.1 fk { f2 with events := aset f2.events out.id st.2 }, st.2)

/-- Profile._integrate_call. -/
def integrateCall : Nat → Profile → Nat → Nat → Event → Event → Res (Profile × ℚ)
  | 0, _, _, _, _, _ => .fuel
  | n + 1, p, fk, ck, out, inEv =>
    match getFun p fk with
    | none => .abort
    | some f =>
      match alookup f.calls ck with
      | none => .abort
      | some c =>
        if emem c.events out.id then .abort   -- assert outevent not in call
        else
          match c.ratio with
          | none => .abort                    -- assert call.ratio is not None
          | some r =>
            match getFun p c.callee_id with
            | none => .abort                  -- KeyError
            | some _ =>
              (integrateFunction n p c.callee_id out inEv).bind fun st =>
                let sub := r * st.2
                match getFun st.1 fk with
                | none => .abort
                | some f2 =>
                  match alookup f2.calls ck with
                  | none => .abort
                  | some c2 =>
                    let c3 := { c2 with events := aset c2.events out.id sub }
                    .ok (setFun st.1 fk { f2 with calls := aset f2.calls ck c3 }, sub)

/-- Profile._integrate_cycle. -/
def integrateCycle : Nat → Profile → Nat → Event → Event → Res (Profile × ℚ)
  | 0, _, _, _, _ => .fuel
  | n + 1, p, cid, out, inEv =>
    match getCyc p cid with
    | none => .abort
    | some cyc =>
      match alookup cyc.events out.id with
      | some v => .ok (p, v)
      | none =>
        -- compute the outevent for the whole cycle
        (foldRes (fun (st : Profile × ℚ) mk =>
              match getFun st.1 mk with
              | none => .abort
              | some m =>
                match alookup m.events inEv.id with
                | none => .abort
                | some mval =>
                  (foldRes (fun (st2 : Profile × ℚ) ck =>
                        match getFun st2.1 mk with
                        | none => .abort
                        | some m2 =>
                          match alookup m2.calls ck with
                          | none => .abort
                          | some c =>
                            match getFun st2.1 c.callee_id with
                            | none => .abort
                            | some callee =>
                              if callee.cycle = some cid then .ok st2
                              else
                                (integrateCall n st2.1 mk ck out inEv).bind fun r =>
                                  .ok (r.1, st2.2 + r.2))
                      (st.1, mval) (m.calls.map Prod.fst)).bind fun st2 =>
                    .ok (st2.1, st.2 + st2.2))
            (p, inEv.null) cyc.functions).bind fun stT =>
          match getCyc stT.1 cid with
          | none => .abort
          | some cyc1 =>
            let p2 := setCyc stT.1 cid { cyc1 with events := aset cyc1.events out.id stT.2 }
            -- compute the time propagated to callers of this cycle
            (foldRes (fun (cs : List (Nat × ℚ)) fk =>
                  match getFun p2 fk with
                  | none => .ok cs
                  | some f =>
                    if f.cycle ≠ some cid then
                      foldRes (fun cs2 ck =>
                          match alookup f.calls ck with
                          | none => .ok cs2
                          | some c =>
                            match getFun p2 c.callee_id with
                            | none => .abort
                            | some callee =>
                              if callee.cycle = some cid then
                                match c.ratio with
                                | none => .abort   -- None +=/use: TypeError downstream
                                | some r =>
                                  match alookup cs2 c.callee_id with
                                  | some v => .ok (aset cs2 c.callee_id (v + r))
                                  | none => .ok (cs2 ++ [(c.callee_id, r)])
                              else .ok cs2)
                        cs (f.calls.map Prod.fst)
                    else .ok cs)
                [] (p2.functions.map Prod.fst)).bind fun callees =>
              (foldRes (fun pc mk =>
                    match getFun pc mk with
                    | none => .abort
                    | some m =>
                      .ok (setFun pc mk { m with events := aset m.events out.id out.null }))
                  p2 cyc.functions).bind fun p3 =>
                (foldRes (fun pc (entry : Nat × ℚ) =>
                      (rankCycle n pc cid entry.1).bind fun ranks =>
                      (callRatiosCycle n pc cid entry.1 ranks ([], [])).bind fun crs =>
                      (integrateCycleFunction n pc cid entry.1 entry.2 [] ranks crs.1
                          out inEv).bind fun r =>
                        match listMax (r.2.1.map Prod.snd) with
                        | none => .abort
                        | some mx =>
                          -- assert abs(partial - max_partial) <= 1e-7*max_partial
                          if |r.2.2 - mx| ≤ mx / 10000000 then
                            -- assert abs(call_ratio*total - partial) <= 0.001*call_ratio*total
                            if |entry.2 * stT.2 - r.2.2| ≤ entry.2 * stT.2 / 1000 then .ok r.1
                            else .abort
                          else .abort)
                    p3 callees).bind fun p4 =>
                  match getCyc p4 cid with
                  | none => .abort
                  | some cycF =>
                    match alookup cycF.events out.id with
                    | none => .abort
                    | some v => .ok (p4, v)

end

/-- The sanity-checking block of Profile.integrate for one function. -/
def sanityFun (p : Profile) (out inEv : Event) (fk : Nat) : Res Unit :=
  match getFun p fk with
  | none => .ok ()
  | some f =>
    if emem f.events out.id then .abort          -- assert outevent not in function
    else if !emem f.events inEv.id then .abort   -- assert inevent in function
    else
      foldRes (fun _ ck =>
          match alookup f.calls ck with
          | none => .ok ()
          | some c =>
            if emem c.events out.id then .abort  -- assert outevent not in call
            else if c.callee_id ≠ f.id then
              match c.ratio with
              | none => .abort                   -- assert call.ratio is not None
              | some _ => .ok ()
            else .ok ())
        () (f.calls.map Prod.fst)

/-- The sanity-checking block of Profile.integrate. -/
def sanity (p : Profile) (out inEv : Event) : Res Unit :=
  if emem p.events out.id then .abort            -- assert outevent not in self
  else foldRes (fun _ fk => sanityFun p out inEv fk) () (p.functions.map Prod.fst)

/-- The aggregation loop pattern of Profile.integrate: fold the input
event over all functions with the event's aggregator, starting from its
null value. -/
def profileAgg (ev : Event) (p : Profile) : Res ℚ :=
  foldRes (fun t fk =>
      match getFun p fk with
      | none => .abort
      | some f =>
        match alookup f.events ev.id with
        | none => .abort
        | some v => ev.agg t v)
    ev.null (p.functions.map Prod.fst)

/-- Profile.integrate. -/
def integrate (fuel : Nat) (p : Profile) (out inEv : Event) : Res Profile :=
  (sanity p out inEv).bind fun _ =>
  -- "Aggregate the input for each cycle": once per cycle, the sum of the
  -- input event over all functions is written to the profile itself
  (foldRes (fun pc _cid =>
        (profileAgg inEv pc).bind fun t => .ok { pc with events := aset pc.events inEv.id t })
      p p.cycles).bind fun p1 =>
  -- integrate along the edges
  (foldRes (fun (st : Profile × ℚ) fk =>
        match getFun st.1 fk with
        | none => .abort
        | some f =>
          match alookup f.events inEv.id with
          | none => .abort
          | some v =>
            (inEv.agg st.2 v).bind fun t =>
            (integrateFunction fuel st.1 fk out inEv).bind fun r => .ok (r.1, t))
      (p1, inEv.null) (p1.functions.map Prod.fst)).bind fun st =>
  .ok { st.1 with events := aset st.1.events out.id st.2 }

/-! ### Profile.prune -/

/-- Python truthiness of an optional string. -/
def truthyStr : Option String → Bool
  | some s => !s.isEmpty
  | none => false

/-- module.find(path) > -1. -/
def strContains (s sub : String) : Bool := decide (sub.toList <:+: s.toList)

/-- The path-based deletion test of Profile.prune. -/
def pruneFileBad (paths : List String) (f : Function) : Bool :=
  if !paths.isEmpty && truthyStr f.filename
      && !(paths.any fun pa => pa.isPrefixOf (f.filename.getD "")) then true
  else if !paths.isEmpty && truthyStr f.module
      && !(paths.any fun pa => strContains (f.module.getD "") pa) then true
  else false

/-- prune, phase 1: compute the prune ratios (display weights). -/
def pruneWeights (p : Profile) : Res Profile :=
  foldRes (fun pc fk =>
      match getFun pc fk with
      | none => .ok pc
      | some f =>
        let f1 :=
          match alookup f.events TOTAL_TIME_RATIO_EV.id with
          | some v => { f with weight := some v }
          | none => f
        foldRes (fun pc2 ck =>
            match getFun pc2 fk with
            | none => .abort
            | some f2 =>
              match alookup f2.calls ck with
              | none => .abort
              | some c =>
                match getFun pc2 c.callee_id with
                | none => .abort                 -- KeyError: dangling call
                | some callee =>
                  match alookup c.events TOTAL_TIME_RATIO_EV.id with
                  | some v =>
                    .ok (setFun pc2 fk
                      { f2 with calls := aset f2.calls ck { c with weight := some v } })
                  | none =>
                    match alookup f2.events TOTAL_TIME_RATIO_EV.id,
                        alookup callee.events TOTAL_TIME_RATIO_EV.id with
                    | some a, some b =>
                      .ok (setFun pc2 fk
                        { f2 with calls := aset f2.calls ck { c with weight := some (min a b) } })
                    | _, _ => .ok pc2)
          (setFun pc fk f1) (f.calls.map Prod.fst))
    p (p.functions.map Prod.fst)

/-- One step of a deleting loop over a snapshot of the function keys. -/
def delFunsStep (P : Nat → Function → Bool) (pc : Profile) (fk : Nat) : Profile :=
  match getFun pc fk with
  | none => pc
  | some f => if P fk f then { pc with functions := adel pc.functions fk } else pc

/-- One step of a deleting loop over a snapshot of one call dict's keys. -/
def delCallsStep (P : Nat → Call → Bool) (cs : List (Nat × Call)) (ck : Nat) :
    List (Nat × Call) :=
  match alookup cs ck with
  | none => cs
  | some c => if P ck c then adel cs ck else cs

/-- One step of an updating loop over a snapshot of the function keys. -/
def mapFunStep (g : Function → Function) (pc : Profile) (fk : Nat) : Profile :=
  match getFun pc fk with
  | none => pc
  | some f => setFun pc fk (g f)

/-- prune, phase 2: prune the nodes. -/
def pruneNodes (p : Profile) (nodeThres : ℚ) : Profile :=
  (p.functions.map Prod.fst).foldl
    (delFunsStep fun _ f =>
      match f.weight with
      | some w => decide (w < nodeThres)
      | none => false)
    p

/-- prune, phase 3: prune file paths. -/
def prunePaths (p : Profile) (paths : List String) : Profile :=
  (p.functions.map Prod.fst).foldl (delFunsStep fun _ f => pruneFileBad paths f) p

/-- prune, phase 4, per function: drop the calls whose dict key is not a
registered function key or whose weight is below the threshold.  The
registered key list is constant throughout the edge loop (functions are
no longer deleted), so it is taken once. -/
def pruneEdgeBad (funKeys : List Nat) (edgeThres : ℚ) (ck : Nat) (c : Call) : Bool :=
  decide (ck ∉ funKeys) ||
    match c.weight with
    | some w => decide (w < edgeThres)
    | none => false

def pruneEdgesFun (funKeys : List Nat) (edgeThres : ℚ) (f : Function) : Function :=
  { f with calls :=
      (f.calls.map Prod.fst).foldl (delCallsStep (pruneEdgeBad funKeys edgeThres)) f.calls }

/-- prune, phase 4: prune the edges. -/
def pruneEdges (p : Profile) (edgeThres : ℚ) : Profile :=
  (p.functions.map Prod.fst).foldl
    (mapFunStep (pruneEdgesFun (p.functions.map Prod.fst) edgeThres)) p

/-- prune, phase 5: optional recolouring by self time. -/
def pruneColor (p : Profile) : Profile :=
  let ws := p.functions.filterMap fun kf => alookup kf.2.events TIME_RATIO_EV.id
  let maxr : ℚ :=
    match ws with
    | [] => 1
    | w :: rest => rest.foldl max w
  { p with
    functions := p.functions.map fun kf =>
      match alookup kf.2.events TIME_RATIO_EV.id with
      | some v =>
        if maxr = 0 then kf     -- ZeroDivisionError is caught: pass
        else (kf.1, { kf.2 with weight := some (v / maxr) })
      | none => kf }

/-- Profile.prune. -/
def prune (p : Profile) (nodeThres edgeThres : ℚ) (paths : List String)
    (colorNodesBySelftime : Bool) : Res Profile :=
  (pruneWeights p).bind fun p1 =>
  let p4 := pruneEdges (prunePaths (pruneNodes p1 nodeThres) paths) edgeThres
  .ok (if colorNodesBySelftime then pruneColor p4 else p4)

/-! ### Predicates used by the theorems -/

/-- A function with its self calls (stored callee id equal to the
owner's id) removed. -/
def dropSelfCalls (f : Function) : Function :=
  { f with calls := f.calls.filter fun kc => decide (kc.2.callee_id ≠ f.id) }

/-- The profile with every self call removed. -/
def dropSelf (p : Profile) : Profile :=
  { p with functions := p.functions.map fun kf => (kf.1, dropSelfCalls kf.2) }

/-- Keys of a real Python dict are unique. -/
def FunKeysNodup (p : Profile) : Prop := (p.functions.map Prod.fst).Nodup

def CallKeysNodup (p : Profile) : Prop :=
  ∀ kf ∈ p.functions, (kf.2.calls.map Prod.fst).Nodup

/-- Each Function is registered under its own id (Profile.add_function
registers self.functions[function.id] = function). -/
def FunIdsOk (p : Profile) : Prop := ∀ kf ∈ p.functions, kf.2.id = kf.1

/-- Each Call sits in its owner's call dict under its stored callee id
(the invariant Profile.validate asserts). -/
def CallIdsOk (p : Profile) : Prop :=
  ∀ kf ∈ p.functions, ∀ kc ∈ kf.2.calls, kc.2.callee_id = kc.1

/-- Dict well-formedness inherent to the Python object model. -/
def KeysOk (p : Profile) : Prop :=
  FunKeysNodup p ∧ CallKeysNodup p ∧ FunIdsOk p ∧ CallIdsOk p

/-- Cycle consistency: every member of a stored cycle is a registered
function whose back-reference points at that cycle (invariant 2 of the
data model). -/
def CyclesOk (p : Profile) : Prop :=
  ∀ kc ∈ p.cycleStore, ∀ m ∈ kc.2.functions,
    ∃ f, alookup p.functions m = some f ∧ f.cycle = some kc.1

def WF (p : Profile) : Prop := KeysOk p ∧ CyclesOk p

/-- Keys of the cycle store (a Python object map) are unique. -/
def CycKeysNodup (p : Profile) : Prop := (p.cycleStore.map Prod.fst).Nodup

/-- Well-formedness used by the self-call exclusion claim: the dict
invariants plus cycle-membership consistency. -/
def SelfWF (p : Profile) : Prop := KeysOk p ∧ CycKeysNodup p ∧ CyclesOk p

/-- Relate two optional values pointwise. -/
def OptRel {α β : Type} (R : α → β → Prop) : Option α → Option β → Prop
  | some a, some b => R a b
  | none, none => True
  | _, _ => False

/-- A call was changed at most in its out event. -/
def CallFrame (e : Nat) (c d : Call) : Prop :=
  d.callee_id = c.callee_id ∧ d.ratio = c.ratio ∧ d.weight = c.weight ∧
  ∀ k, k ≠ e → alookup d.events k = alookup c.events k

/-- A function was changed at most in the out event of itself and of
its calls. -/
def FunFrame (e : Nat) (f g : Function) : Prop :=
  g.id = f.id ∧ g.name = f.name ∧ g.module = f.module ∧ g.filename = f.filename ∧
  g.called = f.called ∧ g.weight = f.weight ∧ g.cycle = f.cycle ∧
  g.calls.map Prod.fst = f.calls.map Prod.fst ∧
  (∀ k, k ≠ e → alookup g.events k = alookup f.events k) ∧
  ∀ ck, OptRel (CallFrame e) (alookup f.calls ck) (alookup g.calls ck)

/-- A cycle was changed at most in its out event. -/
def CycFrame (e : Nat) (c d : Cycle) : Prop :=
  d.functions = c.functions ∧ ∀ k, k ≠ e → alookup d.events k = alookup c.events k

/-- What the integration recursion may change in the profile: only the
out event of functions, calls and cycles.  Profile events, the cycle
list and all graph structure are untouched. -/
def ProfFrame (e : Nat) (p q : Profile) : Prop :=
  q.events = p.events ∧ q.cycles = p.cycles ∧
  q.functions.map Prod.fst = p.functions.map Prod.fst ∧
  (∀ k, OptRel (FunFrame e) (alookup p.functions k) (alookup q.functions k)) ∧
  q.cycleStore.map Prod.fst = p.cycleStore.map Prod.fst ∧
  (∀ k, OptRel (CycFrame e) (alookup p.cycleStore k) (alookup q.cycleStore k))

/-- The graph shape a weight-computation pass preserves: the function
dict keys, each function's id, each call dict's keys and each call's
stored callee id (only weights change). -/
def ShapeRel (p q : Profile) : Prop :=
  q.functions.map Prod.fst = p.functions.map Prod.fst ∧
  ∀ k, OptRel (fun f g => g.id = f.id ∧ g.calls.map Prod.fst = f.calls.map Prod.fst ∧
      ∀ ck, OptRel (fun c d => d.callee_id = c.callee_id)
        (alookup f.calls ck) (alookup g.calls ck))
    (alookup p.functions k) (alookup q.functions k)

/-- What validate leaves of one function: exactly the calls whose dict
key is a registered function key survive. -/
def validatedFun (funKeys : List Nat) (f : Function) : Function :=
  { f with calls := f.calls.filter fun kc => decide (kc.1 ∈ funKeys) }

/-- What validate leaves of a well-formed profile. -/
def validatedProfile (p : Profile) : Profile :=
  { p with functions := p.functions.map fun kf =>
      (kf.1, validatedFun (p.functions.map Prod.fst) kf.2) }

/-- Builder for Function literals in concrete instances. -/
def mkFun (i : Nat) (nm : String) (cs : List (Nat × Call)) (ev : EMap)
    (cyc : Option Nat) : Function :=
  { id := i, name := nm, module := none, filename := none, called := none,
    weight := none, cycle := cyc, calls := cs, events := ev }

/-- Builder for Call literals in concrete instances. -/
def mkCall (cid : Nat) (r : Option ℚ) (ev : EMap) : Call :=
  { callee_id := cid, ratio := r, weight := none, events := ev }

/-- Member list of a cycle of a resulting profile. -/
def resultCycleMembers (r : Res Profile) (cid : Nat) : Option (List Nat) :=
  match r with
  | .ok p => (getCyc p cid).map Cycle.functions
  | _ => none

/-- Cycle back-reference of a function of a resulting profile. -/
def resultFunCycle (r : Res Profile) (fk : Nat) : Option (Option Nat) :=
  match r with
  | .ok p => (getFun p fk).map Function.cycle
  | _ => none

/-- Two partially explored cycles: cycle 10 currently holds functions 1
and 2 (both pointing back at it) and cycle 20 is empty; function 1 is
then added to cycle 20. -/
def pMergeC2 : Profile :=
  { functions :=
      [(1, mkFun 1 "f" [] [] (some 10)),
       (2, mkFun 2 "g" [] [] (some 10))],
    cycles := [],
    cycleStore :=
      [(10, { functions := [1, 2], events := [] }),
       (20, { functions := [], events := [] })],
    events := [] }

/-- What call_ratios establishes on one function: every non-self call
carries a ratio in the unit interval (0.0 when it lacks the chosen
event), and self calls still carry no ratio. -/
def funPost (ev : Event) (f : Function) : Prop :=
  ∀ ck c, alookup f.calls ck = some c →
    (c.callee_id ≠ f.id →
      ∃ r, c.ratio = some r ∧ 0 ≤ r ∧ r ≤ 1 ∧ (alookup c.events ev.id = none → r = 0)) ∧
    (c.callee_id = f.id → c.ratio = none)

/-- A profile with a dangling call: function 1 calls function 2 and the
unregistered function 5. -/
def pValC6 : Profile :=
  { functions :=
      [(1, mkFun 1 "A" [(2, mkCall 2 none []), (5, mkCall 5 none [])] [] none),
       (2, mkFun 2 "B" [] [] none)],
    cycles := [], cycleStore := [], events := [] }

/-- pValC6 after validation: the dangling call to 5 is gone. -/
def qValC6 : Profile :=
  { functions :=
      [(1, mkFun 1 "A" [(2, mkCall 2 none [])] [] none),
       (2, mkFun 2 "B" [] [] none)],
    cycles := [], cycleStore := [], events := [] }

/-- A profile before call_ratios: functions 1 and 2 call function 3
with SAMPLES weights 1 and 3, and function 1 has a self loop. -/
def pCRC4 : Profile :=
  { functions :=
      [(1, mkFun 1 "A" [(3, mkCall 3 none [(1, 1)]), (1, mkCall 1 none [(1, 7)])] [] none),
       (2, mkFun 2 "B" [(3, mkCall 3 none [(1, 3)])] [] none),
       (3, mkFun 3 "C" [] [] none)],
    cycles := [], cycleStore := [], events := [] }

/-- pCRC4 after call_ratios with the SAMPLES event: the calls into 3
carry ratios 1/4 and 3/4 and the self loop still carries none. -/
def qCRC4 : Profile :=
  { functions :=
      [(1, mkFun 1 "A" [(3, mkCall 3 (some (1 / 4)) [(1, 1)]), (1, mkCall 1 none [(1, 7)])] [] none),
       (2, mkFun 2 "B" [(3, mkCall 3 (some (3 / 4)) [(1, 3)])] [] none),
       (3, mkFun 3 "C" [] [] none)],
    cycles := [], cycleStore := [], events := [] }

/-- A profile before pruning: function 3 is below the node threshold. -/
def pPrC8 : Profile :=
  { functions :=
      [(1, mkFun 1 "A" [(2, mkCall 2 none [(7, 1 / 2)])] [(7, 1)] none),
       (2, mkFun 2 "B" [] [(7, 1 / 2)] none),
       (3, mkFun 3 "L" [] [(7, 1 / 100)] none)],
    cycles := [], cycleStore := [], events := [] }

/-- pPrC8 after prune(1/10, 1/10, [], False). -/
def qPrC8 : Profile :=
  { functions :=
      [(1, { mkFun 1 "A" [(2, { mkCall 2 none [(7, 1 / 2)] with weight := some (1 / 2) })]
               [(7, 1)] none with weight := some 1 }),
       (2, { mkFun 2 "B" [] [(7, 1 / 2)] none with weight := some (1 / 2) })],
    cycles := [], cycleStore := [], events := [] }

/-- A profile on which the inclusive kind TOTAL_TIME is already
defined, violating the integrate precondition. -/
def pIntC7 : Profile :=
  { functions := [], cycles := [], cycleStore := [], events := [(6, 1)] }

/-- A healthy single-function profile (A with TIME 2) on which integrate
completes. -/
def pIntC1 : Profile :=
  { functions := [(1, mkFun 1 "A" [] [(4, 2)] none)],
    cycles := [], cycleStore := [], events := [] }

/-- The profile integrate produces from pIntC1 (TOTAL_TIME from TIME). -/
def pIntC1res : Profile :=
  { functions := [(1, mkFun 1 "A" [] [(4, 2), (6, 2)] none)],
    cycles := [], cycleStore := [], events := [(6, 2)] }

/-- A profile with a two-function cycle (X and Y call each other, external
caller E) on which integrate completes. -/
def pCycC10 : Profile :=
  { functions :=
      [(1, mkFun 1 "X" [(2, mkCall 2 (some 1) [])] [(4, 10)] (some 0)),
       (2, mkFun 2 "Y" [(1, mkCall 1 (some 1) [])] [(4, 5)] (some 0)),
       (3, mkFun 3 "E" [(1, mkCall 1 (some 1) [])] [(4, 2)] none)],
    cycles := [0],
    cycleStore := [(0, { functions := [1, 2], events := [] })],
    events := [] }

/-- The profile integrate produces from pCycC10 (TOTAL_TIME from TIME). -/
def pCycC10res : Profile :=
  { functions :=
      [(1, mkFun 1 "X" [(2, mkCall 2 (some 1) [(6, 5)])] [(4, 10), (6, 15)] (some 0)),
       (2, mkFun 2 "Y" [(1, mkCall 1 (some 1) [])] [(4, 5), (6, 5)] (some 0)),
       (3, mkFun 3 "E" [(1, mkCall 1 (some 1) [(6, 15)])] [(4, 2), (6, 17)] none)],
    cycles := [0],
    cycleStore := [(0, { functions := [1, 2], events := [(6, 15)] })],
    events := [(4, 17), (6, 17)] }

/-! ## Theorems -/

/-! ### Basic lemmas on Res, foldRes and association lists -/

@[simp] theorem bind_ok {α β : Type} (a : α) (f : α → Res β) : (Res.ok a).bind f = f a := rfl

@[simp] theorem bind_abort {α β : Type} (f : α → Res β) :
    (Res.abort : Res α).bind f = .abort := rfl

@[simp] theorem bind_fuel {α β : Type} (f : α → Res β) :
    (Res.fuel : Res α).bind f = .fuel := rfl

@[simp] theorem foldRes_nil {σ α : Type} (f : σ → α → Res σ) (s : σ) :
    foldRes f s [] = .ok s := rfl

@[simp] theorem foldRes_cons {σ α : Type} (f : σ → α → Res σ) (s : σ) (a : α) (l : List α) :
    foldRes f s (a :: l) = (f s a).bind fun t => foldRes f t l := rfl

theorem foldRes_rel {σ α : Type} (R : σ → σ → Prop) (f : σ → α → Res σ)
    (hrefl : ∀ s, R s s)
    (htrans : ∀ a b c, R a b → R b c → R a c)
    (hstep : ∀ s a t, f s a = .ok t → R s t) :
    ∀ (l : List α) (s t : σ), foldRes f s l = .ok t → R s t := by
  intro l
  induction l with
  | nil => intro s t h; simp only [foldRes_nil] at h; cases h; exact hrefl s
  | cons a l ih =>
    intro s t h
    simp only [foldRes_cons] at h
    cases hfa : f s a with
    | ok u =>
      rw [hfa] at h
      exact htrans _ _ _ (hstep s a u hfa) (ih u t h)
    | abort => rw [hfa] at h; cases h
    | fuel => rw [hfa] at h; cases h

@[simp] theorem alookup_nil {α : Type} (k : Nat) : alookup ([] : List (Nat × α)) k = none := rfl

theorem alookup_cons {α : Type} (k1 : Nat) (v1 : α) (rest : List (Nat × α)) (k : Nat) :
    alookup ((k1, v1) :: rest) k = if k1 = k then some v1 else alookup rest k := rfl

theorem alookup_mem {α : Type} {k : Nat} {v : α} :
    ∀ {l : List (Nat × α)}, alookup l k = some v → (k, v) ∈ l
  | [], h => by simp at h
  | (k1, v1) :: rest, h => by
    rw [alookup_cons] at h
    by_cases hk : k1 = k
    · rw [if_pos hk] at h
      cases h
      subst hk
      exact List.mem_cons_self _ _
    · rw [if_neg hk] at h
      exact List.mem_cons_of_mem _ (alookup_mem h)

theorem alookup_eq_none {α : Type} :
    ∀ {l : List (Nat × α)} {k : Nat}, alookup l k = none ↔ k ∉ l.map Prod.fst
  | [], k => by simp
  | (k1, v1) :: rest, k => by
    rw [alookup_cons]
    by_cases hk : k1 = k
    · simp [hk]
    · simp only [if_neg hk, List.map_cons, List.mem_cons]
      rw [alookup_eq_none]
      constructor
      · rintro h (h1 | h2)
        · exact hk h1.symm
        · exact h h2
      · intro h
        exact fun h2 => h (Or.inr h2)

theorem alookup_isSome_iff {α : Type} {l : List (Nat × α)} {k : Nat} :
    (alookup l k).isSome ↔ k ∈ l.map Prod.fst := by
  cases h : alookup l k with
  | none =>
    simp only [Option.isSome_none, Bool.false_eq_true, false_iff]
    exact alookup_eq_none.mp h
  | some v =>
    simp only [Option.isSome_some, true_iff]
    exact List.mem_map.mpr ⟨(k, v), alookup_mem h, rfl⟩

theorem alookup_nodup_mem {α : Type} :
    ∀ {l : List (Nat × α)} {k : Nat} {v : α}, (k, v) ∈ l →
      (l.map Prod.fst).Nodup → alookup l k = some v
  | [], k, v, h, _ => by simp at h
  | (k1, v1) :: rest, k, v, h, hnd => by
    rw [alookup_cons]
    rcases List.mem_cons.mp h with h1 | h2
    · cases h1
      rw [if_pos rfl]
    · by_cases hk : k1 = k
      · subst hk
        exfalso
        exact (List.nodup_cons.mp hnd).1 (List.mem_map.mpr ⟨(k1, v), h2, rfl⟩)
      · rw [if_neg hk]
        exact alookup_nodup_mem h2 (List.nodup_cons.mp hnd).2

theorem alookup_aset {α : Type} :
    ∀ (l : List (Nat × α)) (k : Nat) (v : α) (k2 : Nat),
      alookup (aset l k v) k2 = if k = k2 then some v else alookup l k2
  | [], k, v, k2 => by simp [aset, alookup_cons]
  | (k1, v1) :: rest, k, v, k2 => by
    simp only [aset]
    by_cases h1 : k1 = k
    · subst h1
      rw [if_pos rfl, alookup_cons, alookup_cons]
      by_cases h2 : k1 = k2 <;> simp [h2]
    · rw [if_neg h1, alookup_cons, alookup_cons, alookup_aset rest k v k2]
      by_cases h2 : k1 = k2
      · have hk2 : ¬ k = k2 := fun h => h1 (h2.trans h.symm)
        simp [h2, hk2]
      · simp [h2]

theorem keys_aset {α : Type} :
    ∀ {l : List (Nat × α)} {k : Nat}, k ∈ l.map Prod.fst → ∀ (v : α),
      (aset l k v).map Prod.fst = l.map Prod.fst
  | [], k, h, v => by simp at h
  | (k1, v1) :: rest, k, h, v => by
    simp only [aset]
    by_cases h1 : k1 = k
    · simp [h1]
    · rw [List.map_cons] at h
      have hk : k ∈ rest.map Prod.fst := by
        rcases List.mem_cons.mp h with h2 | h2
        · exact absurd h2.symm h1
        · exact h2
      rw [if_neg h1]
      simp only [List.map_cons]
      rw [keys_aset hk v]

theorem alookup_adel_ne {α : Type} :
    ∀ (l : List (Nat × α)) {k k2 : Nat}, k ≠ k2 →
      alookup (adel l k) k2 = alookup l k2
  | [], k, k2, h => rfl
  | (k1, v1) :: rest, k, k2, h => by
    simp only [adel]
    by_cases h1 : k1 = k
    · rw [if_pos h1, alookup_cons, if_neg (h1.symm ▸ h)]
    · rw [if_neg h1, alookup_cons, alookup_cons, alookup_adel_ne rest h]

theorem alookup_append {α : Type} :
    ∀ (l1 l2 : List (Nat × α)) (k : Nat),
      alookup (l1 ++ l2) k =
        match alookup l1 k with
        | some v => some v
        | none => alookup l2 k
  | [], l2, k => by simp
  | (k1, v1) :: rest, l2, k => by
    rw [List.cons_append, alookup_cons, alookup_cons]
    by_cases h : k1 = k
    · simp [h]
    · simp only [if_neg h]
      exact alookup_append rest l2 k

theorem alookup_append_right {α : Type} {l1 : List (Nat × α)} {k : Nat}
    (h : k ∉ l1.map Prod.fst) (l2 : List (Nat × α)) :
    alookup (l1 ++ l2) k = alookup l2 k := by
  rw [alookup_append, alookup_eq_none.mpr h]

theorem alookup_append_cons {α : Type} {pre : List (Nat × α)} {k : Nat}
    (h : k ∉ pre.map Prod.fst) (c : α) (rest : List (Nat × α)) :
    alookup (pre ++ (k, c) :: rest) k = some c := by
  rw [alookup_append_right h, alookup_cons, if_pos rfl]

theorem adel_append_cons {α : Type} :
    ∀ {pre : List (Nat × α)} {k : Nat}, k ∉ pre.map Prod.fst → ∀ (c : α) (rest : List (Nat × α)),
      adel (pre ++ (k, c) :: rest) k = pre ++ rest
  | [], k, h, c, rest => by simp [adel]
  | (k1, v1) :: pre, k, h, c, rest => by
    rw [List.map_cons] at h
    have h1 : k1 ≠ k := fun he => h (by rw [← he]; exact List.mem_cons_self _ _)
    have h2 : k ∉ pre.map Prod.fst := fun hm => h (List.mem_cons_of_mem _ hm)
    simp only [List.cons_append, adel, List.append_eq]
    rw [if_neg h1, adel_append_cons h2 c rest]

theorem aset_append_cons {α : Type} :
    ∀ {pre : List (Nat × α)} {k : Nat}, k ∉ pre.map Prod.fst → ∀ (c v : α) (rest : List (Nat × α)),
      aset (pre ++ (k, c) :: rest) k v = pre ++ (k, v) :: rest
  | [], k, h, c, v, rest => by simp [aset]
  | (k1, v1) :: pre, k, h, c, v, rest => by
    rw [List.map_cons] at h
    have h1 : k1 ≠ k := fun he => h (by rw [← he]; exact List.mem_cons_self _ _)
    have h2 : k ∉ pre.map Prod.fst := fun hm => h (List.mem_cons_of_mem _ hm)
    simp only [List.cons_append, aset, List.append_eq]
    rw [if_neg h1, aset_append_cons h2 c v rest]

theorem alookup_map_val {α β : Type} (g : α → β) :
    ∀ (l : List (Nat × α)) (k : Nat),
      alookup (l.map fun kf => (kf.1, g kf.2)) k = (alookup l k).map g
  | [], k => by simp
  | (k1, v1) :: rest, k => by
    simp only [List.map_cons, alookup_cons]
    by_cases h : k1 = k
    · simp [h]
    · simp only [if_neg h]
      exact alookup_map_val g rest k

theorem keys_map_val {α β : Type} (g : α → β) (l : List (Nat × α)) :
    (l.map fun kf => (kf.1, g kf.2)).map Prod.fst = l.map Prod.fst := by
  induction l with
  | nil => rfl
  | cons kv rest ih => simp [ih]

theorem alookup_filter {α : Type} :
    ∀ {l : List (Nat × α)}, (l.map Prod.fst).Nodup → ∀ (P : Nat × α → Bool) (k : Nat),
      alookup (l.filter P) k =
        match alookup l k with
        | some v => if P (k, v) then some v else none
        | none => none
  | [], _, P, k => by simp
  | (k1, v1) :: rest, hnd, P, k => by
    rw [List.filter_cons]
    by_cases hp : P (k1, v1)
    · rw [if_pos hp, alookup_cons, alookup_cons]
      by_cases h : k1 = k
      · subst h; simp [hp]
      · simp only [if_neg h]
        exact alookup_filter (List.nodup_cons.mp hnd).2 P k
    · rw [if_neg hp, alookup_cons]
      by_cases h : k1 = k
      · subst h
        simp only [if_pos rfl]
        have hnone : alookup (rest.filter P) k1 = none := by
          rw [alookup_eq_none]
          intro hmem
          rcases List.mem_map.mp hmem with ⟨⟨k2, v2⟩, hm, he⟩
          cases he
          exact (List.nodup_cons.mp hnd).1
            (List.mem_map.mpr ⟨(k2, v2), List.mem_of_mem_filter hm, rfl⟩)
        rw [hnone]
        simp [hp]
      · simp only [if_neg h]
        exact alookup_filter (List.nodup_cons.mp hnd).2 P k

theorem tol_pos : (0 : ℚ) < tol := by norm_num [tol]

/-- Claim C9: the ratio helper returns 1.0 for every zero denominator,
whatever the numerator: the float division raises ZeroDivisionError
exactly when the denominator is zero, and the handler returns 1.0
before any clamping happens. -/
theorem claim9 (n : ℚ) : ratio n 0 = 1 := by
  simp [ratio, ratioW]

/-- Claim C3: ratio(0, 0) = 1.0; for a nonzero denominator the helper
returns the quotient clamped into the unit interval (negative values
to 0.0, values above one to 1.0), and it warns on stderr (without
aborting: ratioW is total and the warning is just the returned flag)
exactly when the raw quotient lies outside [-2^-23, 1 + 2^-23]. -/
theorem claim3 (n d : ℚ) (hd : d ≠ 0) :
    ratio 0 0 = 1 ∧
    (n / d < 0 → ratio n d = 0) ∧
    (1 < n / d → ratio n d = 1) ∧
    (0 ≤ n / d → n / d ≤ 1 → ratio n d = n / d) ∧
    ((ratioW n d).2 = true ↔ n / d < -tol ∨ 1 + tol < n / d) := by
  have htol := tol_pos
  refine ⟨by simp [ratio, ratioW], ?_, ?_, ?_, ?_⟩
  · intro h
    simp [ratio, ratioW, if_neg hd, h]
  · intro h
    have h0 : ¬ n / d < 0 := by linarith
    simp [ratio, ratioW, if_neg hd, h, h0]
  · intro h0 h1
    have h0n : ¬ n / d < 0 := by linarith
    have h1n : ¬ 1 < n / d := by linarith
    simp [ratio, ratioW, if_neg hd, h0n, h1n]
  · by_cases h0 : n / d < 0
    · have h2 : ¬ 1 + tol < n / d := by linarith
      simp only [ratioW, if_neg hd, if_pos h0, decide_eq_true_eq]
      constructor
      · exact fun h => Or.inl h
      · rintro (h | h)
        · exact h
        · exact absurd h h2
    · by_cases h1 : 1 < n / d
      · have h2 : ¬ n / d < -tol := by push_neg at h0; linarith
        simp only [ratioW, if_neg hd, if_neg h0, if_pos h1, decide_eq_true_eq]
        constructor
        · exact fun h => Or.inr h
        · rintro (h | h)
          · exact absurd h h2
          · exact h
      · push_neg at h0 h1
        have h2 : ¬ n / d < -tol := by linarith
        have h3 : ¬ 1 + tol < n / d := by linarith
        simp only [ratioW, if_neg hd, if_neg (not_lt.mpr h0), if_neg (not_lt.mpr h1)]
        simp only [Bool.false_eq_true, false_iff]
        rintro (h | h)
        · exact absurd h h2
        · exact absurd h h3

/-- Claim C2 is refuted by the code: in Cycle.add_function the merge
loop guard re-tests the function that was just inserted (always
false), so when function 1 - a member of cycle 10 together with
function 2 - is added to cycle 20, the call completes with cycle 20
holding only function 1, function 2 still a member of cycle 10 only,
and function 2's back-reference still pointing at cycle 10, contrary
to the claimed union-and-repoint behaviour. -/
theorem claim2_bug :
    resultCycleMembers (cycleAddFunction 9 pMergeC2 20 1) 20 = some [1] ∧
    resultCycleMembers (cycleAddFunction 9 pMergeC2 20 1) 10 = some [1, 2] ∧
    resultFunCycle (cycleAddFunction 9 pMergeC2 20 1) 2 = some (some 10) ∧
    resultFunCycle (cycleAddFunction 9 pMergeC2 20 1) 1 = some (some 20) := by
  decide

/-- Witness for C3 at the concrete input 3/2. -/
theorem claim3_witness :
    ratio 0 0 = 1 ∧
    ((3 : ℚ) / 2 < 0 → ratio 3 2 = 0) ∧
    (1 < (3 : ℚ) / 2 → ratio 3 2 = 1) ∧
    (0 ≤ (3 : ℚ) / 2 → (3 : ℚ) / 2 ≤ 1 → ratio 3 2 = 3 / 2) ∧
    ((ratioW 3 2).2 = true ↔ (3 : ℚ) / 2 < -tol ∨ 1 + tol < (3 : ℚ) / 2) :=
  claim3 3 2 (by norm_num)

/-! ### Validation (claim C6) -/

theorem validateCalls_aux (funKeys : List Nat) :
    ∀ (l pre : List (Nat × Call)) (g : Function), g.calls = pre ++ l →
      ((pre ++ l).map Prod.fst).Nodup →
      (∀ kc ∈ l, kc.2.callee_id = kc.1) →
      foldRes (validateCallStep funKeys) g (l.map Prod.fst) =
        .ok { g with calls := pre ++ l.filter fun kc => decide (kc.1 ∈ funKeys) } := by
  intro l
  induction l with
  | nil =>
    intro pre g hc _ _
    rw [List.append_nil] at hc
    simp only [List.map_nil, foldRes_nil, List.filter_nil, List.append_nil]
    rw [← hc]
  | cons kc rest ih =>
    obtain ⟨k, c⟩ := kc
    intro pre g hc hnd hids
    have hkpre : k ∉ pre.map Prod.fst := by
      rw [List.map_append, List.map_cons] at hnd
      intro hk
      exact (List.nodup_append.mp hnd).2.2 hk (List.mem_cons_self _ _)
    have hlook : alookup g.calls k = some c := by
      rw [hc]; exact alookup_append_cons hkpre c rest
    have hid : c.callee_id = k := hids (k, c) (List.mem_cons_self _ _)
    simp only [List.map_cons, foldRes_cons, validateCallStep, hlook, if_pos hid]
    by_cases hmem : k ∈ funKeys
    · rw [if_pos hmem]
      have hres := ih (pre ++ [(k, c)]) g
        (by rw [hc, List.append_assoc, List.singleton_append])
        (by rw [List.append_assoc, List.singleton_append]; exact hnd)
        (fun kc2 hm => hids kc2 (List.mem_cons_of_mem _ hm))
      rw [bind_ok, hres]
      rw [List.filter_cons_of_pos (by simpa using hmem)]
      rw [List.append_assoc, List.singleton_append]
    · rw [if_neg hmem, bind_ok]
      have hdel : adel g.calls k = pre ++ rest := by
        rw [hc]; exact adel_append_cons hkpre c rest
      have hres := ih pre { g with calls := adel g.calls k }
        (by simp [hdel])
        (by
          rw [List.map_append] at hnd ⊢
          rw [List.map_cons] at hnd
          exact List.Nodup.sublist
            (List.Sublist.append_left (List.sublist_cons_self _ _) _) hnd)
        (fun kc2 hm => hids kc2 (List.mem_cons_of_mem _ hm))
      rw [hres]
      rw [List.filter_cons_of_neg (by simpa using hmem)]

theorem validateCalls_spec (funKeys : List Nat) (f : Function)
    (hnd : (f.calls.map Prod.fst).Nodup)
    (hids : ∀ kc ∈ f.calls, kc.2.callee_id = kc.1) :
    validateCalls funKeys f = .ok (validatedFun funKeys f) := by
  have := validateCalls_aux funKeys f.calls [] f (by simp) (by simpa) hids
  simpa [validateCalls, validatedFun] using this

theorem validate_aux (funKeys : List Nat) :
    ∀ (l pre : List (Nat × Function)) (pc : Profile), pc.functions = pre ++ l →
      ((pre ++ l).map Prod.fst).Nodup →
      (∀ kf ∈ l, (kf.2.calls.map Prod.fst).Nodup ∧ ∀ kc ∈ kf.2.calls, kc.2.callee_id = kc.1) →
      foldRes (validateFunStep funKeys) pc (l.map Prod.fst) =
        .ok { pc with functions := pre ++ l.map fun kf => (kf.1, validatedFun funKeys kf.2) } := by
  intro l
  induction l with
  | nil =>
    intro pre pc hc _ _
    rw [List.append_nil] at hc
    simp only [List.map_nil, foldRes_nil, List.append_nil]
    rw [← hc]
  | cons kf rest ih =>
    obtain ⟨k, f⟩ := kf
    intro pre pc hc hnd hids
    have hkpre : k ∉ pre.map Prod.fst := by
      rw [List.map_append, List.map_cons] at hnd
      intro hk
      exact (List.nodup_append.mp hnd).2.2 hk (List.mem_cons_self _ _)
    have hlook : getFun pc k = some f := by
      rw [getFun, hc]; exact alookup_append_cons hkpre f rest
    have hf := hids (k, f) (List.mem_cons_self _ _)
    simp only [List.map_cons, foldRes_cons, validateFunStep, hlook,
      validateCalls_spec funKeys f hf.1 hf.2, bind_ok]
    have hset : setFun pc k (validatedFun funKeys f) =
        { pc with functions := pre ++ (k, validatedFun funKeys f) :: rest } := by
      rw [setFun, hc, aset_append_cons hkpre]
    rw [hset]
    have hres := ih (pre ++ [(k, validatedFun funKeys f)])
      { pc with functions := pre ++ (k, validatedFun funKeys f) :: rest }
      (by rw [List.append_assoc, List.singleton_append])
      (by
        rw [List.append_assoc, List.singleton_append, List.map_append, List.map_cons]
        rw [List.map_append, List.map_cons] at hnd
        exact hnd)
      (fun kf2 hm => hids kf2 (List.mem_cons_of_mem _ hm))
    rw [hres]
    rw [List.append_assoc, List.singleton_append]

theorem validate_spec (p : Profile) (h1 : FunKeysNodup p) (h2 : CallKeysNodup p)
    (h3 : CallIdsOk p) : validate p = .ok (validatedProfile p) := by
  have := validate_aux (p.functions.map Prod.fst) p.functions [] p (by simp)
    (by simpa using h1) (fun kf hm => ⟨h2 kf hm, h3 kf hm⟩)
  simpa [validate, validatedProfile] using this

/-- Claim C6: after validate completes on a well-formed profile, every
remaining call of every function has a callee id that is a key of the
function map (dangling calls having been dropped), and every call
whose callee id was registered survives unchanged. -/
theorem claim6 (p q : Profile)
    (h1 : FunKeysNodup p) (h2 : CallKeysNodup p) (h3 : CallIdsOk p)
    (h : validate p = .ok q) :
    (∀ fk f, alookup q.functions fk = some f →
       ∀ ck c, alookup f.calls ck = some c → c.callee_id ∈ q.functions.map Prod.fst) ∧
    (∀ fk f, alookup p.functions fk = some f →
       ∀ ck c, alookup f.calls ck = some c → c.callee_id ∈ p.functions.map Prod.fst →
         ∃ g, alookup q.functions fk = some g ∧ alookup g.calls ck = some c) := by
  rw [validate_spec p h1 h2 h3] at h
  cases h
  have hkeys : (validatedProfile p).functions.map Prod.fst = p.functions.map Prod.fst := by
    rw [validatedProfile]
    exact keys_map_val _ _
  constructor
  · intro fk f hf ck c hc
    rw [hkeys]
    simp only [validatedProfile, alookup_map_val] at hf
    cases hf0 : alookup p.functions fk with
    | none => rw [hf0] at hf; cases hf
    | some f0 =>
      rw [hf0] at hf
      have hf2 : validatedFun (p.functions.map Prod.fst) f0 = f := Option.some.inj hf
      subst hf2
      have hcmem := alookup_mem hc
      have hsplit := List.mem_filter.mp hcmem
      have hid : c.callee_id = ck :=
        h3 (fk, f0) (alookup_mem hf0) (ck, c) hsplit.1
      rw [hid]
      simpa using hsplit.2
  · intro fk f hf ck c hc hreg
    have hid : c.callee_id = ck := h3 (fk, f) (alookup_mem hf) (ck, c) (alookup_mem hc)
    refine ⟨validatedFun (p.functions.map Prod.fst) f, ?_, ?_⟩
    · simp only [validatedProfile, alookup_map_val, hf]
      rfl
    · have hflt := alookup_filter (h2 (fk, f) (alookup_mem hf))
        (fun kc => decide (kc.1 ∈ p.functions.map Prod.fst)) ck
      rw [hc] at hflt
      simp only at hflt
      simp only [validatedFun]
      rw [hflt]
      rw [if_pos (decide_eq_true (by rw [← hid]; exact hreg))]

/-- Witness for C6 on a concrete profile with one dangling call. -/
theorem claim6_witness :
    (∀ fk f, alookup qValC6.functions fk = some f →
       ∀ ck c, alookup f.calls ck = some c → c.callee_id ∈ qValC6.functions.map Prod.fst) ∧
    (∀ fk f, alookup pValC6.functions fk = some f →
       ∀ ck c, alookup f.calls ck = some c → c.callee_id ∈ pValC6.functions.map Prod.fst →
         ∃ g, alookup qValC6.functions fk = some g ∧ alookup g.calls ck = some c) :=
  claim6 pValC6 qValC6 (by unfold FunKeysNodup; decide) (by unfold CallKeysNodup; decide)
    (by unfold CallIdsOk; decide) (by decide)

/-! ### Call ratios (claim C4) -/

theorem ratio_bounds (n d : ℚ) : 0 ≤ ratio n d ∧ ratio n d ≤ 1 := by
  unfold ratio ratioW
  split_ifs with h1 h2 h3
  · simp
  · simp
  · simp
  · push_neg at h2 h3
    exact ⟨h2, h3⟩

theorem pass2Call_spec (tot : List (Nat × ℚ) × List (Nat × ℚ)) (ev : Event) (fk : Nat)
    (pc : Profile) (ck : Nat) (pcm : Profile)
    (h : pass2Call tot ev fk pc ck = .ok pcm) :
    (∃ f0, alookup pc.functions fk = some f0) ∧
    (∀ fk2, fk2 ≠ fk → alookup pcm.functions fk2 = alookup pc.functions fk2) ∧
    (∀ f, alookup pc.functions fk = some f →
      ∃ f2, alookup pcm.functions fk = some f2 ∧ f2.id = f.id ∧
        f2.calls.map Prod.fst = f.calls.map Prod.fst ∧
        (∀ ck2, ck2 ≠ ck → alookup f2.calls ck2 = alookup f.calls ck2) ∧
        (∀ c2, alookup f2.calls ck = some c2 →
          (c2.callee_id ≠ f2.id →
            ∃ r, c2.ratio = some r ∧ 0 ≤ r ∧ r ≤ 1 ∧ (alookup c2.events ev.id = none → r = 0)) ∧
          (c2.callee_id = f2.id → c2.ratio = none))) := by
  unfold pass2Call at h
  cases hf : getFun pc fk with
  | none => rw [hf] at h; cases h
  | some f0 =>
    rw [hf] at h
    simp only at h
    have hfl : alookup pc.functions fk = some f0 := hf
    cases hc : alookup f0.calls ck with
    | none => rw [hc] at h; cases h
    | some c =>
      rw [hc] at h
      simp only at h
      by_cases hr : c.ratio ≠ none
      · rw [if_pos hr] at h; cases h
      · rw [if_neg hr] at h
        push_neg at hr
        have hgen : ∀ (v : ℚ), 0 ≤ v → v ≤ 1 → (alookup c.events ev.id = none → v = 0) →
            pcm = setFun pc fk { f0 with calls := aset f0.calls ck { c with ratio := some v } } →
            c.callee_id ≠ f0.id →
            (∃ f0, alookup pc.functions fk = some f0) ∧
            (∀ fk2, fk2 ≠ fk → alookup pcm.functions fk2 = alookup pc.functions fk2) ∧
            (∀ f, alookup pc.functions fk = some f →
              ∃ f2, alookup pcm.functions fk = some f2 ∧ f2.id = f.id ∧
                f2.calls.map Prod.fst = f.calls.map Prod.fst ∧
                (∀ ck2, ck2 ≠ ck → alookup f2.calls ck2 = alookup f.calls ck2) ∧
                (∀ c2, alookup f2.calls ck = some c2 →
                  (c2.callee_id ≠ f2.id →
                    ∃ r, c2.ratio = some r ∧ 0 ≤ r ∧ r ≤ 1 ∧
                      (alookup c2.events ev.id = none → r = 0)) ∧
                  (c2.callee_id = f2.id → c2.ratio = none))) := by
          intro v hv0 hv1 hve hpcm hself
          subst hpcm
          refine ⟨⟨f0, hfl⟩, ?_, ?_⟩
          · intro fk2 hne
            simp only [setFun]
            rw [alookup_aset]
            rw [if_neg fun hh => hne hh.symm]
          · intro f hfeq
            have hff : f0 = f := Option.some.inj (hfl.symm.trans hfeq)
            subst hff
            refine ⟨{ f0 with calls := aset f0.calls ck { c with ratio := some v } },
              ?_, rfl, ?_, ?_, ?_⟩
            · simp only [setFun]
              rw [alookup_aset, if_pos rfl]
            · exact keys_aset (List.mem_map.mpr ⟨(ck, c), alookup_mem hc, rfl⟩) _
            · intro ck2 hne
              show alookup (aset f0.calls ck { c with ratio := some v }) ck2 =
                alookup f0.calls ck2
              rw [alookup_aset, if_neg fun hh => hne hh.symm]
            · intro c2 hc2
              have hc2b : alookup (aset f0.calls ck { c with ratio := some v }) ck = some c2 := hc2
              rw [alookup_aset, if_pos rfl] at hc2b
              have hcc : { c with ratio := some v } = c2 := Option.some.inj hc2b
              subst hcc
              constructor
              · intro _
                exact ⟨v, rfl, hv0, hv1, hve⟩
              · intro habs
                exact absurd habs hself
        by_cases hself : c.callee_id ≠ f0.id
        · rw [if_pos hself] at h
          cases hcal : getFun pc c.callee_id with
          | none => rw [hcal] at h; cases h
          | some callee =>
            rw [hcal] at h
            cases hev : alookup c.events ev.id with
            | some w =>
              rw [hev] at h
              simp only at h
              cases htv : pass2Total tot f0 callee c.callee_id with
              | ok tv =>
                rw [htv] at h
                simp only [bind_ok] at h
                exact hgen (ratio w tv) (ratio_bounds w tv).1 (ratio_bounds w tv).2
                  (fun hnone => by rw [hev] at hnone; cases hnone)
                  (by cases h; rfl) hself
              | abort => rw [htv] at h; cases h
              | fuel => rw [htv] at h; cases h
            | none =>
              rw [hev] at h
              simp only at h
              exact hgen 0 le_rfl (by norm_num) (fun _ => rfl) (by cases h; rfl) hself
        · rw [if_neg hself] at h
          push_neg at hself
          cases h
          refine ⟨⟨f0, hfl⟩, fun _ _ => rfl, ?_⟩
          intro f hfeq
          have hff : f0 = f := Option.some.inj (hfl.symm.trans hfeq)
          subst hff
          refine ⟨f0, hfl, rfl, rfl, fun _ _ => rfl, ?_⟩
          intro c2 hc2
          have hcc : c = c2 := Option.some.inj (hc.symm.trans hc2)
          subst hcc
          exact ⟨fun habs => absurd hself habs, fun _ => hr⟩

theorem pass2Fold_spec (tot : List (Nat × ℚ) × List (Nat × ℚ)) (ev : Event) (fk : Nat) :
    ∀ (ks : List Nat) (pc pc2 : Profile),
      foldRes (pass2Call tot ev fk) pc ks = .ok pc2 →
      (∀ fk2, fk2 ≠ fk → alookup pc2.functions fk2 = alookup pc.functions fk2) ∧
      (∀ f2, alookup pc2.functions fk = some f2 →
        ∀ ck c2, alookup f2.calls ck = some c2 →
          (ck ∈ ks →
            (c2.callee_id ≠ f2.id →
              ∃ r, c2.ratio = some r ∧ 0 ≤ r ∧ r ≤ 1 ∧
                (alookup c2.events ev.id = none → r = 0)) ∧
            (c2.callee_id = f2.id → c2.ratio = none)) ∧
          (ck ∉ ks → ∃ f, alookup pc.functions fk = some f ∧
            alookup f.calls ck = some c2 ∧ f2.id = f.id)) := by
  intro ks
  induction ks with
  | nil =>
    intro pc pc2 h
    simp only [foldRes_nil] at h
    cases h
    refine ⟨fun _ _ => rfl, ?_⟩
    intro f2 hf2 ck c2 hc2
    exact ⟨fun hm => absurd hm (List.not_mem_nil _), fun _ => ⟨f2, hf2, hc2, rfl⟩⟩
  | cons ck0 ks ih =>
    intro pc pc2 h
    simp only [foldRes_cons] at h
    cases hstep : pass2Call tot ev fk pc ck0 with
    | ok pcm =>
      rw [hstep] at h
      simp only [bind_ok] at h
      have SC := pass2Call_spec tot ev fk pc ck0 pcm hstep
      have IH := ih pcm pc2 h
      obtain ⟨f0, hf0⟩ := SC.1
      obtain ⟨fnew, hfnew, hfnewid, _, hother, hpost⟩ := SC.2.2 f0 hf0
      refine ⟨?_, ?_⟩
      · intro fk2 hne
        rw [IH.1 fk2 hne, SC.2.1 fk2 hne]
      · intro f2 hf2 ck c2 hc2
        constructor
        · intro hmem
          by_cases hks : ck ∈ ks
          · exact (IH.2 f2 hf2 ck c2 hc2).1 hks
          · have hck0 : ck = ck0 := by
              rcases List.mem_cons.mp hmem with h1 | h1
              · exact h1
              · exact absurd h1 hks
            subst hck0
            obtain ⟨fmid, hfmid, hcmid, hidmid⟩ := (IH.2 f2 hf2 ck c2 hc2).2 hks
            have hmm : fnew = fmid := Option.some.inj (hfnew.symm.trans hfmid)
            subst hmm
            have := hpost c2 hcmid
            rw [hidmid]
            exact this
        · intro hnmem
          have hks : ck ∉ ks := fun hm => hnmem (List.mem_cons_of_mem _ hm)
          have hne : ck ≠ ck0 := fun he => hnmem (he ▸ List.mem_cons_self _ _)
          obtain ⟨fmid, hfmid, hcmid, hidmid⟩ := (IH.2 f2 hf2 ck c2 hc2).2 hks
          have hmm : fnew = fmid := Option.some.inj (hfnew.symm.trans hfmid)
          subst hmm
          rw [hother ck hne] at hcmid
          exact ⟨f0, hf0, hcmid, hidmid.trans hfnewid⟩
    | abort => rw [hstep] at h; cases h
    | fuel => rw [hstep] at h; cases h

theorem pass2Outer_spec (tot : List (Nat × ℚ) × List (Nat × ℚ)) (ev : Event) :
    ∀ (ks : List Nat) (pc pc2 : Profile),
      foldRes (pass2FunStep tot ev) pc ks = .ok pc2 →
      (∀ fk, fk ∉ ks → alookup pc2.functions fk = alookup pc.functions fk) ∧
      (∀ fk, fk ∈ ks → ∀ f2, alookup pc2.functions fk = some f2 → funPost ev f2) := by
  intro ks
  induction ks with
  | nil =>
    intro pc pc2 h
    simp only [foldRes_nil] at h
    cases h
    exact ⟨fun _ _ => rfl, fun fk hm => absurd hm (List.not_mem_nil _)⟩
  | cons fk0 ks ih =>
    intro pc pc2 h
    simp only [foldRes_cons] at h
    cases hstep : pass2FunStep tot ev pc fk0 with
    | ok pcm =>
      rw [hstep] at h
      simp only [bind_ok] at h
      have IH := ih pcm pc2 h
      unfold pass2FunStep at hstep
      cases hf : getFun pc fk0 with
      | none =>
        rw [hf] at hstep
        cases hstep
        refine ⟨?_, ?_⟩
        · intro fk hnm
          exact IH.1 fk fun hm => hnm (List.mem_cons_of_mem _ hm)
        · intro fk hm f2 hf2
          by_cases hks : fk ∈ ks
          · exact IH.2 fk hks f2 hf2
          · have hfk0 : fk = fk0 := by
              rcases List.mem_cons.mp hm with h1 | h1
              · exact h1
              · exact absurd h1 hks
            subst hfk0
            rw [IH.1 fk hks] at hf2
            rw [show alookup pc.functions fk = none from hf] at hf2
            cases hf2
      | some f =>
        rw [hf] at hstep
        have FS := pass2Fold_spec tot ev fk0 (f.calls.map Prod.fst) pc pcm hstep
        have EPost : ∀ f2, alookup pcm.functions fk0 = some f2 → funPost ev f2 := by
          intro f2 hf2 ck c2 hc2
          by_cases hmem : ck ∈ f.calls.map Prod.fst
          · exact (FS.2 f2 hf2 ck c2 hc2).1 hmem
          · obtain ⟨fo, hfo, hco, _⟩ := (FS.2 f2 hf2 ck c2 hc2).2 hmem
            have hof : f = fo :=
              Option.some.inj ((show alookup pc.functions fk0 = some f from hf).symm.trans hfo)
            subst hof
            exact absurd (List.mem_map.mpr ⟨(ck, c2), alookup_mem hco, rfl⟩) hmem
        refine ⟨?_, ?_⟩
        · intro fk hnm
          have h1 : fk ∉ ks := fun hm => hnm (List.mem_cons_of_mem _ hm)
          have h2 : fk ≠ fk0 := fun he => hnm (he ▸ List.mem_cons_self _ _)
          rw [IH.1 fk h1, FS.1 fk h2]
        · intro fk hm f2 hf2
          by_cases hks : fk ∈ ks
          · exact IH.2 fk hks f2 hf2
          · have hfk0 : fk = fk0 := by
              rcases List.mem_cons.mp hm with h1 | h1
              · exact h1
              · exact absurd h1 hks
            subst hfk0
            rw [IH.1 fk hks] at hf2
            exact EPost f2 hf2
    | abort => rw [hstep] at h; cases h
    | fuel => rw [hstep] at h; cases h

/-- Claim C4: after call_ratios completes, every call whose stored
callee id differs from its owner's id carries a ratio in [0,1], and a
call lacking the chosen event carries ratio 0.0. -/
theorem claim4 (p q : Profile) (ev : Event) (h : callRatios p ev = .ok q) :
    ∀ fk f, alookup q.functions fk = some f →
      ∀ ck c, alookup f.calls ck = some c → c.callee_id ≠ f.id →
        ∃ r, c.ratio = some r ∧ 0 ≤ r ∧ r ≤ 1 ∧
          (alookup c.events ev.id = none → r = 0) := by
  unfold callRatios at h
  cases h1 : pass1 p ev with
  | ok tot =>
    rw [h1] at h
    simp only [bind_ok] at h
    intro fk f hf ck c hc hself
    by_cases hmem : fk ∈ p.functions.map Prod.fst
    · exact ((pass2Outer_spec tot ev _ p q h).2 fk hmem f hf ck c hc).1 hself
    · have heq := (pass2Outer_spec tot ev _ p q h).1 fk hmem
      rw [heq, alookup_eq_none.mpr hmem] at hf
      cases hf
  | abort => rw [h1] at h; cases h
  | fuel => rw [h1] at h; cases h

/-- Witness for C4 on a concrete profile. -/
theorem claim4_witness :
    ∃ r, (mkCall 3 (some (3 / 4)) [(1, 3)]).ratio = some r ∧ 0 ≤ r ∧ r ≤ 1 ∧
      (alookup (mkCall 3 (some (3 / 4)) [(1, 3)]).events SAMPLES.id = none → r = 0) :=
  claim4 pCRC4 qCRC4 SAMPLES (by with_unfolding_all rfl) 2
    (mkFun 2 "B" [(3, mkCall 3 (some (3 / 4)) [(1, 3)])] [] none)
    (by with_unfolding_all rfl)
    3 (mkCall 3 (some (3 / 4)) [(1, 3)]) (by with_unfolding_all rfl) (by decide)

/-! ### Pruning (claim C8) -/

theorem optRel_some_left {α β : Type} {R : α → β → Prop} {a : α} {ob : Option β}
    (h : OptRel R (some a) ob) : ∃ b, ob = some b ∧ R a b := by
  cases ob with
  | none => exact h.elim
  | some b => exact ⟨b, rfl, h⟩

theorem optRel_some_right {α β : Type} {R : α → β → Prop} {oa : Option α} {b : β}
    (h : OptRel R oa (some b)) : ∃ a, oa = some a ∧ R a b := by
  cases oa with
  | none => exact h.elim
  | some a => exact ⟨a, rfl, h⟩

theorem optRel_none_left {α β : Type} {R : α → β → Prop} {ob : Option β}
    (h : OptRel R (none : Option α) ob) : ob = none := by
  cases ob with
  | none => rfl
  | some b => exact h.elim

theorem funShape_refl (f : Function) :
    f.id = f.id ∧ f.calls.map Prod.fst = f.calls.map Prod.fst ∧
      ∀ ck, OptRel (fun c d => d.callee_id = c.callee_id)
        (alookup f.calls ck) (alookup f.calls ck) := by
  refine ⟨rfl, rfl, fun ck => ?_⟩
  cases alookup f.calls ck with
  | none => trivial
  | some c => exact rfl

theorem ShapeRel_refl (p : Profile) : ShapeRel p p := by
  refine ⟨rfl, fun k => ?_⟩
  cases alookup p.functions k with
  | none => trivial
  | some f => exact funShape_refl f

theorem ShapeRel_trans {p q r : Profile} (h1 : ShapeRel p q) (h2 : ShapeRel q r) :
    ShapeRel p r := by
  refine ⟨h2.1.trans h1.1, fun k => ?_⟩
  have hk1 := h1.2 k
  have hk2 := h2.2 k
  cases hpf : alookup p.functions k with
  | none =>
    rw [hpf] at hk1
    rw [optRel_none_left hk1] at hk2
    rw [optRel_none_left hk2]
    trivial
  | some f =>
    rw [hpf] at hk1
    obtain ⟨g, hg, hfg⟩ := optRel_some_left hk1
    rw [hg] at hk2
    obtain ⟨e, he, hge⟩ := optRel_some_left hk2
    rw [he]
    refine ⟨hge.1.trans hfg.1, hge.2.1.trans hfg.2.1, fun ck => ?_⟩
    have hc1 := hfg.2.2 ck
    have hc2 := hge.2.2 ck
    cases hcf : alookup f.calls ck with
    | none =>
      rw [hcf] at hc1
      rw [optRel_none_left hc1] at hc2
      rw [optRel_none_left hc2]
      trivial
    | some c =>
      rw [hcf] at hc1
      obtain ⟨d, hd, hcd⟩ := optRel_some_left hc1
      rw [hd] at hc2
      obtain ⟨e2, he2, hde⟩ := optRel_some_left hc2
      rw [he2]
      exact hde.trans hcd

theorem ShapeRel_setFun (pc : Profile) (fk : Nat) (f f2 : Function)
    (hl : alookup pc.functions fk = some f)
    (hid : f2.id = f.id) (hkeys : f2.calls.map Prod.fst = f.calls.map Prod.fst)
    (hcalls : ∀ ck, OptRel (fun c d => d.callee_id = c.callee_id)
      (alookup f.calls ck) (alookup f2.calls ck)) :
    ShapeRel pc (setFun pc fk f2) := by
  refine ⟨?_, fun k => ?_⟩
  · exact keys_aset (List.mem_map.mpr ⟨(fk, f), alookup_mem hl, rfl⟩) f2
  · show OptRel _ (alookup pc.functions k) (alookup (aset pc.functions fk f2) k)
    rw [alookup_aset]
    by_cases hk : fk = k
    · subst hk
      rw [if_pos rfl, hl]
      exact ⟨hid, hkeys, hcalls⟩
    · rw [if_neg hk]
      cases alookup pc.functions k with
      | none => trivial
      | some f3 => exact funShape_refl f3

theorem funShape_setCallWeight (f : Function) (ck : Nat) (c : Call) (w : Option ℚ)
    (hc : alookup f.calls ck = some c) :
    ({ f with calls := aset f.calls ck { c with weight := w } } : Function).id = f.id ∧
    ({ f with calls := aset f.calls ck { c with weight := w } } : Function).calls.map Prod.fst
      = f.calls.map Prod.fst ∧
    ∀ ck2, OptRel (fun c2 d => d.callee_id = c2.callee_id)
      (alookup f.calls ck2)
      (alookup ({ f with calls := aset f.calls ck { c with weight := w } } : Function).calls ck2) := by
  refine ⟨rfl, ?_, fun ck2 => ?_⟩
  · exact keys_aset (List.mem_map.mpr ⟨(ck, c), alookup_mem hc, rfl⟩) _
  · show OptRel _ (alookup f.calls ck2) (alookup (aset f.calls ck { c with weight := w }) ck2)
    rw [alookup_aset]
    by_cases hk : ck = ck2
    · subst hk
      rw [if_pos rfl, hc]
      exact rfl
    · rw [if_neg hk]
      cases alookup f.calls ck2 with
      | none => trivial
      | some c2 => exact rfl

theorem pruneWeights_shape (p p1 : Profile) (h : pruneWeights p = .ok p1) :
    ShapeRel p p1 := by
  unfold pruneWeights at h
  refine foldRes_rel ShapeRel _ ShapeRel_refl (fun _ _ _ => ShapeRel_trans) ?_ _ p p1 h
  intro pc fk pc2 hb
  cases hf : getFun pc fk with
  | none =>
    rw [hf] at hb
    simp only at hb
    cases hb
    exact ShapeRel_refl pc
  | some f =>
    rw [hf] at hb
    simp only at hb
    have hstart : ∀ f1 : Function, f1.id = f.id →
        f1.calls.map Prod.fst = f.calls.map Prod.fst →
        (∀ ck, OptRel (fun c d => d.callee_id = c.callee_id)
          (alookup f.calls ck) (alookup f1.calls ck)) →
        ShapeRel pc (setFun pc fk f1) := fun f1 hi hk hc =>
      ShapeRel_setFun pc fk f f1 hf hi hk hc
    have hS1 : ShapeRel pc
        (setFun pc fk
          (match alookup f.events TOTAL_TIME_RATIO_EV.id with
           | some v => { f with weight := some v }
           | none => f)) := by
      cases alookup f.events TOTAL_TIME_RATIO_EV.id with
      | some v => exact hstart _ rfl rfl (funShape_refl f).2.2
      | none => exact hstart _ rfl rfl (funShape_refl f).2.2
    refine ShapeRel_trans hS1 ?_
    refine foldRes_rel ShapeRel _ ShapeRel_refl (fun _ _ _ => ShapeRel_trans) ?_ _ _ _ hb
    intro pc3 ck pc4 hbi
    cases hf3 : getFun pc3 fk with
    | none => rw [hf3] at hbi; cases hbi
    | some f3 =>
      rw [hf3] at hbi
      simp only at hbi
      cases hc3 : alookup f3.calls ck with
      | none => rw [hc3] at hbi; cases hbi
      | some c =>
        rw [hc3] at hbi
        simp only at hbi
        cases hcal : getFun pc3 c.callee_id with
        | none => rw [hcal] at hbi; cases hbi
        | some callee =>
          rw [hcal] at hbi
          simp only at hbi
          have hgen : ∀ (w : Option ℚ),
              pc4 = setFun pc3 fk { f3 with calls := aset f3.calls ck { c with weight := w } } →
              ShapeRel pc3 pc4 := by
            intro w hw
            subst hw
            have hws := funShape_setCallWeight f3 ck c w hc3
            exact ShapeRel_setFun pc3 fk f3 _ hf3 hws.1 hws.2.1 hws.2.2
          cases hev : alookup c.events TOTAL_TIME_RATIO_EV.id with
          | some v =>
            rw [hev] at hbi
            simp only at hbi
            cases hbi
            exact hgen _ rfl
          | none =>
            rw [hev] at hbi
            simp only at hbi
            cases h1 : alookup f3.events TOTAL_TIME_RATIO_EV.id with
            | some a =>
              rw [h1] at hbi
              cases h2 : alookup callee.events TOTAL_TIME_RATIO_EV.id with
              | some b =>
                rw [h2] at hbi
                simp only at hbi
                cases hbi
                exact hgen _ rfl
              | none =>
                rw [h2] at hbi
                simp only at hbi
                cases hbi
                exact ShapeRel_refl pc3
            | none =>
              rw [h1] at hbi
              simp only at hbi
              cases hbi
              exact ShapeRel_refl pc3

theorem delCalls_aux (P : Nat → Call → Bool) :
    ∀ (cur pre : List (Nat × Call)), ((pre ++ cur).map Prod.fst).Nodup →
      (cur.map Prod.fst).foldl (delCallsStep P) (pre ++ cur) =
        pre ++ cur.filter fun kc => !P kc.1 kc.2 := by
  intro cur
  induction cur with
  | nil => intro pre _; simp
  | cons kc rest ih =>
    obtain ⟨k, c⟩ := kc
    intro pre hnd
    have hkpre : k ∉ pre.map Prod.fst := by
      rw [List.map_append, List.map_cons] at hnd
      intro hk
      exact (List.nodup_append.mp hnd).2.2 hk (List.mem_cons_self _ _)
    have hlook : alookup (pre ++ (k, c) :: rest) k = some c := alookup_append_cons hkpre c rest
    simp only [List.map_cons, List.foldl_cons, delCallsStep, hlook]
    by_cases hp : P k c
    · rw [if_pos hp, adel_append_cons hkpre c rest]
      have hnd2 : ((pre ++ rest).map Prod.fst).Nodup := by
        rw [List.map_append] at hnd ⊢
        rw [List.map_cons] at hnd
        exact List.Nodup.sublist
          (List.Sublist.append_left (List.sublist_cons_self _ _) _) hnd
      rw [ih pre hnd2, List.filter_cons_of_neg (by simp [hp])]
    · rw [if_neg hp]
      have heq : pre ++ (k, c) :: rest = (pre ++ [(k, c)]) ++ rest := by
        rw [List.append_assoc, List.singleton_append]
      rw [heq]
      rw [ih (pre ++ [(k, c)]) (by rw [← heq]; exact hnd)]
      rw [List.filter_cons_of_pos (by simp [hp])]
      rw [List.append_assoc, List.singleton_append]

theorem delFuns_aux (P : Nat → Function → Bool) :
    ∀ (cur pre : List (Nat × Function)) (pc : Profile), pc.functions = pre ++ cur →
      ((pre ++ cur).map Prod.fst).Nodup →
      (cur.map Prod.fst).foldl (delFunsStep P) pc =
        { pc with functions := pre ++ cur.filter fun kf => !P kf.1 kf.2 } := by
  intro cur
  induction cur with
  | nil =>
    intro pre pc hc _
    rw [List.append_nil] at hc
    simp only [List.map_nil, List.foldl_nil, List.filter_nil, List.append_nil]
    rw [← hc]
  | cons kf rest ih =>
    obtain ⟨k, f⟩ := kf
    intro pre pc hc hnd
    have hkpre : k ∉ pre.map Prod.fst := by
      rw [List.map_append, List.map_cons] at hnd
      intro hk
      exact (List.nodup_append.mp hnd).2.2 hk (List.mem_cons_self _ _)
    have hlook : getFun pc k = some f := by
      rw [getFun, hc]; exact alookup_append_cons hkpre f rest
    simp only [List.map_cons, List.foldl_cons, delFunsStep, hlook]
    by_cases hp : P k f
    · rw [if_pos hp]
      have hdel : adel pc.functions k = pre ++ rest := by
        rw [hc]; exact adel_append_cons hkpre f rest
      have hnd2 : ((pre ++ rest).map Prod.fst).Nodup := by
        rw [List.map_append] at hnd ⊢
        rw [List.map_cons] at hnd
        exact List.Nodup.sublist
          (List.Sublist.append_left (List.sublist_cons_self _ _) _) hnd
      rw [ih pre { pc with functions := adel pc.functions k } (by simp [hdel]) hnd2]
      rw [List.filter_cons_of_neg (by simp [hp])]
    · rw [if_neg hp]
      rw [ih (pre ++ [(k, f)]) pc
        (by rw [hc, List.append_assoc, List.singleton_append])
        (by rw [List.append_assoc, List.singleton_append]; exact hnd)]
      rw [List.filter_cons_of_pos (by simp [hp])]
      rw [List.append_assoc, List.singleton_append]

theorem mapFuns_aux (g : Function → Function) :
    ∀ (cur pre : List (Nat × Function)) (pc : Profile), pc.functions = pre ++ cur →
      ((pre ++ cur).map Prod.fst).Nodup →
      (cur.map Prod.fst).foldl (mapFunStep g) pc =
        { pc with functions := pre ++ cur.map fun kf => (kf.1, g kf.2) } := by
  intro cur
  induction cur with
  | nil =>
    intro pre pc hc _
    rw [List.append_nil] at hc
    simp only [List.map_nil, List.foldl_nil, List.append_nil]
    rw [← hc]
  | cons kf rest ih =>
    obtain ⟨k, f⟩ := kf
    intro pre pc hc hnd
    have hkpre : k ∉ pre.map Prod.fst := by
      rw [List.map_append, List.map_cons] at hnd
      intro hk
      exact (List.nodup_append.mp hnd).2.2 hk (List.mem_cons_self _ _)
    have hlook : getFun pc k = some f := by
      rw [getFun, hc]; exact alookup_append_cons hkpre f rest
    simp only [List.map_cons, List.foldl_cons, mapFunStep, hlook]
    have hset : setFun pc k (g f) =
        { pc with functions := pre ++ (k, g f) :: rest } := by
      rw [setFun, hc, aset_append_cons hkpre]
    rw [hset]
    rw [ih (pre ++ [(k, g f)]) { pc with functions := pre ++ (k, g f) :: rest }
      (by rw [List.append_assoc, List.singleton_append])
      (by
        rw [List.append_assoc, List.singleton_append, List.map_append, List.map_cons]
        rw [List.map_append, List.map_cons] at hnd
        exact hnd)]
    rw [List.append_assoc, List.singleton_append]

theorem keys_map_fst_eq {α : Type} (g : Nat × α → Nat × α) (l : List (Nat × α))
    (h : ∀ x ∈ l, (g x).1 = x.1) : (l.map g).map Prod.fst = l.map Prod.fst := by
  induction l with
  | nil => rfl
  | cons x rest ih =>
    simp only [List.map_cons, List.map_map]
    rw [h x (List.mem_cons_self _ _)]
    have := ih fun y hy => h y (List.mem_cons_of_mem _ hy)
    simp only [List.map_map] at this
    rw [this]

theorem mem_of_alookup_nodup {α : Type} {l : List (Nat × α)} {k : Nat} {v : α}
    (hnd : (l.map Prod.fst).Nodup) :
    (k, v) ∈ l ↔ alookup l k = some v :=
  ⟨fun h => alookup_nodup_mem h hnd, fun h => alookup_mem h⟩

/-- Shape preservation carries the dict invariants across. -/
theorem invs_of_shape {p q : Profile} (hs : ShapeRel p q)
    (h1 : FunKeysNodup p) (h2 : CallKeysNodup p) (h3 : CallIdsOk p) :
    FunKeysNodup q ∧ CallKeysNodup q ∧ CallIdsOk q := by
  have h1q : FunKeysNodup q := by
    unfold FunKeysNodup at h1 ⊢
    rw [hs.1]
    exact h1
  refine ⟨h1q, ?_, ?_⟩
  · intro kf hm
    have hl : alookup q.functions kf.1 = some kf.2 := alookup_nodup_mem (by
      cases kf; exact hm) h1q
    have hopt := hs.2 kf.1
    rw [hl] at hopt
    obtain ⟨f, hf, hfg⟩ := optRel_some_right hopt
    rw [hfg.2.1]
    exact h2 (kf.1, f) (alookup_mem hf)
  · intro kf hm kc hmc
    have hl : alookup q.functions kf.1 = some kf.2 := alookup_nodup_mem (by
      cases kf; exact hm) h1q
    have hopt := hs.2 kf.1
    rw [hl] at hopt
    obtain ⟨f, hf, hfg⟩ := optRel_some_right hopt
    have hndc : (kf.2.calls.map Prod.fst).Nodup := by
      rw [hfg.2.1]
      exact h2 (kf.1, f) (alookup_mem hf)
    have hlc : alookup kf.2.calls kc.1 = some kc.2 := alookup_nodup_mem (by
      cases kc; exact hmc) hndc
    have hoptc := hfg.2.2 kc.1
    rw [hlc] at hoptc
    obtain ⟨c, hcl, hcd⟩ := optRel_some_right hoptc
    rw [hcd]
    exact h3 (kf.1, f) (alookup_mem hf) (kc.1, c) (alookup_mem hcl)

/-- Deleting entries (a filter on the function dict) carries the dict
invariants across. -/
theorem invs_of_filter {p : Profile} (Q : Nat × Function → Bool)
    (h1 : FunKeysNodup p) (h2 : CallKeysNodup p) (h3 : CallIdsOk p) :
    FunKeysNodup { p with functions := p.functions.filter Q } ∧
    CallKeysNodup { p with functions := p.functions.filter Q } ∧
    CallIdsOk { p with functions := p.functions.filter Q } := by
  refine ⟨?_, ?_, ?_⟩
  · unfold FunKeysNodup at h1 ⊢
    exact List.Nodup.sublist (List.Sublist.map _ (List.filter_sublist _)) h1
  · intro kf hm
    exact h2 kf (List.mem_of_mem_filter hm)
  · intro kf hm
    exact h3 kf (List.mem_of_mem_filter hm)

theorem adel_sublist {α : Type} : ∀ (l : List (Nat × α)) (k : Nat), List.Sublist (adel l k) l
  | [], _ => List.Sublist.refl _
  | (k1, v1) :: rest, k => by
    simp only [adel]
    by_cases h : k1 = k
    · rw [if_pos h]
      exact List.sublist_cons_self _ _
    · rw [if_neg h]
      exact List.Sublist.cons₂ _ (adel_sublist rest k)

theorem invs_of_sublist {p q : Profile} (hsub : List.Sublist q.functions p.functions)
    (h1 : FunKeysNodup p) (h2 : CallKeysNodup p) (h3 : CallIdsOk p) :
    FunKeysNodup q ∧ CallKeysNodup q ∧ CallIdsOk q := by
  refine ⟨?_, ?_, ?_⟩
  · exact List.Nodup.sublist (List.Sublist.map _ hsub) h1
  · intro kf hm
    exact h2 kf (hsub.mem hm)
  · intro kf hm
    exact h3 kf (hsub.mem hm)

theorem delFuns_fold_invs (P : Nat → Function → Bool) :
    ∀ (ks : List Nat) (pc : Profile),
      FunKeysNodup pc → CallKeysNodup pc → CallIdsOk pc →
      FunKeysNodup (ks.foldl (delFunsStep P) pc) ∧
      CallKeysNodup (ks.foldl (delFunsStep P) pc) ∧
      CallIdsOk (ks.foldl (delFunsStep P) pc) := by
  intro ks
  induction ks with
  | nil => intro pc h1 h2 h3; exact ⟨h1, h2, h3⟩
  | cons k ks ih =>
    intro pc h1 h2 h3
    simp only [List.foldl_cons]
    have hstep : FunKeysNodup (delFunsStep P pc k) ∧ CallKeysNodup (delFunsStep P pc k) ∧
        CallIdsOk (delFunsStep P pc k) := by
      unfold delFunsStep
      cases hg : getFun pc k with
      | none => exact ⟨h1, h2, h3⟩
      | some f =>
        simp only
        by_cases hp : P k f
        · rw [if_pos hp]
          exact invs_of_sublist (adel_sublist _ _) h1 h2 h3
        · rw [if_neg hp]
          exact ⟨h1, h2, h3⟩
    exact ih _ hstep.1 hstep.2.1 hstep.2.2

/-- Claim C8: after prune completes on a well-formed profile, every
surviving call's callee id is a key of the surviving function map, and
every surviving call with a defined weight has weight at least the edge
threshold. -/
theorem claim8 (p q : Profile) (nt et : ℚ) (paths : List String) (color : Bool)
    (h1 : FunKeysNodup p) (h2 : CallKeysNodup p) (h3 : CallIdsOk p)
    (h : prune p nt et paths color = .ok q) :
    ∀ kf ∈ q.functions, ∀ kc ∈ kf.2.calls,
      kc.2.callee_id ∈ q.functions.map Prod.fst ∧
      ∀ w, kc.2.weight = some w → et ≤ w := by
  unfold prune at h
  cases hw : pruneWeights p with
  | ok p1 =>
    rw [hw] at h
    simp only [bind_ok] at h
    have hshape := pruneWeights_shape p p1 hw
    obtain ⟨h1a, h2a, h3a⟩ := invs_of_shape hshape h1 h2 h3
    set p2 : Profile := pruneNodes p1 nt with hp2def
    set p3 : Profile := prunePaths p2 paths with hp3def
    set p4 : Profile := pruneEdges p3 et with hp4def
    obtain ⟨h1b, h2b, h3b⟩ : FunKeysNodup p2 ∧ CallKeysNodup p2 ∧ CallIdsOk p2 := by
      rw [hp2def]
      unfold pruneNodes
      exact delFuns_fold_invs _ _ _ h1a h2a h3a
    obtain ⟨h1c, h2c, h3c⟩ : FunKeysNodup p3 ∧ CallKeysNodup p3 ∧ CallIdsOk p3 := by
      rw [hp3def]
      unfold prunePaths
      exact delFuns_fold_invs _ _ _ h1b h2b h3b
    have heEq : p4 = { p3 with functions := p3.functions.map fun kf =>
        (kf.1, pruneEdgesFun (p3.functions.map Prod.fst) et kf.2) } := by
      rw [hp4def]
      unfold pruneEdges
      rw [mapFuns_aux _ p3.functions [] p3 (by simp) (by simpa using h1c)]
      simp
    have hedgefun : ∀ kf ∈ p3.functions,
        (pruneEdgesFun (p3.functions.map Prod.fst) et kf.2).calls =
          kf.2.calls.filter fun kc =>
            !pruneEdgeBad (p3.functions.map Prod.fst) et kc.1 kc.2 := by
      intro kf hm
      unfold pruneEdgesFun
      exact delCalls_aux _ kf.2.calls [] (by simpa using h2c kf hm)
    have hkeys4 : p4.functions.map Prod.fst = p3.functions.map Prod.fst := by
      rw [heEq]
      exact keys_map_val _ _
    have hq4 : q = pruneColor p4 ∨ q = p4 := by
      cases color with
      | false =>
        right
        have := Res.ok.inj h
        simpa using this.symm
      | true =>
        left
        have := Res.ok.inj h
        simpa using this.symm
    have hfin : ∀ kf2 ∈ q.functions, ∃ kf4 ∈ p4.functions,
        kf2.1 = kf4.1 ∧ kf2.2.calls = kf4.2.calls := by
      intro kf2 hm2
      rcases hq4 with hq | hq
      · rw [hq] at hm2
        unfold pruneColor at hm2
        simp only [List.mem_map] at hm2
        obtain ⟨kf4, hm4, heq⟩ := hm2
        have hsh : kf2.1 = kf4.1 ∧ kf2.2.calls = kf4.2.calls := by
          cases hml : alookup kf4.2.events TIME_RATIO_EV.id with
          | none =>
            rw [hml] at heq
            simp only at heq
            cases heq
            exact ⟨rfl, rfl⟩
          | some v =>
            rw [hml] at heq
            simp only at heq
            split at heq
            · cases heq
              exact ⟨rfl, rfl⟩
            · cases heq
              exact ⟨rfl, rfl⟩
        exact ⟨kf4, hm4, hsh.1, hsh.2⟩
      · rw [hq] at hm2
        exact ⟨kf2, hm2, rfl, rfl⟩
    have hkeysq : q.functions.map Prod.fst = p4.functions.map Prod.fst := by
      rcases hq4 with hq | hq
      · rw [hq]
        unfold pruneColor
        refine keys_map_fst_eq _ _ ?_
        intro x _
        cases hml : alookup x.2.events TIME_RATIO_EV.id with
        | none => simp only [hml]
        | some v =>
          simp only [hml]
          split
          · rfl
          · rfl
      · rw [hq]
    intro kf hm kc hmc
    obtain ⟨kf4, hm4, hk14, hcalls⟩ := hfin kf hm
    rw [hcalls] at hmc
    rw [heEq] at hm4
    simp only [List.mem_map] at hm4
    obtain ⟨kf3, hm3, heq3⟩ := hm4
    have hcalls4 : kf4.2.calls = kf3.2.calls.filter fun kc =>
        !pruneEdgeBad (p3.functions.map Prod.fst) et kc.1 kc.2 := by
      rw [← heq3]
      exact hedgefun kf3 hm3
    rw [hcalls4] at hmc
    have hsplit := List.mem_filter.mp hmc
    have hbad : pruneEdgeBad (p3.functions.map Prod.fst) et kc.1 kc.2 = false := by
      have hb2 := hsplit.2
      cases hbb : pruneEdgeBad (p3.functions.map Prod.fst) et kc.1 kc.2
      · rfl
      · rw [hbb] at hb2; cases hb2
    unfold pruneEdgeBad at hbad
    rw [Bool.or_eq_false_iff] at hbad
    have hmem3 : kc.1 ∈ p3.functions.map Prod.fst := by
      have hb1 := hbad.1
      by_cases hqm : kc.1 ∈ p3.functions.map Prod.fst
      · exact hqm
      · rw [decide_eq_false_iff_not] at hb1
        exact absurd hqm hb1
    have hcid : kc.2.callee_id = kc.1 := h3c kf3 hm3 kc hsplit.1
    constructor
    · rw [hkeysq, hkeys4, hcid]
      exact hmem3
    · intro w hww
      have hb2 := hbad.2
      rw [hww] at hb2
      simp only [decide_eq_false_iff_not, not_lt] at hb2
      exact hb2
  | abort => rw [hw] at h; cases h
  | fuel => rw [hw] at h; cases h

/-- Witness for C8 on a concrete profile. -/
theorem claim8_witness :
    (2 : Nat) ∈ qPrC8.functions.map Prod.fst ∧
    ∀ w, ({ mkCall 2 none [(7, 1 / 2)] with weight := some (1 / 2) } : Call).weight =
        some w → (1 / 10 : ℚ) ≤ w :=
  claim8 pPrC8 qPrC8 (1 / 10) (1 / 10) [] false
    (by unfold FunKeysNodup; decide) (by unfold CallKeysNodup; decide)
    (by unfold CallIdsOk; decide) (by with_unfolding_all rfl)
    (1, { mkFun 1 "A" [(2, { mkCall 2 none [(7, 1 / 2)] with weight := some (1 / 2) })] [(7, 1)] none with weight := some 1 })
    (List.mem_cons_self _ _)
    (2, { mkCall 2 none [(7, 1 / 2)] with weight := some (1 / 2) })
    (List.mem_cons_self _ _)

/-! ### Integrate sanity checking (claim C7) -/

theorem foldRes_unit_ok {α : Type} (g : Unit → α → Res Unit) :
    ∀ (l : List α), foldRes g () l = .ok () → ∀ a ∈ l, g () a = .ok () := by
  intro l
  induction l with
  | nil => intro _ a ha; exact absurd ha (List.not_mem_nil _)
  | cons b l ih =>
    intro h a ha
    simp only [foldRes_cons] at h
    cases hb : g () b with
    | ok u =>
      cases u
      rw [hb] at h
      simp only [bind_ok] at h
      rcases List.mem_cons.mp ha with h1 | h1
      · subst h1; exact hb
      · exact ih h a h1
    | abort => rw [hb] at h; cases h
    | fuel => rw [hb] at h; cases h

theorem foldRes_unit_cases {α : Type} (g : Unit → α → Res Unit)
    (hg : ∀ a, g () a = .ok () ∨ g () a = .abort) :
    ∀ (l : List α), foldRes g () l = .ok () ∨ foldRes g () l = .abort := by
  intro l
  induction l with
  | nil => left; rfl
  | cons b l ih =>
    simp only [foldRes_cons]
    rcases hg b with h | h
    · rw [h]
      simpa using ih
    · rw [h]
      right
      rfl

theorem sanityCallStep_cases (out : Event) (f : Function) (ck : Nat) :
    (match alookup f.calls ck with
      | none => (.ok () : Res Unit)
      | some c =>
        if emem c.events out.id then .abort
        else if c.callee_id ≠ f.id then
          match c.ratio with
          | none => .abort
          | some _ => .ok ()
        else .ok ()) = .ok () ∨
    (match alookup f.calls ck with
      | none => (.ok () : Res Unit)
      | some c =>
        if emem c.events out.id then .abort
        else if c.callee_id ≠ f.id then
          match c.ratio with
          | none => .abort
          | some _ => .ok ()
        else .ok ()) = .abort := by
  cases alookup f.calls ck with
  | none => left; rfl
  | some c =>
    simp only
    by_cases h1 : emem c.events out.id
    · rw [if_pos h1]; right; rfl
    · rw [if_neg h1]
      by_cases h2 : c.callee_id ≠ f.id
      · rw [if_pos h2]
        cases c.ratio
        · right; rfl
        · left; rfl
      · rw [if_neg h2]; left; rfl

theorem sanityFun_cases (p : Profile) (out inEv : Event) (fk : Nat) :
    sanityFun p out inEv fk = .ok () ∨ sanityFun p out inEv fk = .abort := by
  unfold sanityFun
  cases getFun p fk with
  | none => left; rfl
  | some f =>
    simp only
    by_cases h1 : emem f.events out.id
    · rw [if_pos h1]; right; rfl
    · rw [if_neg h1]
      by_cases h2 : emem f.events inEv.id
      · rw [h2]
        simp only [Bool.not_true, Bool.false_eq_true, if_false]
        exact foldRes_unit_cases _ (fun ck => sanityCallStep_cases out f ck) _
      · rw [Bool.not_eq_true] at h2
        rw [h2]
        simp

/-- Claim C7: integrate aborts (rather than proceeding) whenever the
inclusive kind is already defined on the profile, on some function or
on some call, or the exclusive kind is undefined on some function. -/
theorem claim7 (p : Profile) (out inEv : Event) (fuel : Nat)
    (h : (alookup p.events out.id).isSome = true ∨
      ∃ fk f, alookup p.functions fk = some f ∧
        ((alookup f.events out.id).isSome = true ∨
         alookup f.events inEv.id = none ∨
         ∃ ck c, alookup f.calls ck = some c ∧ (alookup c.events out.id).isSome = true)) :
    integrate fuel p out inEv = Res.abort := by
  unfold integrate sanity
  by_cases hp : emem p.events out.id
  · rw [if_pos hp]
    rfl
  · rw [if_neg hp]
    have h2 : ∃ fk f, alookup p.functions fk = some f ∧
        ((alookup f.events out.id).isSome = true ∨
         alookup f.events inEv.id = none ∨
         ∃ ck c, alookup f.calls ck = some c ∧ (alookup c.events out.id).isSome = true) := by
      rcases h with h1 | h1
      · exact absurd h1 hp
      · exact h1
    obtain ⟨fk, f, hlf, hviol⟩ := h2
    rcases foldRes_unit_cases (fun _ fk => sanityFun p out inEv fk)
        (fun fk => sanityFun_cases p out inEv fk) (p.functions.map Prod.fst) with hok | hab
    · exfalso
      have hfk : fk ∈ p.functions.map Prod.fst :=
        List.mem_map.mpr ⟨(fk, f), alookup_mem hlf, rfl⟩
      have hsf := foldRes_unit_ok _ _ hok fk hfk
      unfold sanityFun at hsf
      rw [show getFun p fk = some f from hlf] at hsf
      simp only at hsf
      by_cases hfo : emem f.events out.id
      · rw [if_pos hfo] at hsf; cases hsf
      · rw [if_neg hfo] at hsf
        by_cases hfi : emem f.events inEv.id
        · rw [hfi] at hsf
          simp only [Bool.not_true, Bool.false_eq_true, if_false] at hsf
          rcases hviol with hv | hv | hv
          · exact absurd hv hfo
          · rw [emem, hv] at hfi; cases hfi
          · obtain ⟨ck, c, hlc, hco⟩ := hv
            have hck : ck ∈ f.calls.map Prod.fst :=
              List.mem_map.mpr ⟨(ck, c), alookup_mem hlc, rfl⟩
            have hbody := foldRes_unit_ok _ _ hsf ck hck
            rw [hlc] at hbody
            simp only at hbody
            rw [if_pos (show emem c.events out.id from hco)] at hbody
            cases hbody
        · rw [Bool.not_eq_true] at hfi
          rw [hfi] at hsf
          simp only [Bool.not_false, if_true] at hsf
          cases hsf
    · rw [hab]
      rfl

/-- Witness for C7: the inclusive kind is already defined on the
profile, so integrate aborts. -/
theorem claim7_witness : integrate 3 pIntC7 TOTAL_TIME TIME = Res.abort :=
  claim7 pIntC7 TOTAL_TIME TIME 3 (Or.inl (by decide))

/-! ### The frame of the integration recursion (claims C1, C10) -/

theorem CallFrame_refl (e : Nat) (c : Call) : CallFrame e c c :=
  ⟨rfl, rfl, rfl, fun _ _ => rfl⟩

theorem FunFrame_refl (e : Nat) (f : Function) : FunFrame e f f := by
  refine ⟨rfl, rfl, rfl, rfl, rfl, rfl, rfl, rfl, fun _ _ => rfl, fun ck => ?_⟩
  cases alookup f.calls ck with
  | none => trivial
  | some c => exact CallFrame_refl e c

theorem CycFrame_refl (e : Nat) (c : Cycle) : CycFrame e c c := ⟨rfl, fun _ _ => rfl⟩

theorem ProfFrame_refl (e : Nat) (p : Profile) : ProfFrame e p p := by
  refine ⟨rfl, rfl, rfl, fun k => ?_, rfl, fun k => ?_⟩
  · cases alookup p.functions k with
    | none => trivial
    | some f => exact FunFrame_refl e f
  · cases alookup p.cycleStore k with
    | none => trivial
    | some c => exact CycFrame_refl e c

theorem CallFrame_trans {e : Nat} {c d b : Call}
    (h1 : CallFrame e c d) (h2 : CallFrame e d b) : CallFrame e c b :=
  ⟨h2.1.trans h1.1, h2.2.1.trans h1.2.1, h2.2.2.1.trans h1.2.2.1,
   fun k hk => (h2.2.2.2 k hk).trans (h1.2.2.2 k hk)⟩

theorem FunFrame_trans {e : Nat} {f g b : Function}
    (h1 : FunFrame e f g) (h2 : FunFrame e g b) : FunFrame e f b := by
  obtain ⟨a1, a2, a3, a4, a5, a6, a7, a8, a9, a10⟩ := h1
  obtain ⟨b1, b2, b3, b4, b5, b6, b7, b8, b9, b10⟩ := h2
  refine ⟨b1.trans a1, b2.trans a2, b3.trans a3, b4.trans a4, b5.trans a5,
    b6.trans a6, b7.trans a7, b8.trans a8,
    fun k hk => (b9 k hk).trans (a9 k hk), fun ck => ?_⟩
  have hc1 := a10 ck
  have hc2 := b10 ck
  cases hcf : alookup f.calls ck with
  | none =>
    rw [hcf] at hc1
    rw [optRel_none_left hc1] at hc2
    rw [optRel_none_left hc2]
    trivial
  | some c =>
    rw [hcf] at hc1
    obtain ⟨d, hd, hcd⟩ := optRel_some_left hc1
    rw [hd] at hc2
    obtain ⟨e2, he2, hde⟩ := optRel_some_left hc2
    rw [he2]
    exact CallFrame_trans hcd hde

theorem CycFrame_trans {e : Nat} {c d b : Cycle}
    (h1 : CycFrame e c d) (h2 : CycFrame e d b) : CycFrame e c b :=
  ⟨h2.1.trans h1.1, fun k hk => (h2.2 k hk).trans (h1.2 k hk)⟩

theorem ProfFrame_trans {e : Nat} {p q r : Profile}
    (h1 : ProfFrame e p q) (h2 : ProfFrame e q r) : ProfFrame e p r := by
  obtain ⟨a1, a2, a3, a4, a5, a6⟩ := h1
  obtain ⟨b1, b2, b3, b4, b5, b6⟩ := h2
  refine ⟨b1.trans a1, b2.trans a2, b3.trans a3, fun k => ?_, b5.trans a5, fun k => ?_⟩
  · have hc1 := a4 k
    have hc2 := b4 k
    cases hcf : alookup p.functions k with
    | none =>
      rw [hcf] at hc1
      rw [optRel_none_left hc1] at hc2
      rw [optRel_none_left hc2]
      trivial
    | some f =>
      rw [hcf] at hc1
      obtain ⟨g, hg, hfg⟩ := optRel_some_left hc1
      rw [hg] at hc2
      obtain ⟨b, hb, hgb⟩ := optRel_some_left hc2
      rw [hb]
      exact FunFrame_trans hfg hgb
  · have hc1 := a6 k
    have hc2 := b6 k
    cases hcf : alookup p.cycleStore k with
    | none =>
      rw [hcf] at hc1
      rw [optRel_none_left hc1] at hc2
      rw [optRel_none_left hc2]
      trivial
    | some c =>
      rw [hcf] at hc1
      obtain ⟨d, hd, hcd⟩ := optRel_some_left hc1
      rw [hd] at hc2
      obtain ⟨b, hb, hdb⟩ := optRel_some_left hc2
      rw [hb]
      exact CycFrame_trans hcd hdb

theorem CallFrame_setEvent (e : Nat) (c : Call) (v : ℚ) :
    CallFrame e c { c with events := aset c.events e v } := by
  refine ⟨rfl, rfl, rfl, fun k hk => ?_⟩
  show alookup (aset c.events e v) k = alookup c.events k
  rw [alookup_aset, if_neg fun hh => hk hh.symm]

theorem FunFrame_setEvent (e : Nat) (f : Function) (v : ℚ) :
    FunFrame e f { f with events := aset f.events e v } := by
  refine ⟨rfl, rfl, rfl, rfl, rfl, rfl, rfl, rfl, fun k hk => ?_, fun ck => ?_⟩
  · show alookup (aset f.events e v) k = alookup f.events k
    rw [alookup_aset, if_neg fun hh => hk hh.symm]
  · cases alookup f.calls ck with
    | none => trivial
    | some c => exact CallFrame_refl e c

theorem FunFrame_setCall (e : Nat) (f : Function) (ck : Nat) (c c2 : Call)
    (hc : alookup f.calls ck = some c) (hcf : CallFrame e c c2) :
    FunFrame e f { f with calls := aset f.calls ck c2 } := by
  refine ⟨rfl, rfl, rfl, rfl, rfl, rfl, rfl, ?_, fun _ _ => rfl, fun ck2 => ?_⟩
  · exact keys_aset (List.mem_map.mpr ⟨(ck, c), alookup_mem hc, rfl⟩) c2
  · show OptRel (CallFrame e) (alookup f.calls ck2) (alookup (aset f.calls ck c2) ck2)
    rw [alookup_aset]
    by_cases hk : ck = ck2
    · subst hk
      rw [if_pos rfl, hc]
      exact hcf
    · rw [if_neg hk]
      cases alookup f.calls ck2 with
      | none => trivial
      | some c3 => exact CallFrame_refl e c3

theorem ProfFrame_setFun (e : Nat) (p : Profile) (fk : Nat) (f f2 : Function)
    (hl : alookup p.functions fk = some f) (hf : FunFrame e f f2) :
    ProfFrame e p (setFun p fk f2) := by
  refine ⟨rfl, rfl, ?_, fun k => ?_, rfl, fun k => ?_⟩
  · exact keys_aset (List.mem_map.mpr ⟨(fk, f), alookup_mem hl, rfl⟩) f2
  · show OptRel (FunFrame e) (alookup p.functions k) (alookup (aset p.functions fk f2) k)
    rw [alookup_aset]
    by_cases hk : fk = k
    · subst hk
      rw [if_pos rfl, hl]
      exact hf
    · rw [if_neg hk]
      cases alookup p.functions k with
      | none => trivial
      | some f3 => exact FunFrame_refl e f3
  · show OptRel (CycFrame e) (alookup p.cycleStore k) (alookup p.cycleStore k)
    cases alookup p.cycleStore k with
    | none => trivial
    | some c => exact CycFrame_refl e c

theorem ProfFrame_setCyc (e : Nat) (p : Profile) (cid : Nat) (cyc : Cycle) (v : ℚ)
    (hl : alookup p.cycleStore cid = some cyc) :
    ProfFrame e p (setCyc p cid { cyc with events := aset cyc.events e v }) := by
  refine ⟨rfl, rfl, rfl, fun k => ?_, ?_, fun k => ?_⟩
  · show OptRel (FunFrame e) (alookup p.functions k) (alookup p.functions k)
    cases alookup p.functions k with
    | none => trivial
    | some f => exact FunFrame_refl e f
  · exact keys_aset (List.mem_map.mpr ⟨(cid, cyc), alookup_mem hl, rfl⟩) _
  · show OptRel (CycFrame e) (alookup p.cycleStore k)
      (alookup (aset p.cycleStore cid { cyc with events := aset cyc.events e v }) k)
    rw [alookup_aset]
    by_cases hk : cid = k
    · subst hk
      rw [if_pos rfl, hl]
      refine ⟨rfl, fun k2 hk2 => ?_⟩
      show alookup (aset cyc.events e v) k2 = alookup cyc.events k2
      rw [alookup_aset, if_neg fun hh => hk2 hh.symm]
    · rw [if_neg hk]
      cases alookup p.cycleStore k with
      | none => trivial
      | some c => exact CycFrame_refl e c

theorem bind_ok_inv {α β : Type} {x : Res α} {k : α → Res β} {b : β}
    (h : x.bind k = .ok b) : ∃ a, x = .ok a ∧ k a = .ok b := by
  cases x with
  | ok a => exact ⟨a, rfl, h⟩
  | abort => cases h
  | fuel => cases h

/-- The integration recursion writes only the out event (of functions,
calls and cycles): everything else in the profile is untouched. -/
theorem integrate_frame :
    ∀ n : Nat,
      (∀ p fk out inEv r, integrateFunction n p fk out inEv = .ok r →
        ProfFrame out.id p r.1) ∧
      (∀ p fk ck out inEv r, integrateCall n p fk ck out inEv = .ok r →
        ProfFrame out.id p r.1) ∧
      (∀ p cid out inEv r, integrateCycle n p cid out inEv = .ok r →
        ProfFrame out.id p r.1) ∧
      (∀ p cid fk pr pm ranks crs out inEv r,
        integrateCycleFunction n p cid fk pr pm ranks crs out inEv = .ok r →
          ProfFrame out.id p r.1) := by
  intro n
  induction n with
  | zero =>
    refine ⟨?_, ?_, ?_, ?_⟩
    · intro p fk out inEv r h
      unfold integrateFunction at h
      cases h
    · intro p fk ck out inEv r h
      unfold integrateCall at h
      cases h
    · intro p cid out inEv r h
      unfold integrateCycle at h
      cases h
    · intro p cid fk pr pm ranks crs out inEv r h
      unfold integrateCycleFunction at h
      cases h
  | succ n ih =>
    obtain ⟨ihF, ihC, ihY, ihI⟩ := ih
    have hCallStep : ∀ (p : Profile) (fk ck : Nat) (out inEv : Event) (r : Profile × ℚ),
        integrateCall (n + 1) p fk ck out inEv = .ok r → ProfFrame out.id p r.1 := by
      intro p fk ck out inEv r h
      unfold integrateCall at h
      cases hf : getFun p fk with
      | none => rw [hf] at h; cases h
      | some f =>
        rw [hf] at h
        simp only at h
        cases hc : alookup f.calls ck with
        | none => rw [hc] at h; cases h
        | some c =>
          rw [hc] at h
          simp only at h
          by_cases hme : emem c.events out.id
          · rw [if_pos hme] at h; cases h
          · rw [if_neg hme] at h
            cases hr : c.ratio with
            | none => rw [hr] at h; cases h
            | some rv =>
              rw [hr] at h
              simp only at h
              cases hcal : getFun p c.callee_id with
              | none => rw [hcal] at h; cases h
              | some callee =>
                rw [hcal] at h
                simp only at h
                obtain ⟨st, hrec, h⟩ := bind_ok_inv h
                have hF := ihF p c.callee_id out inEv st hrec
                cases hf2 : getFun st.1 fk with
                | none => rw [hf2] at h; cases h
                | some f2 =>
                  rw [hf2] at h
                  simp only at h
                  cases hc2 : alookup f2.calls ck with
                  | none => rw [hc2] at h; cases h
                  | some c2 =>
                    rw [hc2] at h
                    simp only at h
                    cases h
                    refine ProfFrame_trans hF (ProfFrame_setFun out.id st.1 fk f2 _ hf2 ?_)
                    exact FunFrame_setCall out.id f2 ck c2 _ hc2 (CallFrame_setEvent out.id c2 _)
    have hICFStep : ∀ (p : Profile) (cid fk : Nat) (pr : ℚ) (pm : List (Nat × ℚ))
        (ranks : List (Nat × Nat)) (crs : List (Nat × ℚ)) (out inEv : Event)
        (r : Profile × List (Nat × ℚ) × ℚ),
        integrateCycleFunction (n + 1) p cid fk pr pm ranks crs out inEv = .ok r →
          ProfFrame out.id p r.1 := by
      intro p cid fk pr pm ranks crs out inEv r h
      unfold integrateCycleFunction at h
      cases hpm : alookup pm fk with
      | some v =>
        rw [hpm] at h
        simp only at h
        cases h
        exact ProfFrame_refl _ p
      | none =>
        rw [hpm] at h
        simp only at h
        cases hf : getFun p fk with
        | none => rw [hf] at h; cases h
        | some f =>
          rw [hf] at h
          simp only at h
          cases hin : alookup f.events inEv.id with
          | none => rw [hin] at h; cases h
          | some fin =>
            rw [hin] at h
            simp only at h
            obtain ⟨st, hfold, h⟩ := bind_ok_inv h
            have hFold : ProfFrame out.id p st.1 := by
              refine foldRes_rel
                (fun s t : Profile × List (Nat × ℚ) × ℚ => ProfFrame out.id s.1 t.1) _
                (fun s => ProfFrame_refl _ s.1) (fun a b c => ProfFrame_trans) ?_ _ _ _ hfold
              intro s ck t hb
              cases hfs : getFun s.1 fk with
              | none => rw [hfs] at hb; cases hb
              | some f2 =>
                rw [hfs] at hb
                simp only at hb
                cases hcs : alookup f2.calls ck with
                | none => rw [hcs] at hb; cases hb
                | some c =>
                  rw [hcs] at hb
                  simp only at hb
                  cases hcal : getFun s.1 c.callee_id with
                  | none => rw [hcal] at hb; cases hb
                  | some callee =>
                    rw [hcal] at hb
                    simp only at hb
                    by_cases hic : callee.cycle ≠ some cid
                    · rw [if_pos hic] at hb
                      cases hev : alookup c.events out.id with
                      | none => rw [hev] at hb; cases hb
                      | some cv =>
                        rw [hev] at hb
                        simp only at hb
                        cases hb
                        exact ProfFrame_refl _ s.1
                    · rw [if_neg hic] at hb
                      cases hrk : alookup ranks c.callee_id with
                      | none => rw [hrk] at hb; cases hb
                      | some rc =>
                        rw [hrk] at hb
                        cases hrk2 : alookup ranks fk with
                        | none => rw [hrk2] at hb; cases hb
                        | some rf =>
                          rw [hrk2] at hb
                          simp only at hb
                          by_cases hlt : rf < rc
                          · rw [if_pos hlt] at hb
                            obtain ⟨r2, hrec, hb2⟩ := bind_ok_inv hb
                            have hR := ihI s.1 cid c.callee_id pr s.2.1 ranks crs out inEv r2 hrec
                            cases hcr : c.ratio with
                            | none => rw [hcr] at hb2; cases hb2
                            | some cr =>
                              rw [hcr] at hb2
                              simp only at hb2
                              cases hcrs : alookup crs c.callee_id with
                              | none => rw [hcrs] at hb2; cases hb2
                              | some totv =>
                                rw [hcrs] at hb2
                                simp only at hb2
                                cases hf3 : getFun r2.1 fk with
                                | none => rw [hf3] at hb2; cases hb2
                                | some f3 =>
                                  rw [hf3] at hb2
                                  simp only at hb2
                                  cases hc3 : alookup f3.calls ck with
                                  | none => rw [hc3] at hb2; cases hb2
                                  | some c3 =>
                                    rw [hc3] at hb2
                                    simp only at hb2
                                    cases hb2
                                    refine ProfFrame_trans hR
                                      (ProfFrame_setFun out.id r2.1 fk f3 _ hf3 ?_)
                                    exact FunFrame_setCall out.id f3 ck c3 _ hc3
                                      (CallFrame_setEvent out.id c3 _)
                          · rw [if_neg hlt] at hb
                            cases hb
                            exact ProfFrame_refl _ s.1
            cases hf4 : getFun st.1 fk with
            | none => rw [hf4] at h; cases h
            | some f4 =>
              rw [hf4] at h
              simp only at h
              cases h
              exact ProfFrame_trans hFold
                (ProfFrame_setFun out.id st.1 fk f4 _ hf4 (FunFrame_setEvent out.id f4 _))
    have hCycStep : ∀ (p : Profile) (cid : Nat) (out inEv : Event) (r : Profile × ℚ),
        integrateCycle (n + 1) p cid out inEv = .ok r → ProfFrame out.id p r.1 := by
      intro p cid out inEv r h
      unfold integrateCycle at h
      cases hcl : getCyc p cid with
      | none => rw [hcl] at h; cases h
      | some cyc =>
        rw [hcl] at h
        simp only at h
        cases hmo : alookup cyc.events out.id with
        | some v =>
          rw [hmo] at h
          simp only at h
          cases h
          exact ProfFrame_refl _ p
        | none =>
          rw [hmo] at h
          simp only at h
          obtain ⟨stT, hL1, h⟩ := bind_ok_inv h
          have hF1 : ProfFrame out.id p stT.1 := by
            refine foldRes_rel (fun s t : Profile × ℚ => ProfFrame out.id s.1 t.1) _
              (fun s => ProfFrame_refl _ s.1) (fun a b c => ProfFrame_trans) ?_ _ _ _ hL1
            intro s mk t hb
            cases hm : getFun s.1 mk with
            | none => rw [hm] at hb; cases hb
            | some m =>
              rw [hm] at hb
              simp only at hb
              cases hmv : alookup m.events inEv.id with
              | none => rw [hmv] at hb; cases hb
              | some mval =>
                rw [hmv] at hb
                simp only at hb
                obtain ⟨st2, hInner, hb2⟩ := bind_ok_inv hb
                have hIF : ProfFrame out.id s.1 st2.1 := by
                  refine foldRes_rel (fun s t : Profile × ℚ => ProfFrame out.id s.1 t.1) _
                    (fun s => ProfFrame_refl _ s.1) (fun a b c => ProfFrame_trans) ?_ _
                    (s.1, mval) _ hInner
                  intro s2 ck t2 hb3
                  cases hm2 : getFun s2.1 mk with
                  | none => rw [hm2] at hb3; cases hb3
                  | some m2 =>
                    rw [hm2] at hb3
                    simp only at hb3
                    cases hc2 : alookup m2.calls ck with
                    | none => rw [hc2] at hb3; cases hb3
                    | some c =>
                      rw [hc2] at hb3
                      simp only at hb3
                      cases hcal : getFun s2.1 c.callee_id with
                      | none => rw [hcal] at hb3; cases hb3
                      | some callee =>
                        rw [hcal] at hb3
                        simp only at hb3
                        by_cases hic : callee.cycle = some cid
                        · rw [if_pos hic] at hb3
                          cases hb3
                          exact ProfFrame_refl _ s2.1
                        · rw [if_neg hic] at hb3
                          obtain ⟨r2, hC, hb4⟩ := bind_ok_inv hb3
                          cases hb4
                          exact ihC s2.1 mk ck out inEv r2 hC
                cases hb2
                exact hIF
          cases hcl2 : getCyc stT.1 cid with
          | none => rw [hcl2] at h; cases h
          | some cyc1 =>
            rw [hcl2] at h
            simp only at h
            obtain ⟨callees, _, h⟩ := bind_ok_inv h
            obtain ⟨p3, hMZ, h⟩ := bind_ok_inv h
            have hF2 : ProfFrame out.id stT.1
                (setCyc stT.1 cid { cyc1 with events := aset cyc1.events out.id stT.2 }) :=
              ProfFrame_setCyc out.id stT.1 cid cyc1 stT.2 hcl2
            have hF3 : ProfFrame out.id
                (setCyc stT.1 cid { cyc1 with events := aset cyc1.events out.id stT.2 }) p3 := by
              refine foldRes_rel (fun s t : Profile => ProfFrame out.id s t) _
                (fun s => ProfFrame_refl _ s) (fun a b c => ProfFrame_trans) ?_ _ _ _ hMZ
              intro s mk t hb
              cases hm : getFun s mk with
              | none => rw [hm] at hb; cases hb
              | some m =>
                rw [hm] at hb
                simp only at hb
                cases hb
                exact ProfFrame_setFun out.id s mk m _ hm (FunFrame_setEvent out.id m _)
            obtain ⟨p4, hEL, h⟩ := bind_ok_inv h
            have hF4 : ProfFrame out.id p3 p4 := by
              refine foldRes_rel (fun s t : Profile => ProfFrame out.id s t) _
                (fun s => ProfFrame_refl _ s) (fun a b c => ProfFrame_trans) ?_ _ _ _ hEL
              intro s entry t hb
              obtain ⟨ranks, _, hb⟩ := bind_ok_inv hb
              obtain ⟨crs, _, hb⟩ := bind_ok_inv hb
              obtain ⟨r2, hICF, hb⟩ := bind_ok_inv hb
              have hR := ihI s cid entry.1 entry.2 [] ranks crs.1 out inEv r2 hICF
              cases hmx : listMax (r2.2.1.map Prod.snd) with
              | none => rw [hmx] at hb; cases hb
              | some mx =>
                rw [hmx] at hb
                simp only at hb
                by_cases ha1 : |r2.2.2 - mx| ≤ mx / 10000000
                · rw [if_pos ha1] at hb
                  by_cases ha2 : |entry.2 * stT.2 - r2.2.2| ≤ entry.2 * stT.2 / 1000
                  · rw [if_pos ha2] at hb
                    cases hb
                    exact hR
                  · rw [if_neg ha2] at hb; cases hb
                · rw [if_neg ha1] at hb; cases hb
            cases hclF : getCyc p4 cid with
            | none => rw [hclF] at h; cases h
            | some cycF =>
              rw [hclF] at h
              simp only at h
              cases hvl : alookup cycF.events out.id with
              | none => rw [hvl] at h; cases h
              | some v =>
                rw [hvl] at h
                simp only at h
                cases h
                exact ProfFrame_trans hF1 (ProfFrame_trans hF2 (ProfFrame_trans hF3 hF4))
    have hFunStep : ∀ (p : Profile) (fk : Nat) (out inEv : Event) (r : Profile × ℚ),
        integrateFunction (n + 1) p fk out inEv = .ok r → ProfFrame out.id p r.1 := by
      intro p fk out inEv r h
      unfold integrateFunction at h
      cases hf : getFun p fk with
      | none => rw [hf] at h; cases h
      | some f =>
        rw [hf] at h
        simp only at h
        cases hcy : f.cycle with
        | some cid =>
          rw [hcy] at h
          exact ihY p cid out inEv r h
        | none =>
          rw [hcy] at h
          simp only at h
          cases hmo : alookup f.events out.id with
          | some v =>
            rw [hmo] at h
            simp only at h
            cases h
            exact ProfFrame_refl _ p
          | none =>
            rw [hmo] at h
            simp only at h
            cases hin : alookup f.events inEv.id with
            | none => rw [hin] at h; cases h
            | some t0 =>
              rw [hin] at h
              simp only at h
              obtain ⟨st, hfold, h⟩ := bind_ok_inv h
              have hFold : ProfFrame out.id p st.1 := by
                refine foldRes_rel (fun s t : Profile × ℚ => ProfFrame out.id s.1 t.1) _
                  (fun s => ProfFrame_refl _ s.1) (fun a b c => ProfFrame_trans) ?_ _ _ _ hfold
                intro s ck t hb
                obtain ⟨r2, hC, hb2⟩ := bind_ok_inv hb
                cases hb2
                exact ihC s.1 fk ck out inEv r2 hC
              cases hf2 : getFun st.1 fk with
              | none => rw [hf2] at h; cases h
              | some f2 =>
                rw [hf2] at h
                simp only at h
                cases h
                exact ProfFrame_trans hFold
                  (ProfFrame_setFun out.id st.1 fk f2 _ hf2 (FunFrame_setEvent out.id f2 _))
    have hCycStepFull : ∀ (p : Profile) (cid : Nat) (out inEv : Event) (r : Profile × ℚ),
        integrateCycle (n + 1) p cid out inEv = .ok r → ProfFrame out.id p r.1 := hCycStep
    exact ⟨hFunStep, hCallStep, hCycStepFull, hICFStep⟩

theorem profileAgg_congr {q p : Profile} (ev : Event) (h : q.functions = p.functions) :
    profileAgg ev q = profileAgg ev p := by
  unfold profileAgg getFun
  rw [h]

theorem sanity_ne {p : Profile} {out inEv : Event} {u : Unit}
    (hok : sanity p out inEv = .ok u) (hfn : p.functions ≠ []) :
    out.id ≠ inEv.id := by
  cases u
  unfold sanity at hok
  by_cases hpe : emem p.events out.id
  · rw [if_pos hpe] at hok; cases hok
  · rw [if_neg hpe] at hok
    cases hfl : p.functions with
    | nil => exact absurd hfl hfn
    | cons hd tl =>
      obtain ⟨k0, f0⟩ := hd
      have hmem : k0 ∈ p.functions.map Prod.fst := by
        rw [hfl]; exact List.mem_cons_self _ _
      have hfk := foldRes_unit_ok _ _ hok k0 hmem
      unfold sanityFun at hfk
      rw [show getFun p k0 = some f0 from by
        unfold getFun; rw [hfl, alookup_cons, if_pos rfl]] at hfk
      simp only at hfk
      by_cases h1 : emem f0.events out.id
      · rw [if_pos h1] at hfk; cases hfk
      · rw [if_neg h1] at hfk
        by_cases h2 : emem f0.events inEv.id
        · intro hEq
          rw [hEq] at h1
          exact h1 h2
        · rw [Bool.not_eq_true] at h2
          rw [h2] at hfk
          simp at hfk

theorem cycFold_funs (inEv : Event) :
    ∀ (cids : List Nat) (pc p1 : Profile),
      foldRes (fun pc _cid =>
          (profileAgg inEv pc).bind fun t =>
            .ok { pc with events := aset pc.events inEv.id t })
        pc cids = .ok p1 →
      p1.functions = pc.functions := by
  intro cids pc p1 h
  refine foldRes_rel (fun a b : Profile => b.functions = a.functions) _
    (fun a => rfl) (fun a b c h1 h2 => h2.trans h1) ?_ _ _ _ h
  intro s cid t hb
  obtain ⟨tv, _, hb2⟩ := bind_ok_inv hb
  cases hb2
  rfl

/-- Along the main integration loop, the running total follows exactly the
pure aggregation fold over the functions of the starting profile: each
step reads event values the recursion has not touched. -/
theorem mainFold_agg (fuel : Nat) (out inEv : Event) (p1 : Profile)
    (hne : out.id ≠ inEv.id) :
    ∀ (ks : List Nat) (pc : Profile) (acc : ℚ) (st : Profile × ℚ),
      ProfFrame out.id p1 pc →
      foldRes (fun (s : Profile × ℚ) fk =>
          match getFun s.1 fk with
          | none => .abort
          | some f =>
            match alookup f.events inEv.id with
            | none => .abort
            | some v =>
              (inEv.agg s.2 v).bind fun t =>
              (integrateFunction fuel s.1 fk out inEv).bind fun r => .ok (r.1, t))
        (pc, acc) ks = .ok st →
      foldRes (fun t fk =>
          match getFun p1 fk with
          | none => .abort
          | some f =>
            match alookup f.events inEv.id with
            | none => .abort
            | some v => inEv.agg t v)
        acc ks = .ok st.2 ∧ ProfFrame out.id p1 st.1 := by
  intro ks
  induction ks with
  | nil =>
    intro pc acc st hpf h
    simp only [foldRes_nil] at h
    cases h
    exact ⟨rfl, hpf⟩
  | cons k ks ih =>
    intro pc acc st hpf h
    simp only [foldRes_cons] at h
    obtain ⟨s1, hstep, hrest⟩ := bind_ok_inv h
    cases hf : getFun pc k with
    | none => rw [hf] at hstep; cases hstep
    | some f =>
      rw [hf] at hstep
      simp only at hstep
      have hfrel := hpf.2.2.2.1
      have hrel := hfrel k
      rw [show alookup pc.functions k = some f from hf] at hrel
      obtain ⟨f0, hf0, hFF⟩ := optRel_some_right hrel
      have hev : alookup f.events inEv.id = alookup f0.events inEv.id :=
        hFF.2.2.2.2.2.2.2.2.1 inEv.id (fun hEq => hne hEq.symm)
      cases hv : alookup f.events inEv.id with
      | none => rw [hv] at hstep; cases hstep
      | some v =>
        rw [hv] at hstep
        simp only at hstep
        obtain ⟨t, hagg, h2⟩ := bind_ok_inv hstep
        obtain ⟨r, hint, h3⟩ := bind_ok_inv h2
        cases h3
        have hpf2 : ProfFrame out.id p1 r.1 := by
          exact ProfFrame_trans hpf ((integrate_frame fuel).1 pc k out inEv r hint)
        obtain ⟨hfold, hfin⟩ := ih r.1 t st hpf2 hrest
        refine ⟨?_, hfin⟩
        have hv0 : alookup f0.events inEv.id = some v := hev ▸ hv
        simp only [foldRes_cons, getFun, hf0, hv0, hagg, bind_ok]
        exact hfold

/-- Claim C1: whenever integrate completes, the resulting profile's value
for the inclusive out event equals the aggregate of the exclusive in
event over all functions of the profile. -/
theorem claim1 (fuel : Nat) (p p2 : Profile) (out inEv : Event)
    (h : integrate fuel p out inEv = .ok p2) :
    ∃ t, profileAgg inEv p = .ok t ∧ alookup p2.events out.id = some t := by
  unfold integrate at h
  obtain ⟨u, hsan, h⟩ := bind_ok_inv h
  obtain ⟨p1, hcyc, h⟩ := bind_ok_inv h
  simp only at h
  obtain ⟨st, hmain, h⟩ := bind_ok_inv h
  cases h
  have hfuns : p1.functions = p.functions := cycFold_funs inEv _ p p1 hcyc
  refine ⟨st.2, ?_, ?_⟩
  · by_cases hfn : p.functions = []
    · rw [hfuns, hfn] at hmain
      simp only [List.map_nil, foldRes_nil] at hmain
      cases hmain
      unfold profileAgg
      rw [hfn]
      rfl
    · have hne := sanity_ne hsan hfn
      have hres := mainFold_agg fuel out inEv p1 hne (p1.functions.map Prod.fst)
        p1 inEv.null st (ProfFrame_refl out.id p1) hmain
      have hagg1 : profileAgg inEv p1 = .ok st.2 := hres.1
      rw [profileAgg_congr inEv hfuns] at hagg1
      exact hagg1
  · show alookup (aset st.1.events out.id st.2) out.id = some st.2
    rw [alookup_aset]
    simp

/-- Each pass of the cycle-aggregation loop writes the same aggregate of
the in event (the functions never change), so after at least one pass the
profile's in event entry holds that aggregate. -/
theorem cycFold_writes (inEv : Event) (p : Profile) :
    ∀ (cids : List Nat) (cid : Nat) (pc p1 : Profile),
      pc.functions = p.functions →
      foldRes (fun pc _cid =>
          (profileAgg inEv pc).bind fun t =>
            .ok { pc with events := aset pc.events inEv.id t })
        pc (cid :: cids) = .ok p1 →
      ∃ t, profileAgg inEv p = .ok t ∧ alookup p1.events inEv.id = some t := by
  intro cids
  induction cids with
  | nil =>
    intro cid pc p1 hfeq h
    simp only [foldRes_cons, foldRes_nil] at h
    obtain ⟨s, hb, h2⟩ := bind_ok_inv h
    cases h2
    obtain ⟨t, hagg, hb2⟩ := bind_ok_inv hb
    cases hb2
    refine ⟨t, ?_, ?_⟩
    · rw [← profileAgg_congr inEv hfeq]
      exact hagg
    · show alookup (aset pc.events inEv.id t) inEv.id = some t
      rw [alookup_aset]
      simp
  | cons cid2 cids2 ih =>
    intro cid pc p1 hfeq h
    rw [foldRes_cons] at h
    obtain ⟨s, hb, h2⟩ := bind_ok_inv h
    obtain ⟨t, hagg, hb2⟩ := bind_ok_inv hb
    cases hb2
    exact ih cid2 { pc with events := aset pc.events inEv.id t } p1 hfeq h2

/-- Claim C10: with a non-empty cycle list, integrate also writes the
profile's in event entry with the aggregate of the in event over all
functions, and functions (with their calls) keep every event other than
the out event and all other fields. -/
theorem claim10 (fuel : Nat) (p p2 : Profile) (out inEv : Event)
    (hcyc : p.cycles ≠ [])
    (h : integrate fuel p out inEv = .ok p2) :
    (∃ t, profileAgg inEv p = .ok t ∧ alookup p2.events inEv.id = some t) ∧
    ∀ fk, OptRel (FunFrame out.id) (alookup p.functions fk) (alookup p2.functions fk) := by
  unfold integrate at h
  obtain ⟨u, hsan, h⟩ := bind_ok_inv h
  obtain ⟨p1, hcycf, h⟩ := bind_ok_inv h
  simp only at h
  obtain ⟨st, hmain, h⟩ := bind_ok_inv h
  cases h
  have hfuns : p1.functions = p.functions := cycFold_funs inEv _ p p1 hcycf
  cases hcl : p.cycles with
  | nil => exact absurd hcl hcyc
  | cons c0 rest =>
    rw [hcl] at hcycf
    obtain ⟨t, haggp, hp1e⟩ := cycFold_writes inEv p rest c0 p p1 rfl hcycf
    by_cases hfn : p.functions = []
    · rw [hfuns, hfn] at hmain
      simp only [List.map_nil, foldRes_nil] at hmain
      cases hmain
      have hnull : profileAgg inEv p = .ok inEv.null := by
        unfold profileAgg
        rw [hfn]
        rfl
      rw [hnull] at haggp
      cases haggp
      constructor
      · refine ⟨inEv.null, hnull, ?_⟩
        show alookup (aset p1.events out.id inEv.null) inEv.id = some inEv.null
        rw [alookup_aset]
        by_cases hq : out.id = inEv.id
        · rw [if_pos hq]
        · rw [if_neg hq]
          exact hp1e
      · intro fk
        show OptRel (FunFrame out.id) (alookup p.functions fk) (alookup p1.functions fk)
        rw [hfuns]
        cases alookup p.functions fk with
        | none => trivial
        | some f => exact FunFrame_refl out.id f
    · have hne := sanity_ne hsan hfn
      have hres := mainFold_agg fuel out inEv p1 hne (p1.functions.map Prod.fst)
        p1 inEv.null st (ProfFrame_refl out.id p1) hmain
      have hpf := hres.2
      constructor
      · refine ⟨t, haggp, ?_⟩
        show alookup (aset st.1.events out.id st.2) inEv.id = some t
        rw [alookup_aset, if_neg hne, hpf.1]
        exact hp1e
      · intro fk
        show OptRel (FunFrame out.id) (alookup p.functions fk) (alookup st.1.functions fk)
        rw [← hfuns]
        exact hpf.2.2.2.1 fk

/-- Witness for C10: on a concrete two-function cycle, integrate writes
the profile's in event with the functions' aggregate and leaves every
non-out event of the functions and calls unchanged. -/
theorem claim10_witness :
    (∃ t, profileAgg TIME pCycC10 = .ok t ∧
      alookup pCycC10res.events TIME.id = some t) ∧
    ∀ fk, OptRel (FunFrame TOTAL_TIME.id)
      (alookup pCycC10.functions fk) (alookup pCycC10res.functions fk) :=
  claim10 19 pCycC10 pCycC10res TOTAL_TIME TIME
    (by decide) (by with_unfolding_all rfl)

/-- Witness for C1: integrate completes on a concrete profile and its
conclusion holds there. -/
theorem claim1_witness :
    ∃ t, profileAgg TIME pIntC1 = .ok t ∧
      alookup pIntC1res.events TOTAL_TIME.id = some t :=
  claim1 1 pIntC1 pIntC1res TOTAL_TIME TIME (by with_unfolding_all rfl)

/-! ### Removing self calls: list and structural lemmas -/

theorem alookup_filter_keep {α : Type} (P : Nat × α → Bool) (k : Nat) :
    ∀ (l : List (Nat × α)), (∀ v, (k, v) ∈ l → P (k, v) = true) →
      alookup (l.filter P) k = alookup l k := by
  intro l
  induction l with
  | nil => intro _; rfl
  | cons kv rest ih =>
    intro h
    obtain ⟨k1, v1⟩ := kv
    rw [List.filter_cons]
    by_cases hP : P (k1, v1) = true
    · rw [if_pos hP, alookup_cons, alookup_cons]
      by_cases hk : k1 = k
      · rw [if_pos hk, if_pos hk]
      · rw [if_neg hk, if_neg hk]
        exact ih (fun v hv => h v (List.mem_cons_of_mem _ hv))
    · rw [if_neg hP]
      have hk : k1 ≠ k := by
        intro he
        subst he
        exact hP (h v1 (List.mem_cons_self _ _))
      rw [alookup_cons, if_neg hk]
      exact ih (fun v hv => h v (List.mem_cons_of_mem _ hv))

theorem aset_filter_keep {α : Type} (P : Nat × α → Bool) (k : Nat) (c : α)
    (hc : P (k, c) = true) :
    ∀ (l : List (Nat × α)), (∀ v, (k, v) ∈ l → P (k, v) = true) →
      (aset l k c).filter P = aset (l.filter P) k c := by
  intro l
  induction l with
  | nil =>
    intro _
    simp [aset, List.filter_cons, hc]
  | cons kv rest ih =>
    intro h
    obtain ⟨k1, v1⟩ := kv
    simp only [aset]
    by_cases hk : k1 = k
    · subst hk
      rw [if_pos rfl, List.filter_cons, List.filter_cons,
        h v1 (List.mem_cons_self _ _), if_pos hc]
      simp only [if_true]
      simp [aset]
    · rw [if_neg hk, List.filter_cons, List.filter_cons]
      by_cases hP : P (k1, v1) = true
      · rw [if_pos hP, if_pos hP]
        simp only [aset, if_neg hk]
        rw [ih (fun v hv => h v (List.mem_cons_of_mem _ hv))]
      · rw [if_neg hP, if_neg hP]
        exact ih (fun v hv => h v (List.mem_cons_of_mem _ hv))

/-- With every call registered under its callee id, the entry filter of
dropSelfCalls is a key filter. -/
theorem keys_filter_callid (i : Nat) :
    ∀ (l : List (Nat × Call)), (∀ kc ∈ l, kc.2.callee_id = kc.1) →
      (l.filter fun kc => decide (kc.2.callee_id ≠ i)).map Prod.fst =
        (l.map Prod.fst).filter fun k => decide (k ≠ i) := by
  intro l
  induction l with
  | nil => intro _; rfl
  | cons kc rest ih =>
    intro h
    obtain ⟨k1, c1⟩ := kc
    have hid : c1.callee_id = k1 := h (k1, c1) (List.mem_cons_self _ _)
    rw [List.filter_cons, List.map_cons, List.filter_cons]
    simp only [hid]
    by_cases hk : k1 = i
    · subst hk
      rw [if_neg (by simp), if_neg (by simp)]
      exact ih (fun kc hm => h kc (List.mem_cons_of_mem _ hm))
    · rw [if_pos (by simp [hk]), if_pos (by simp [hk]), List.map_cons,
        ih (fun kc hm => h kc (List.mem_cons_of_mem _ hm))]

theorem aset_map_val {α β : Type} (g : α → β) (k : Nat) (v : α) :
    ∀ (l : List (Nat × α)),
      (aset l k v).map (fun kc => (kc.1, g kc.2)) =
        aset (l.map fun kc => (kc.1, g kc.2)) k (g v) := by
  intro l
  induction l with
  | nil => rfl
  | cons kc rest ih =>
    obtain ⟨k1, v1⟩ := kc
    simp only [aset, List.map_cons]
    by_cases hk : k1 = k
    · rw [if_pos hk, if_pos hk]
      rfl
    · rw [if_neg hk, List.map_cons, if_neg hk, ih]

theorem foldRes_congr {σ α : Type} (f g : σ → α → Res σ) :
    ∀ (l : List α), (∀ s a, a ∈ l → f s a = g s a) →
      ∀ s, foldRes f s l = foldRes g s l := by
  intro l
  induction l with
  | nil => intro _ s; rfl
  | cons a l ih =>
    intro h s
    simp only [foldRes_cons, h s a (List.mem_cons_self _ _)]
    cases g s a with
    | ok t => simp only [bind_ok]; exact ih (fun s2 b hb => h s2 b (List.mem_cons_of_mem _ hb)) t
    | abort => rfl
    | fuel => rfl

/-- Transport a completing fold to its image under a state map, along a
filtered key list: filtered-out keys must be identity steps and kept
keys must commute with the map. -/
theorem foldRes_map_filter {σ τ α : Type} (g : σ → τ) (Inv : σ → Prop)
    (Key : α → Prop) (bodyP : σ → α → Res σ) (bodyQ : τ → α → Res τ)
    (sel : α → Bool)
    (hskip : ∀ s k, Inv s → Key k → sel k = false → bodyP s k = .ok s)
    (hstep : ∀ s k u, Inv s → Key k → sel k = true → bodyP s k = .ok u →
      bodyQ (g s) k = .ok (g u) ∧ Inv u) :
    ∀ (ks : List α), (∀ k ∈ ks, Key k) →
      ∀ s u, Inv s → foldRes bodyP s ks = .ok u →
        foldRes bodyQ (g s) (ks.filter sel) = .ok (g u) ∧ Inv u := by
  intro ks
  induction ks with
  | nil =>
    intro _ s u hs h
    simp only [foldRes_nil] at h
    cases h
    exact ⟨rfl, hs⟩
  | cons k ks ih =>
    intro hkey s u hs h
    simp only [foldRes_cons] at h
    obtain ⟨s1, hb, hrest⟩ := bind_ok_inv h
    have hkk : Key k := hkey k (List.mem_cons_self _ _)
    have hkey2 : ∀ k2 ∈ ks, Key k2 := fun k2 hm => hkey k2 (List.mem_cons_of_mem _ hm)
    rw [List.filter_cons]
    cases hsel : sel k with
    | false =>
      rw [hskip s k hs hkk hsel] at hb
      cases hb
      simp only [Bool.false_eq_true, if_false]
      exact ih hkey2 s u hs hrest
    | true =>
      obtain ⟨hq, hinv⟩ := hstep s k s1 hs hkk hsel hb
      simp only [if_true]
      rw [foldRes_cons, hq, bind_ok]
      exact ih hkey2 s1 u hinv hrest

/-- The unfiltered version of foldRes_map_filter. -/
theorem foldRes_map_all {σ τ α : Type} (g : σ → τ) (Inv : σ → Prop)
    (Key : α → Prop) (bodyP : σ → α → Res σ) (bodyQ : τ → α → Res τ)
    (hstep : ∀ s k u, Inv s → Key k → bodyP s k = .ok u →
      bodyQ (g s) k = .ok (g u) ∧ Inv u) :
    ∀ (ks : List α), (∀ k ∈ ks, Key k) →
      ∀ s u, Inv s → foldRes bodyP s ks = .ok u →
        foldRes bodyQ (g s) ks = .ok (g u) ∧ Inv u := by
  intro ks
  induction ks with
  | nil =>
    intro _ s u hs h
    simp only [foldRes_nil] at h
    cases h
    exact ⟨rfl, hs⟩
  | cons k ks ih =>
    intro hkey s u hs h
    simp only [foldRes_cons] at h
    obtain ⟨s1, hb, hrest⟩ := bind_ok_inv h
    obtain ⟨hq, hinv⟩ := hstep s k s1 hs (hkey k (List.mem_cons_self _ _)) hb
    rw [foldRes_cons, hq, bind_ok]
    exact ih (fun k2 hm => hkey k2 (List.mem_cons_of_mem _ hm)) s1 u hinv hrest

theorem getFun_drop (p : Profile) (k : Nat) :
    getFun (dropSelf p) k = (getFun p k).map dropSelfCalls := by
  unfold getFun dropSelf
  exact alookup_map_val dropSelfCalls p.functions k

theorem funKeys_drop (p : Profile) :
    (dropSelf p).functions.map Prod.fst = p.functions.map Prod.fst :=
  keys_map_val dropSelfCalls p.functions

theorem nonSelfKeys_drop (f : Function) :
    nonSelfKeys (dropSelfCalls f) = nonSelfKeys f := by
  unfold nonSelfKeys dropSelfCalls
  simp only [List.filter_filter]
  congr 1
  apply List.filter_congr
  intro kc _
  simp

/-- Looking up a non-self call key is unaffected by dropping self calls
(all entries under such a key are non-self when calls are registered
under their callee ids). -/
theorem calls_drop_alookup {f : Function} {ck : Nat}
    (hids : ∀ kc ∈ f.calls, kc.2.callee_id = kc.1) (hck : ck ≠ f.id) :
    alookup (dropSelfCalls f).calls ck = alookup f.calls ck := by
  unfold dropSelfCalls
  refine alookup_filter_keep _ ck f.calls ?_
  intro v hv
  have := hids (ck, v) hv
  simp only at this
  simp [this, hck]

theorem drop_setFun (p : Profile) (k : Nat) (f : Function) :
    dropSelf (setFun p k f) = setFun (dropSelf p) k (dropSelfCalls f) := by
  unfold dropSelf setFun
  simp only
  rw [aset_map_val]

theorem dropSelfCalls_events (f : Function) (e : EMap) :
    dropSelfCalls { f with events := e } = { dropSelfCalls f with events := e } := rfl

theorem dropSelfCalls_aset {f : Function} {ck : Nat} {c : Call}
    (hids : ∀ kc ∈ f.calls, kc.2.callee_id = kc.1) (hck : ck ≠ f.id)
    (hc : c.callee_id = ck) :
    dropSelfCalls { f with calls := aset f.calls ck c } =
      { dropSelfCalls f with calls := aset (dropSelfCalls f).calls ck c } := by
  unfold dropSelfCalls
  simp only
  rw [aset_filter_keep]
  · simp [hc, hck]
  · intro v hv
    have := hids (ck, v) hv
    simp only at this
    simp [this, hck]

theorem selfwf_funid {p : Profile} (hwf : SelfWF p) {fk : Nat} {f : Function}
    (hf : getFun p fk = some f) : f.id = fk :=
  hwf.1.2.2.1 (fk, f) (alookup_mem hf)

theorem selfwf_callids {p : Profile} (hwf : SelfWF p) {fk : Nat} {f : Function}
    (hf : getFun p fk = some f) : ∀ kc ∈ f.calls, kc.2.callee_id = kc.1 :=
  fun kc hm => hwf.1.2.2.2 (fk, f) (alookup_mem hf) kc hm

theorem selfwf_member {p : Profile} (hwf : SelfWF p) {cid : Nat} {cyc : Cycle}
    (hc : getCyc p cid = some cyc) {mk : Nat} (hm : mk ∈ cyc.functions) :
    ∃ f, alookup p.functions mk = some f ∧ f.cycle = some cid :=
  hwf.2.2 (cid, cyc) (alookup_mem hc) mk hm

/-- The integration frame preserves all dict and cycle invariants. -/
theorem SelfWF_frame {e : Nat} {p q : Profile} (hwf : SelfWF p)
    (hfr : ProfFrame e p q) : SelfWF q := by
  obtain ⟨⟨hfn, hcn, hfi, hci⟩, hcyn, hcy⟩ := hwf
  obtain ⟨hev, hcye, hkeys, hfrel, hskeys, hsrel⟩ := hfr
  have hqn : (q.functions.map Prod.fst).Nodup := by
    unfold FunKeysNodup at hfn
    rw [hkeys]; exact hfn
  have hqsn : (q.cycleStore.map Prod.fst).Nodup := by
    unfold CycKeysNodup at hcyn
    rw [hskeys]; exact hcyn
  have hfun : ∀ kf ∈ q.functions, ∃ f0, alookup p.functions kf.1 = some f0 ∧
      FunFrame e f0 kf.2 := by
    intro kf hm
    have hl : alookup q.functions kf.1 = some kf.2 := alookup_nodup_mem hm hqn
    have hrel := hfrel kf.1
    rw [hl] at hrel
    exact optRel_some_right hrel
  refine ⟨⟨hqn, ?_, ?_, ?_⟩, hqsn, ?_⟩
  · intro kf hm
    obtain ⟨f0, hf0, hFF⟩ := hfun kf hm
    have hkeq : kf.2.calls.map Prod.fst = f0.calls.map Prod.fst :=
      hFF.2.2.2.2.2.2.2.1
    rw [hkeq]
    exact hcn (kf.1, f0) (alookup_mem hf0)
  · intro kf hm
    obtain ⟨f0, hf0, hFF⟩ := hfun kf hm
    rw [hFF.1]
    exact hfi (kf.1, f0) (alookup_mem hf0)
  · intro kf hm kc hmc
    obtain ⟨f0, hf0, hFF⟩ := hfun kf hm
    have hknd : (kf.2.calls.map Prod.fst).Nodup := by
      rw [hFF.2.2.2.2.2.2.2.1]
      exact hcn (kf.1, f0) (alookup_mem hf0)
    have hlc : alookup kf.2.calls kc.1 = some kc.2 := alookup_nodup_mem hmc hknd
    have hrelc := hFF.2.2.2.2.2.2.2.2.2 kc.1
    rw [hlc] at hrelc
    obtain ⟨c0, hc0, hCF⟩ := optRel_some_right hrelc
    rw [hCF.1]
    exact hci (kf.1, f0) (alookup_mem hf0) (kc.1, c0) (alookup_mem hc0)
  · intro kc hm m hmem
    have hq2 : alookup q.cycleStore kc.1 = some kc.2 := alookup_nodup_mem hm hqsn
    have hrel := hsrel kc.1
    rw [hq2] at hrel
    obtain ⟨c0, hc0, hCY⟩ := optRel_some_right hrel
    have hm0 : m ∈ c0.functions := by rw [← hCY.1]; exact hmem
    obtain ⟨f, hf, hfc⟩ := hcy (kc.1, c0) (alookup_mem hc0) m hm0
    have hrelf := hfrel m
    rw [hf] at hrelf
    obtain ⟨g, hg, hFF⟩ := optRel_some_left hrelf
    exact ⟨g, hg, by rw [hFF.2.2.2.2.2.2.1, hfc]⟩

theorem bind_congr2 {α β : Type} {x y : Res α} {f g : α → Res β}
    (hx : x = y) (h : ∀ a, f a = g a) : x.bind f = y.bind g := by
  subst hx
  cases x with
  | ok a => exact h a
  | abort => rfl
  | fuel => rfl

/-- Equality of a fold over all keys with one over the kept keys, when
the body is an identity step on every dropped key. -/
theorem foldRes_filter_eq {σ α : Type} (bodyP bodyQ : σ → α → Res σ)
    (sel : α → Bool) (Key : α → Prop)
    (hskip : ∀ s k, Key k → sel k = false → bodyP s k = .ok s)
    (hstep : ∀ s k, Key k → sel k = true → bodyQ s k = bodyP s k) :
    ∀ (ks : List α), (∀ k ∈ ks, Key k) →
      ∀ s, foldRes bodyQ s (ks.filter sel) = foldRes bodyP s ks := by
  intro ks
  induction ks with
  | nil => intro _ s; rfl
  | cons k ks ih =>
    intro hkey s
    have hkk : Key k := hkey k (List.mem_cons_self _ _)
    have hkey2 : ∀ k2 ∈ ks, Key k2 := fun k2 hm => hkey k2 (List.mem_cons_of_mem _ hm)
    rw [List.filter_cons]
    cases hsel : sel k with
    | false =>
      simp only [Bool.false_eq_true, if_false]
      rw [foldRes_cons, hskip s k hkk hsel, bind_ok]
      exact ih hkey2 s
    | true =>
      simp only [if_true]
      rw [foldRes_cons, foldRes_cons, hstep s k hkk hsel]
      exact bind_congr2 rfl (fun t => ih hkey2 t)

theorem getCyc_drop (p : Profile) (k : Nat) : getCyc (dropSelf p) k = getCyc p k := rfl

theorem drop_setCyc (p : Profile) (cid : Nat) (c : Cycle) :
    dropSelf (setCyc p cid c) = setCyc (dropSelf p) cid c := rfl

theorem dropSelfCalls_cycle (f : Function) : (dropSelfCalls f).cycle = f.cycle := rfl

theorem dropSelfCalls_id (f : Function) : (dropSelfCalls f).id = f.id := rfl

theorem dropSelfCalls_evs (f : Function) : (dropSelfCalls f).events = f.events := rfl

theorem getFun_drop_some {p : Profile} {k : Nat} {f : Function}
    (h : getFun p k = some f) : getFun (dropSelf p) k = some (dropSelfCalls f) := by
  rw [getFun_drop, h]
  rfl

theorem getFun_drop_none {p : Profile} {k : Nat} (h : getFun p k = none) :
    getFun (dropSelf p) k = none := by
  rw [getFun_drop, h]
  rfl

theorem nonSelfKeys_ne {f : Function} (hids : ∀ kc ∈ f.calls, kc.2.callee_id = kc.1)
    {ck : Nat} (hm : ck ∈ nonSelfKeys f) : ck ≠ f.id := by
  unfold nonSelfKeys at hm
  obtain ⟨kc, hmemf, hfst⟩ := List.mem_map.mp hm
  obtain ⟨hmem2, hpred⟩ := List.mem_filter.mp hmemf
  have hne := of_decide_eq_true hpred
  rw [← hfst, ← hids kc hmem2]
  exact hne

theorem rankCall_drop (p : Profile) (cid mk : Nat) (st : RankSt) (c : Call) :
    rankCall (dropSelf p) cid mk st c = rankCall p cid mk st c := by
  unfold rankCall
  rw [getFun_drop]
  cases getFun p c.callee_id with
  | none => rfl
  | some callee => rfl

theorem rankLoop_drop {p : Profile} (hwf : SelfWF p) :
    ∀ (n : Nat) (cid : Nat) (visited : List Nat) (st : RankSt),
      rankLoop n (dropSelf p) cid visited st = rankLoop n p cid visited st := by
  intro n
  induction n with
  | zero => intro cid visited st; rfl
  | succ n ih =>
    intro cid visited st
    unfold rankLoop
    cases heappop st.2.1 with
    | none => rfl
    | some pr =>
      obtain ⟨item, q1⟩ := pr
      simp only
      by_cases hv : item.2.2 ∈ visited
      · rw [if_pos hv, if_pos hv]
        exact ih cid visited (st.1, q1, st.2.2)
      · rw [if_neg hv, if_neg hv]
        cases hgf : getFun p item.2.2 with
        | none => rw [getFun_drop_none hgf]
        | some member =>
          rw [getFun_drop_some hgf]
          simp only
          rw [nonSelfKeys_drop]
          refine bind_congr2 (foldRes_congr _ _ _ ?_ _)
            (fun st3 => ih cid (item.2.2 :: visited) st3)
          intro s2 ck hck
          have hids := selfwf_callids hwf hgf
          rw [calls_drop_alookup hids (nonSelfKeys_ne hids hck)]
          cases alookup member.calls ck with
          | none => rfl
          | some c => exact rankCall_drop p cid item.2.2 s2 c

theorem rankCycle_drop {p : Profile} (hwf : SelfWF p) (n : Nat) (cid ek : Nat) :
    rankCycle n (dropSelf p) cid ek = rankCycle n p cid ek := by
  unfold rankCycle
  cases hgf : getFun p ek with
  | none => rw [getFun_drop_none hgf]
  | some entry =>
    rw [getFun_drop_some hgf]
    simp only
    rw [nonSelfKeys_drop]
    refine bind_congr2 (foldRes_congr _ _ _ ?_ _)
      (fun st => rankLoop_drop hwf n cid [ek] st)
    intro s ck hck
    have hids := selfwf_callids hwf hgf
    rw [calls_drop_alookup hids (nonSelfKeys_ne hids hck)]
    cases alookup entry.calls ck with
    | none => rfl
    | some c =>
      simp only
      rw [getFun_drop]
      cases getFun p c.callee_id with
      | none => rfl
      | some callee => rfl

theorem callRatiosCycle_drop {p : Profile} (hwf : SelfWF p) :
    ∀ (n : Nat) (cid fk : Nat) (ranks : List (Nat × Nat))
      (st : List (Nat × ℚ) × List Nat),
      callRatiosCycle n (dropSelf p) cid fk ranks st =
        callRatiosCycle n p cid fk ranks st := by
  intro n
  induction n with
  | zero => intro cid fk ranks st; rfl
  | succ n ih =>
    intro cid fk ranks st
    unfold callRatiosCycle
    by_cases hv : fk ∈ st.2
    · rw [if_pos hv, if_pos hv]
    · rw [if_neg hv, if_neg hv]
      cases hgf : getFun p fk with
      | none => rw [getFun_drop_none hgf]
      | some f =>
        rw [getFun_drop_some hgf]
        simp only
        rw [nonSelfKeys_drop]
        refine foldRes_congr _ _ _ ?_ _
        intro s ck hck
        have hids := selfwf_callids hwf hgf
        rw [calls_drop_alookup hids (nonSelfKeys_ne hids hck)]
        cases alookup f.calls ck with
        | none => rfl
        | some c =>
          simp only
          cases hgc : getFun p c.callee_id with
          | none => rw [getFun_drop_none hgc]
          | some callee =>
            rw [getFun_drop_some hgc]
            simp only [dropSelfCalls_cycle]
            by_cases hcy : callee.cycle = some cid
            · rw [if_pos hcy, if_pos hcy]
              cases alookup ranks c.callee_id with
              | none => rfl
              | some rc =>
                cases alookup ranks fk with
                | none => rfl
                | some rf =>
                  simp only
                  by_cases hlt : rf < rc
                  · rw [if_pos hlt, if_pos hlt]
                    cases c.ratio with
                    | none => rfl
                    | some r => exact ih cid c.callee_id ranks _
                  · rw [if_neg hlt, if_neg hlt]
            · rw [if_neg hcy, if_neg hcy]

theorem frame_fun_some {e : Nat} {p q : Profile} (hfr : ProfFrame e p q) {k : Nat}
    {f : Function} (hf : alookup p.functions k = some f) :
    ∃ g, alookup q.functions k = some g ∧ FunFrame e f g := by
  have hrel := hfr.2.2.2.1 k
  rw [hf] at hrel
  exact optRel_some_left hrel

theorem drop_write_call {p : Profile} {fk ck : Nat} {f2 : Function} {c2 : Call}
    (hwf : SelfWF p) (hf2 : getFun p fk = some f2) (hck : ck ≠ fk)
    (hc2 : alookup f2.calls ck = some c2) (e : Nat) (v : ℚ) :
    setFun (dropSelf p) fk
        { dropSelfCalls f2 with calls := aset (dropSelfCalls f2).calls ck { c2 with events := aset c2.events e v } } =
      dropSelf (setFun p fk { f2 with calls := aset f2.calls ck { c2 with events := aset c2.events e v } }) := by
  have hcid : c2.callee_id = ck := selfwf_callids hwf hf2 (ck, c2) (alookup_mem hc2)
  rw [drop_setFun]
  refine congrArg (setFun (dropSelf p) fk) ?_
  exact (@dropSelfCalls_aset f2 ck { c2 with events := aset c2.events e v } (selfwf_callids hwf hf2) (by rw [selfwf_funid hwf hf2]; exact hck) hcid).symm

theorem foldRes_map_bind {σ τ β α : Type} (g : σ → τ) (Inv : σ → Prop)
    (Key : α → Prop) (bodyP : σ → α → Res σ) (bodyQ : τ → α → Res τ)
    (contQ : τ → Res β) (R : Res β) (ks : List α) (s u : σ)
    (hks : ∀ k ∈ ks, Key k) (hInv : Inv s)
    (hfold : foldRes bodyP s ks = .ok u)
    (hstep : ∀ s k u, Inv s → Key k → bodyP s k = .ok u →
      bodyQ (g s) k = .ok (g u) ∧ Inv u)
    (hcont : Inv u → contQ (g u) = R) :
    (foldRes bodyQ (g s) ks).bind contQ = R := by
  obtain ⟨hq, hinv⟩ := foldRes_map_all g Inv Key bodyP bodyQ hstep ks hks s u hInv hfold
  rw [hq, bind_ok]
  exact hcont hinv

theorem foldRes_map_filter_bind {σ τ β α : Type} (g : σ → τ) (Inv : σ → Prop)
    (Key : α → Prop) (bodyP : σ → α → Res σ) (bodyQ : τ → α → Res τ)
    (sel : α → Bool) (contQ : τ → Res β) (R : Res β) (Out : Prop)
    (ks : List α) (s u : σ)
    (hks : ∀ k ∈ ks, Key k) (hInv : Inv s)
    (hfold : foldRes bodyP s ks = .ok u)
    (hskip : ∀ s k, Inv s → Key k → sel k = false → bodyP s k = .ok s)
    (hstep : ∀ s k u, Inv s → Key k → sel k = true → bodyP s k = .ok u →
      bodyQ (g s) k = .ok (g u) ∧ Inv u)
    (hcont : Inv u → (contQ (g u) = R ∧ Out)) :
    ((foldRes bodyQ (g s) (ks.filter sel)).bind contQ = R) ∧ Out := by
  obtain ⟨hq, hinv⟩ := foldRes_map_filter g Inv Key bodyP bodyQ sel hskip hstep
    ks hks s u hInv hfold
  obtain ⟨h1, h2⟩ := hcont hinv
  refine ⟨?_, h2⟩
  rw [hq, bind_ok]
  exact h1

theorem foldRes_filter_eq_ok {σ α : Type} (bodyP bodyQ : σ → α → Res σ)
    (sel : α → Bool) (Key : α → Prop) (ks : List α) (s : σ) (u : Res σ)
    (hks : ∀ k ∈ ks, Key k)
    (hskip : ∀ s k, Key k → sel k = false → bodyP s k = .ok s)
    (hstep : ∀ s k, Key k → sel k = true → bodyQ s k = bodyP s k)
    (hb : foldRes bodyP s ks = u) :
    foldRes bodyQ s (ks.filter sel) = u := by
  rw [foldRes_filter_eq bodyP bodyQ sel Key hskip hstep ks hks s]
  exact hb

/-- Removing every self call commutes with the integration recursion:
the guards skip self calls, so they contribute nothing. -/
theorem integrate_drop :
    ∀ n : Nat,
      (∀ p fk out inEv r, SelfWF p →
        integrateFunction n p fk out inEv = .ok r →
        integrateFunction n (dropSelf p) fk out inEv = .ok (dropSelf r.1, r.2)) ∧
      (∀ p fk ck out inEv r, SelfWF p → ck ≠ fk →
        integrateCall n p fk ck out inEv = .ok r →
        integrateCall n (dropSelf p) fk ck out inEv = .ok (dropSelf r.1, r.2)) ∧
      (∀ p cid out inEv r, SelfWF p →
        integrateCycle n p cid out inEv = .ok r →
        integrateCycle n (dropSelf p) cid out inEv = .ok (dropSelf r.1, r.2)) ∧
      (∀ p cid fk pr pm ranks crs out inEv r, SelfWF p →
        integrateCycleFunction n p cid fk pr pm ranks crs out inEv = .ok r →
        integrateCycleFunction n (dropSelf p) cid fk pr pm ranks crs out inEv =
          .ok (dropSelf r.1, r.2)) := by
  intro n
  induction n with
  | zero =>
    refine ⟨?_, ?_, ?_, ?_⟩
    · intro p fk out inEv r _ h
      unfold integrateFunction at h
      cases h
    · intro p fk ck out inEv r _ _ h
      unfold integrateCall at h
      cases h
    · intro p cid out inEv r _ h
      unfold integrateCycle at h
      cases h
    · intro p cid fk pr pm ranks crs out inEv r _ h
      unfold integrateCycleFunction at h
      cases h
  | succ n ih =>
    obtain ⟨ihF, ihC, ihY, ihI⟩ := ih
    have hCall : ∀ p fk ck out inEv r, SelfWF p → ck ≠ fk →
        integrateCall (n + 1) p fk ck out inEv = .ok r →
        integrateCall (n + 1) (dropSelf p) fk ck out inEv = .ok (dropSelf r.1, r.2) := by
      intro p fk ck out inEv r hwf hck h
      unfold integrateCall at h ⊢
      cases hf : getFun p fk with
      | none => rw [hf] at h; cases h
      | some f =>
        rw [hf] at h
        simp only at h
        rw [getFun_drop_some hf]
        simp only
        have hfid := selfwf_funid hwf hf
        have hids := selfwf_callids hwf hf
        rw [calls_drop_alookup hids (by rw [hfid]; exact hck)]
        cases hc : alookup f.calls ck with
        | none => rw [hc] at h; cases h
        | some c =>
          rw [hc] at h
          simp only at h
          simp only
          by_cases hme : emem c.events out.id
          · rw [if_pos hme] at h; cases h
          · rw [if_neg hme] at h
            rw [if_neg hme]
            cases hr : c.ratio with
            | none => rw [hr] at h; cases h
            | some rv =>
              rw [hr] at h
              simp only at h
              simp only
              cases hcal : getFun p c.callee_id with
              | none => rw [hcal] at h; cases h
              | some callee =>
                rw [hcal] at h
                simp only at h
                rw [getFun_drop_some hcal]
                simp only
                obtain ⟨st, hrec, h⟩ := bind_ok_inv h
                have hfr := (integrate_frame n).1 p c.callee_id out inEv st hrec
                have hwf2 : SelfWF st.1 := SelfWF_frame hwf hfr
                rw [ihF p c.callee_id out inEv st hwf hrec, bind_ok]
                simp only
                cases hf2 : getFun st.1 fk with
                | none => rw [hf2] at h; cases h
                | some f2 =>
                  rw [hf2] at h
                  simp only at h
                  rw [getFun_drop_some hf2]
                  simp only
                  have hids2 := selfwf_callids hwf2 hf2
                  have hfid2 := selfwf_funid hwf2 hf2
                  rw [calls_drop_alookup hids2 (by rw [hfid2]; exact hck)]
                  cases hc2 : alookup f2.calls ck with
                  | none => rw [hc2] at h; cases h
                  | some c2 =>
                    rw [hc2] at h
                    simp only at h
                    simp only
                    cases h
                    rw [drop_write_call hwf2 hf2 hck hc2 out.id (rv * st.2)]
    have hICF : ∀ p cid fk pr pm ranks crs out inEv r, SelfWF p →
        integrateCycleFunction (n + 1) p cid fk pr pm ranks crs out inEv = .ok r →
        integrateCycleFunction (n + 1) (dropSelf p) cid fk pr pm ranks crs out inEv =
          .ok (dropSelf r.1, r.2) := by
      intro p cid fk pr pm ranks crs out inEv r hwf h
      unfold integrateCycleFunction at h ⊢
      cases hpm : alookup pm fk with
      | some v =>
        rw [hpm] at h
        simp only at h
        cases h
        rfl
      | none =>
        rw [hpm] at h
        simp only at h
        simp only
        cases hf : getFun p fk with
        | none => rw [hf] at h; cases h
        | some f =>
          rw [hf] at h
          simp only at h
          rw [getFun_drop_some hf]
          simp only [dropSelfCalls_evs]
          have hfid := selfwf_funid hwf hf
          have hids := selfwf_callids hwf hf
          cases hin : alookup f.events inEv.id with
          | none => rw [hin] at h; cases h
          | some fin =>
            rw [hin] at h
            simp only at h
            simp only
            rw [nonSelfKeys_drop]
            obtain ⟨st, hfold, h⟩ := bind_ok_inv h
            refine foldRes_map_bind
              (fun s : Profile × List (Nat × ℚ) × ℚ => (dropSelf s.1, s.2))
              (fun s => SelfWF s.1) (fun ck => ck ≠ fk) _ _ _ _
              (nonSelfKeys f) (p, pm, pr * fin) st ?_ hwf hfold ?_ ?_
            · intro ck hm
              have h2 := nonSelfKeys_ne hids hm
              rw [hfid] at h2
              exact h2
            · intro s ck u hwfs hckfk hb
              simp only at hb ⊢
              cases hf2 : getFun s.1 fk with
              | none => rw [hf2] at hb; cases hb
              | some f2 =>
                rw [hf2] at hb
                simp only at hb
                rw [getFun_drop_some hf2]
                simp only
                have hids2 := selfwf_callids hwfs hf2
                have hfid2 := selfwf_funid hwfs hf2
                rw [calls_drop_alookup hids2 (by rw [hfid2]; exact hckfk)]
                cases hc : alookup f2.calls ck with
                | none => rw [hc] at hb; cases hb
                | some c =>
                  rw [hc] at hb
                  simp only at hb
                  simp only
                  cases hcal : getFun s.1 c.callee_id with
                  | none => rw [hcal] at hb; cases hb
                  | some callee =>
                    rw [hcal] at hb
                    simp only at hb
                    rw [getFun_drop_some hcal]
                    simp only [dropSelfCalls_cycle]
                    by_cases hcy : callee.cycle ≠ some cid
                    · rw [if_pos hcy] at hb
                      rw [if_pos hcy]
                      cases hev : alookup c.events out.id with
                      | none => rw [hev] at hb; cases hb
                      | some cv =>
                        rw [hev] at hb
                        simp only at hb
                        cases hb
                        exact ⟨rfl, hwfs⟩
                    · rw [if_neg hcy] at hb
                      rw [if_neg hcy]
                      cases hrk : alookup ranks c.callee_id with
                      | none => rw [hrk] at hb; cases hb
                      | some rc =>
                        rw [hrk] at hb
                        cases hrk2 : alookup ranks fk with
                        | none => rw [hrk2] at hb; cases hb
                        | some rf =>
                          rw [hrk2] at hb
                          simp only at hb
                          simp only
                          by_cases hlt : rf < rc
                          · rw [if_pos hlt] at hb
                            rw [if_pos hlt]
                            obtain ⟨r2, hrec, hb2⟩ := bind_ok_inv hb
                            have hfr := (integrate_frame n).2.2.2 s.1 cid c.callee_id
                              pr s.2.1 ranks crs out inEv r2 hrec
                            have hwfr : SelfWF r2.1 := SelfWF_frame hwfs hfr
                            rw [ihI s.1 cid c.callee_id pr s.2.1 ranks crs out inEv
                              r2 hwfs hrec, bind_ok]
                            simp only
                            cases hcr : c.ratio with
                            | none => rw [hcr] at hb2; cases hb2
                            | some cr =>
                              rw [hcr] at hb2
                              simp only at hb2
                              cases hcrs : alookup crs c.callee_id with
                              | none => rw [hcrs] at hb2; cases hb2
                              | some totv =>
                                rw [hcrs] at hb2
                                simp only at hb2
                                simp only
                                cases hf3 : getFun r2.1 fk with
                                | none => rw [hf3] at hb2; cases hb2
                                | some f3 =>
                                  rw [hf3] at hb2
                                  simp only at hb2
                                  rw [getFun_drop_some hf3]
                                  simp only
                                  have hids3 := selfwf_callids hwfr hf3
                                  have hfid3 := selfwf_funid hwfr hf3
                                  rw [calls_drop_alookup hids3
                                    (by rw [hfid3]; exact hckfk)]
                                  cases hc3 : alookup f3.calls ck with
                                  | none => rw [hc3] at hb2; cases hb2
                                  | some c3 =>
                                    rw [hc3] at hb2
                                    simp only at hb2
                                    simp only
                                    cases hb2
                                    refine ⟨?_, ?_⟩
                                    · rw [drop_write_call hwfr hf3 hckfk hc3 out.id
                                        (match alookup c3.events out.id with
                                         | some old => old + ratio cr totv * r2.2.2
                                         | none => ratio cr totv * r2.2.2)]
                                    · refine SelfWF_frame hwfr
                                        (ProfFrame_setFun out.id r2.1 fk f3 _ hf3 ?_)
                                      exact FunFrame_setCall out.id f3 ck c3 _ hc3
                                        (CallFrame_setEvent out.id c3 _)
                          · rw [if_neg hlt] at hb
                            rw [if_neg hlt]
                            cases hb
                            exact ⟨rfl, hwfs⟩
            · intro hwfst
              simp only
              cases hf4 : getFun st.1 fk with
              | none => rw [hf4] at h; cases h
              | some f4 =>
                rw [hf4] at h
                simp only at h
                cases h
                rw [getFun_drop_some hf4]
                simp only [dropSelfCalls_evs]
                rw [drop_setFun]
                rfl
    have hCyc : ∀ p cid out inEv r, SelfWF p →
        integrateCycle (n + 1) p cid out inEv = .ok r →
        integrateCycle (n + 1) (dropSelf p) cid out inEv = .ok (dropSelf r.1, r.2) := by
      intro p cid out inEv r hwf h
      unfold integrateCycle at h ⊢
      rw [getCyc_drop]
      cases hcl : getCyc p cid with
      | none => rw [hcl] at h; cases h
      | some cyc =>
        rw [hcl] at h
        simp only at h
        simp only
        cases hmo : alookup cyc.events out.id with
        | some v =>
          rw [hmo] at h
          simp only at h
          cases h
          rfl
        | none =>
          rw [hmo] at h
          simp only at h
          simp only
          obtain ⟨stT, hL1, h⟩ := bind_ok_inv h
          refine foldRes_map_bind (fun s : Profile × ℚ => (dropSelf s.1, s.2))
            (fun s => SelfWF s.1 ∧ ProfFrame out.id p s.1)
            (fun mk => mk ∈ cyc.functions) _ _ _ _ cyc.functions
            (p, inEv.null) stT (fun _ hm => hm) ⟨hwf, ProfFrame_refl out.id p⟩
            hL1 ?_ ?_
          · intro s mk u hinv hmk hb
            obtain ⟨hwfs, hpfs⟩ := hinv
            simp only at hb ⊢
            cases hm : getFun s.1 mk with
            | none => rw [hm] at hb; cases hb
            | some m =>
              rw [hm] at hb
              simp only at hb
              rw [getFun_drop_some hm]
              simp only [dropSelfCalls_evs]
              cases hmv : alookup m.events inEv.id with
              | none => rw [hmv] at hb; cases hb
              | some mval =>
                rw [hmv] at hb
                simp only at hb
                simp only
                obtain ⟨st2, hInner, hb2⟩ := bind_ok_inv hb
                cases hb2
                have hids_m := selfwf_callids hwfs hm
                have hmid := selfwf_funid hwfs hm
                have hlist : (dropSelfCalls m).calls.map Prod.fst =
                    (m.calls.map Prod.fst).filter fun k => decide (k ≠ mk) := by
                  unfold dropSelfCalls
                  simp only
                  rw [keys_filter_callid m.id m.calls hids_m, hmid]
                rw [hlist]
                refine foldRes_map_filter_bind
                  (fun s2 : Profile × ℚ => (dropSelf s2.1, s2.2))
                  (fun s2 => SelfWF s2.1 ∧ ProfFrame out.id p s2.1)
                  (fun ck => ck ∈ m.calls.map Prod.fst) _ _
                  (fun k => decide (k ≠ mk)) _ _ _
                  (m.calls.map Prod.fst) (s.1, mval) st2
                  (fun _ hm2 => hm2) ⟨hwfs, hpfs⟩ hInner ?_ ?_ ?_
                · intro s2 ck hinv2 hkm hsel
                  have hckmk : ck = mk := by simpa using hsel
                  rw [hckmk] at hkm ⊢
                  obtain ⟨hwf2, hpf2⟩ := hinv2
                  obtain ⟨f0, hf0, hf0c⟩ := selfwf_member hwf hcl hmk
                  obtain ⟨m2, hm2, hFF⟩ := frame_fun_some hpf2 hf0
                  obtain ⟨m1, hm1, hFF1⟩ := frame_fun_some hpfs hf0
                  rw [show alookup s.1.functions mk = some m from hm] at hm1
                  cases hm1
                  rw [show getFun s2.1 mk = some m2 from hm2]
                  simp only
                  have hkeys2 : m2.calls.map Prod.fst = m.calls.map Prod.fst := by
                    rw [hFF.2.2.2.2.2.2.2.1, hFF1.2.2.2.2.2.2.2.1]
                  have hmem2 : mk ∈ m2.calls.map Prod.fst := by
                    rw [hkeys2]
                    exact hkm
                  cases hc : alookup m2.calls mk with
                  | none => exact absurd (alookup_eq_none.mp hc) (by simpa using hmem2)
                  | some c =>
                    simp only
                    have hcid : c.callee_id = mk :=
                      selfwf_callids hwf2 hm2 (mk, c) (alookup_mem hc)
                    rw [hcid, show getFun s2.1 mk = some m2 from hm2]
                    simp only
                    rw [show m2.cycle = some cid from by
                      rw [hFF.2.2.2.2.2.2.1, hf0c]]
                    rw [if_pos rfl]
                · intro s2 ck u2 hinv2 hkm hsel hb3
                  obtain ⟨hwf2, hpf2⟩ := hinv2
                  have hckmk : ck ≠ mk := of_decide_eq_true hsel
                  simp only at hb3 ⊢
                  cases hm2 : getFun s2.1 mk with
                  | none => rw [hm2] at hb3; cases hb3
                  | some m2 =>
                    rw [hm2] at hb3
                    simp only at hb3
                    rw [getFun_drop_some hm2]
                    simp only
                    have hm2id := selfwf_funid hwf2 hm2
                    rw [calls_drop_alookup (selfwf_callids hwf2 hm2)
                      (by rw [hm2id]; exact hckmk)]
                    cases hc : alookup m2.calls ck with
                    | none => rw [hc] at hb3; cases hb3
                    | some c =>
                      rw [hc] at hb3
                      simp only at hb3
                      simp only
                      cases hcal : getFun s2.1 c.callee_id with
                      | none => rw [hcal] at hb3; cases hb3
                      | some callee =>
                        rw [hcal] at hb3
                        simp only at hb3
                        rw [getFun_drop_some hcal]
                        simp only [dropSelfCalls_cycle]
                        by_cases hcy2 : callee.cycle = some cid
                        · rw [if_pos hcy2] at hb3
                          rw [if_pos hcy2]
                          cases hb3
                          exact ⟨rfl, hwf2, hpf2⟩
                        · rw [if_neg hcy2] at hb3
                          rw [if_neg hcy2]
                          obtain ⟨r2, hrec, hb4⟩ := bind_ok_inv hb3
                          cases hb4
                          have hfr := (integrate_frame n).2.1 s2.1 mk ck out inEv r2 hrec
                          refine ⟨?_, SelfWF_frame hwf2 hfr, ProfFrame_trans hpf2 hfr⟩
                          rw [ihC s2.1 mk ck out inEv r2 hwf2 hckmk hrec, bind_ok]
                · intro hinv2
                  exact ⟨rfl, hinv2⟩
          · intro hinvT
            simp only
            rw [getCyc_drop]
            cases hcl2 : getCyc stT.1 cid with
            | none => rw [hcl2] at h; cases h
            | some cyc1 =>
              rw [hcl2] at h
              simp only at h
              simp only
              rw [show setCyc (dropSelf stT.1) cid
                  { cyc1 with events := aset cyc1.events out.id stT.2 } =
                dropSelf (setCyc stT.1 cid
                  { cyc1 with events := aset cyc1.events out.id stT.2 }) from
                (drop_setCyc stT.1 cid _).symm]
              rw [funKeys_drop]
              obtain ⟨callees, hCS, h⟩ := bind_ok_inv h
              have hpf2 : ProfFrame out.id p (setCyc stT.1 cid
                  { cyc1 with events := aset cyc1.events out.id stT.2 }) :=
                ProfFrame_trans hinvT.2
                  (ProfFrame_setCyc out.id stT.1 cid cyc1 stT.2 hcl2)
              have hwfp2 : SelfWF (setCyc stT.1 cid
                  { cyc1 with events := aset cyc1.events out.id stT.2 }) :=
                SelfWF_frame hwf hpf2
              refine foldRes_map_bind (fun cs : List (Nat × ℚ) => cs) (fun _ => True)
                (fun _ => True) _ _ _ _
                ((setCyc stT.1 cid { cyc1 with events := aset cyc1.events out.id stT.2
                  }).functions.map Prod.fst)
                [] callees (fun _ _ => trivial) trivial hCS ?_ ?_
              · intro cs fk2 u2 _ _ hb
                simp only at hb ⊢
                refine ⟨?_, trivial⟩
                cases hf5 : getFun (setCyc stT.1 cid
                    { cyc1 with events := aset cyc1.events out.id stT.2 }) fk2 with
                | none =>
                  rw [hf5] at hb
                  rw [getFun_drop_none hf5]
                  exact hb
                | some f5 =>
                  rw [hf5] at hb
                  simp only at hb
                  rw [getFun_drop_some hf5]
                  simp only [dropSelfCalls_cycle]
                  have hids5 := selfwf_callids hwfp2 hf5
                  have hfid5 := selfwf_funid hwfp2 hf5
                  by_cases hcy5 : f5.cycle ≠ some cid
                  · rw [if_pos hcy5] at hb
                    rw [if_pos hcy5]
                    have hlist : (dropSelfCalls f5).calls.map Prod.fst =
                        (f5.calls.map Prod.fst).filter fun k => decide (k ≠ fk2) := by
                      unfold dropSelfCalls
                      simp only
                      rw [keys_filter_callid f5.id f5.calls hids5, hfid5]
                    rw [hlist]
                    refine foldRes_filter_eq_ok _ _ _ (fun _ => True)
                      (f5.calls.map Prod.fst) cs _ (fun _ _ => trivial) ?_ ?_ hb
                    · intro cs2 ck _ hsel
                      have hckfk : ck = fk2 := by simpa using hsel
                      rw [hckfk]
                      cases hc5 : alookup f5.calls fk2 with
                      | none => rfl
                      | some c =>
                        simp only
                        have hcid : c.callee_id = fk2 :=
                          hids5 (fk2, c) (alookup_mem hc5)
                        rw [hcid, hf5]
                        simp only
                        rw [if_neg hcy5]
                    · intro cs2 ck _ hsel
                      have hckfk : ck ≠ fk2 := of_decide_eq_true hsel
                      rw [calls_drop_alookup hids5 (by rw [hfid5]; exact hckfk)]
                      cases hc5 : alookup f5.calls ck with
                      | none => rfl
                      | some c =>
                        simp only
                        cases hcal5 : getFun (setCyc stT.1 cid
                            { cyc1 with events := aset cyc1.events out.id stT.2 })
                            c.callee_id with
                        | none => rw [getFun_drop_none hcal5]
                        | some callee5 =>
                          rw [getFun_drop_some hcal5]
                          simp only [dropSelfCalls_cycle]
                  · rw [if_neg hcy5] at hb
                    rw [if_neg hcy5]
                    exact hb
              · intro _
                simp only
                obtain ⟨p3, hMZ, h⟩ := bind_ok_inv h
                refine foldRes_map_bind dropSelf
                  (fun pc => SelfWF pc ∧ ProfFrame out.id p pc)
                  (fun mk => mk ∈ cyc.functions) _ _ _ _ cyc.functions
                  (setCyc stT.1 cid { cyc1 with events := aset cyc1.events out.id stT.2 })
                  p3 (fun _ hm => hm) ⟨hwfp2, hpf2⟩ hMZ ?_ ?_
                · intro pc mk u2 hinv5 _ hb
                  obtain ⟨hwfc, hpfc⟩ := hinv5
                  cases hm : getFun pc mk with
                  | none => rw [hm] at hb; cases hb
                  | some m =>
                    rw [hm] at hb
                    simp only at hb
                    cases hb
                    rw [getFun_drop_some hm]
                    simp only [dropSelfCalls_evs]
                    have hfr : ProfFrame out.id pc (setFun pc mk
                        { m with events := aset m.events out.id out.null }) :=
                      ProfFrame_setFun out.id pc mk m _ hm (FunFrame_setEvent out.id m _)
                    refine ⟨?_, SelfWF_frame hwfc hfr, ProfFrame_trans hpfc hfr⟩
                    rw [drop_setFun]
                    rfl
                · intro hinv3
                  obtain ⟨p4, hEL, h⟩ := bind_ok_inv h
                  refine foldRes_map_bind dropSelf
                    (fun pc => SelfWF pc ∧ ProfFrame out.id p pc)
                    (fun _ => True) _ _ _ _ callees p3 p4
                    (fun _ _ => trivial) hinv3 hEL ?_ ?_
                  · intro pc entry u2 hinv6 _ hb
                    obtain ⟨hwfc, hpfc⟩ := hinv6
                    simp only at hb ⊢
                    obtain ⟨ranks, hrk, hb⟩ := bind_ok_inv hb
                    obtain ⟨crs, hcr, hb⟩ := bind_ok_inv hb
                    obtain ⟨r2, hicf, hb⟩ := bind_ok_inv hb
                    rw [rankCycle_drop hwfc n cid entry.1, hrk, bind_ok]
                    rw [callRatiosCycle_drop hwfc n cid entry.1 ranks ([], []),
                      hcr, bind_ok]
                    rw [ihI pc cid entry.1 entry.2 [] ranks crs.1 out inEv r2
                      hwfc hicf, bind_ok]
                    simp only
                    have hfr := (integrate_frame n).2.2.2 pc cid entry.1 entry.2 []
                      ranks crs.1 out inEv r2 hicf
                    cases hmx : listMax (r2.2.1.map Prod.snd) with
                    | none => rw [hmx] at hb; cases hb
                    | some mx =>
                      rw [hmx] at hb
                      simp only at hb
                      simp only
                      by_cases h1 : |r2.2.2 - mx| ≤ mx / 10000000
                      · rw [if_pos h1] at hb
                        rw [if_pos h1]
                        by_cases h2 : |entry.2 * stT.2 - r2.2.2| ≤
                            entry.2 * stT.2 / 1000
                        · rw [if_pos h2] at hb
                          rw [if_pos h2]
                          cases hb
                          exact ⟨rfl, SelfWF_frame hwfc hfr,
                            ProfFrame_trans hpfc hfr⟩
                        · rw [if_neg h2] at hb; cases hb
                      · rw [if_neg h1] at hb; cases hb
                  · intro hinv4
                    rw [getCyc_drop]
                    cases hclF : getCyc p4 cid with
                    | none => rw [hclF] at h; cases h
                    | some cycF =>
                      rw [hclF] at h
                      simp only at h
                      simp only
                      cases hvl : alookup cycF.events out.id with
                      | none => rw [hvl] at h; cases h
                      | some v =>
                        rw [hvl] at h
                        simp only at h
                        cases h
                        rfl
    have hFun : ∀ p fk out inEv r, SelfWF p →
        integrateFunction (n + 1) p fk out inEv = .ok r →
        integrateFunction (n + 1) (dropSelf p) fk out inEv =
          .ok (dropSelf r.1, r.2) := by
      intro p fk out inEv r hwf h
      unfold integrateFunction at h ⊢
      cases hf : getFun p fk with
      | none => rw [hf] at h; cases h
      | some f =>
        rw [hf] at h
        simp only at h
        rw [getFun_drop_some hf]
        simp only [dropSelfCalls_cycle]
        have hfid := selfwf_funid hwf hf
        have hids := selfwf_callids hwf hf
        cases hcy : f.cycle with
        | some cid =>
          rw [hcy] at h
          simp only
          exact ihY p cid out inEv r hwf h
        | none =>
          rw [hcy] at h
          simp only at h
          simp only [dropSelfCalls_evs]
          cases hmo : alookup f.events out.id with
          | some v =>
            rw [hmo] at h
            simp only at h
            cases h
            rfl
          | none =>
            rw [hmo] at h
            simp only at h
            simp only
            cases hin : alookup f.events inEv.id with
            | none => rw [hin] at h; cases h
            | some t0 =>
              rw [hin] at h
              simp only at h
              simp only
              rw [nonSelfKeys_drop]
              obtain ⟨st, hfold, h⟩ := bind_ok_inv h
              refine foldRes_map_bind (fun s : Profile × ℚ => (dropSelf s.1, s.2))
                (fun s => SelfWF s.1) (fun ck => ck ≠ fk) _ _ _ _
                (nonSelfKeys f) (p, t0) st ?_ hwf hfold ?_ ?_
              · intro ck hm
                have h2 := nonSelfKeys_ne hids hm
                rw [hfid] at h2
                exact h2
              · intro s ck u hwfs hckfk hb
                simp only at hb ⊢
                obtain ⟨r2, hrec, hb2⟩ := bind_ok_inv hb
                cases hb2
                refine ⟨?_, SelfWF_frame hwfs
                  ((integrate_frame n).2.1 s.1 fk ck out inEv r2 hrec)⟩
                rw [ihC s.1 fk ck out inEv r2 hwfs hckfk hrec, bind_ok]
              · intro hwfst
                simp only
                cases hf2 : getFun st.1 fk with
                | none => rw [hf2] at h; cases h
                | some f2 =>
                  rw [hf2] at h
                  simp only at h
                  cases h
                  rw [getFun_drop_some hf2]
                  simp only [dropSelfCalls_evs]
                  rw [drop_setFun]
                  rfl
    exact ⟨hFun, hCall, hCyc, hICF⟩

theorem cycles_drop (p : Profile) : (dropSelf p).cycles = p.cycles := rfl

theorem events_drop (p : Profile) : (dropSelf p).events = p.events := rfl

theorem map_val_zero {α β : Type} (g : α → β) (l : List (Nat × α)) :
    (l.map fun kf => (kf.1, g kf.2)).map (fun kf => (kf.1, (0 : ℚ))) =
      l.map fun kf => (kf.1, (0 : ℚ)) := by
  induction l with
  | nil => rfl
  | cons kv rest ih => simp [ih]

/-- Pass 1 of call_ratios computes the same totals with or without the
self calls: the guard skips them. -/
theorem pass1_drop {p : Profile} (hwf : SelfWF p) (ev : Event) :
    pass1 (dropSelf p) ev = pass1 p ev := by
  simp only [pass1]
  rw [funKeys_drop, cycles_drop,
    show (dropSelf p).functions = p.functions.map fun kf => (kf.1, dropSelfCalls kf.2)
      from rfl,
    map_val_zero]
  refine foldRes_congr _ _ _ ?_ _
  intro st fk _
  cases hf : getFun p fk with
  | none => rw [getFun_drop_none hf]
  | some f =>
    rw [getFun_drop_some hf]
    simp only
    rw [nonSelfKeys_drop]
    refine foldRes_congr _ _ _ ?_ _
    intro st2 ck hck
    have hids := selfwf_callids hwf hf
    rw [calls_drop_alookup hids (nonSelfKeys_ne hids hck)]
    cases alookup f.calls ck with
    | none => rfl
    | some c =>
      simp only
      cases hg : getFun p c.callee_id with
      | none => rw [getFun_drop_none hg]
      | some callee =>
        rw [getFun_drop_some hg]
        simp only [dropSelfCalls_cycle]

theorem foldRes_unit_of_all {α : Type} (g : Unit → α → Res Unit) :
    ∀ (l : List α), (∀ a ∈ l, g () a = .ok ()) → foldRes g () l = .ok () := by
  intro l
  induction l with
  | nil => intro _; rfl
  | cons a l ih =>
    intro h
    simp only [foldRes_cons, h a (List.mem_cons_self _ _), bind_ok]
    exact ih (fun b hb => h b (List.mem_cons_of_mem _ hb))

theorem sanityFun_drop {p : Profile} (hwf : SelfWF p) {out inEv : Event} {fk : Nat}
    (h : sanityFun p out inEv fk = .ok ()) :
    sanityFun (dropSelf p) out inEv fk = .ok () := by
  unfold sanityFun at h ⊢
  cases hf : getFun p fk with
  | none => rw [getFun_drop_none hf]
  | some f =>
    rw [hf] at h
    simp only at h
    rw [getFun_drop_some hf]
    simp only [dropSelfCalls_evs]
    by_cases h1 : emem f.events out.id
    · rw [if_pos h1] at h; cases h
    · rw [if_neg h1] at h
      rw [if_neg h1]
      by_cases h2 : emem f.events inEv.id
      · rw [h2] at h
        simp only [Bool.not_true, Bool.false_eq_true, if_false] at h
        simp only [h2, Bool.not_true, Bool.false_eq_true, if_false]
        have hids := selfwf_callids hwf hf
        have hfid := selfwf_funid hwf hf
        have hall := foldRes_unit_ok _ _ h
        rw [show (dropSelfCalls f).calls.map Prod.fst =
            (f.calls.map Prod.fst).filter (fun k => decide (k ≠ fk)) from by
          unfold dropSelfCalls
          simp only
          rw [keys_filter_callid f.id f.calls hids, hfid]]
        refine foldRes_unit_of_all _ _ ?_
        intro ck hckm
        obtain ⟨hckm2, hsel⟩ := List.mem_filter.mp hckm
        have hck : ck ≠ fk := of_decide_eq_true hsel
        have hq := hall ck hckm2
        rw [calls_drop_alookup hids (by rw [hfid]; exact hck)]
        cases hc : alookup f.calls ck with
        | none => rfl
        | some c =>
          rw [hc] at hq
          simp only at hq ⊢
          rw [dropSelfCalls_id]
          exact hq
      · rw [Bool.not_eq_true] at h2
        rw [h2] at h
        simp at h

theorem sanity_drop {p : Profile} (hwf : SelfWF p) {out inEv : Event}
    (h : sanity p out inEv = .ok ()) : sanity (dropSelf p) out inEv = .ok () := by
  unfold sanity at h ⊢
  by_cases hpe : emem p.events out.id
  · rw [if_pos hpe] at h; cases h
  · rw [if_neg hpe] at h
    rw [show emem (dropSelf p).events out.id = emem p.events out.id from rfl,
      if_neg hpe, funKeys_drop]
    refine foldRes_unit_of_all _ _ ?_
    intro fk hfk
    exact sanityFun_drop hwf (foldRes_unit_ok _ _ h fk hfk)

theorem profileAgg_drop (ev : Event) (p : Profile) :
    profileAgg ev (dropSelf p) = profileAgg ev p := by
  unfold profileAgg
  rw [funKeys_drop]
  refine foldRes_congr _ _ _ ?_ _
  intro t fk _
  cases hf : getFun p fk with
  | none => rw [getFun_drop_none hf]
  | some f =>
    rw [getFun_drop_some hf]
    simp only [dropSelfCalls_evs]

/-- Removing every self call commutes with the whole of integrate. -/
theorem integrate_drop_top {p : Profile} (hwf : SelfWF p) (fuel : Nat)
    (out inEv : Event) {q : Profile} (h : integrate fuel p out inEv = .ok q) :
    integrate fuel (dropSelf p) out inEv = .ok (dropSelf q) := by
  unfold integrate at h ⊢
  obtain ⟨u, hsan, h⟩ := bind_ok_inv h
  cases u
  rw [sanity_drop hwf hsan, bind_ok]
  simp only
  rw [cycles_drop]
  obtain ⟨p1, hcyc, h⟩ := bind_ok_inv h
  refine foldRes_map_bind dropSelf
    (fun pc => SelfWF pc ∧ pc.functions = p.functions) (fun _ => True)
    _ _ _ _ p.cycles p p1 (fun _ _ => trivial) ⟨hwf, rfl⟩ hcyc ?_ ?_
  · intro pc cid u2 hinv _ hb
    obtain ⟨hwfc, hfe⟩ := hinv
    obtain ⟨t, hagg, hb2⟩ := bind_ok_inv hb
    cases hb2
    constructor
    · rw [profileAgg_drop, hagg, bind_ok]
      rfl
    · exact ⟨hwfc, hfe⟩
  · intro hinv1
    obtain ⟨hwf1, hfe1⟩ := hinv1
    rw [funKeys_drop]
    obtain ⟨st, hmain, h⟩ := bind_ok_inv h
    refine foldRes_map_bind (fun s : Profile × ℚ => (dropSelf s.1, s.2))
      (fun s => SelfWF s.1) (fun _ => True) _ _ _ _
      (p1.functions.map Prod.fst) (p1, inEv.null) st
      (fun _ _ => trivial) hwf1 hmain ?_ ?_
    · intro s fk2 u2 hwfs _ hb
      simp only at hb ⊢
      cases hf : getFun s.1 fk2 with
      | none => rw [hf] at hb; cases hb
      | some f =>
        rw [hf] at hb
        simp only at hb
        rw [getFun_drop_some hf]
        simp only [dropSelfCalls_evs]
        cases hv : alookup f.events inEv.id with
        | none => rw [hv] at hb; cases hb
        | some v =>
          rw [hv] at hb
          simp only at hb
          simp only
          obtain ⟨t, hagg, hb⟩ := bind_ok_inv hb
          rw [hagg, bind_ok]
          obtain ⟨r2, hrec, hb⟩ := bind_ok_inv hb
          cases hb
          refine ⟨?_, SelfWF_frame hwfs ((integrate_frame fuel).1 s.1 fk2 out inEv
            r2 hrec)⟩
          rw [(integrate_drop fuel).1 s.1 fk2 out inEv r2 hwfs hrec, bind_ok]
    · intro hwfst
      cases h
      rfl

/-- Claim C5: self calls (callee id equal to the owner's id) are excluded
from the ratio and integration math.  The ratio pass computes the same
function and cycle totals with every self call removed; call_ratios never
assigns a ratio to a self call; and integrate commutes with removing the
self calls, so the inclusive values contain no self-call contribution. -/
theorem claim5 (p : Profile) (ev out inEv : Event) (fuel : Nat) (hwf : SelfWF p) :
    pass1 (dropSelf p) ev = pass1 p ev ∧
    (∀ q fk f ck c, callRatios p ev = .ok q → alookup q.functions fk = some f →
      alookup f.calls ck = some c → c.callee_id = f.id → c.ratio = none) ∧
    ∀ q, integrate fuel p out inEv = .ok q →
      integrate fuel (dropSelf p) out inEv = .ok (dropSelf q) := by
  refine ⟨pass1_drop hwf ev, ?_, ?_⟩
  · intro q fk f ck c h hf hc hself
    unfold callRatios at h
    obtain ⟨tot, h1, h⟩ := bind_ok_inv h
    by_cases hmem : fk ∈ p.functions.map Prod.fst
    · exact ((pass2Outer_spec tot ev _ p q h).2 fk hmem f hf ck c hc).2 hself
    · have heq := (pass2Outer_spec tot ev _ p q h).1 fk hmem
      rw [heq, alookup_eq_none.mpr hmem] at hf
      cases hf
  · intro q h
    exact integrate_drop_top hwf fuel out inEv h

/-- Witness for C5 on the concrete two-function-cycle profile. -/
theorem claim5_witness :
    pass1 (dropSelf pCycC10) TIME = pass1 pCycC10 TIME ∧
    (∀ q fk f ck c, callRatios pCycC10 TIME = .ok q →
      alookup q.functions fk = some f →
      alookup f.calls ck = some c → c.callee_id = f.id → c.ratio = none) ∧
    ∀ q, integrate 19 pCycC10 TOTAL_TIME TIME = .ok q →
      integrate 19 (dropSelf pCycC10) TOTAL_TIME TIME = .ok (dropSelf q) :=
  claim5 pCycC10 TIME TOTAL_TIME TIME 19
    (by
      refine ⟨⟨?_, ?_, ?_, ?_⟩, ?_, ?_⟩
      · unfold FunKeysNodup pCycC10
        decide
      · unfold CallKeysNodup pCycC10
        decide
      · unfold FunIdsOk pCycC10
        decide
      · unfold CallIdsOk pCycC10
        decide
      · unfold CycKeysNodup pCycC10
        decide
      · intro kc hkc m hm
        unfold pCycC10 at hkc
        simp only [List.mem_singleton] at hkc
        subst hkc
        simp only at hm
        have hm2 : m = 1 ∨ m = 2 := by simpa using hm
        rcases hm2 with rfl | rfl
        · exact ⟨mkFun 1 "X" [(2, mkCall 2 (some 1) [])] [(4, 10)] (some 0), rfl, rfl⟩
        · exact ⟨mkFun 2 "Y" [(1, mkCall 1 (some 1) [])] [(4, 5)] (some 0), rfl, rfl⟩)

end Gprof
